import Mathlib

/-!
Fletcher Sum Split (`fletcher_sum_split.c`)

A shallow embedding of the content-defined segment splitter of
`src/fletcher_sum_split.c`, followed by theorems about it.  The file has three
parts: the definitions (the embedding of the C code, then the definitions that
the statements and proofs use), the lemmas, and the theorems on the claims
`C1` to `C20` of the specification.

Conventions of the embedding.

* The build-time parameter `MINSEGSIZE_BITS` is an explicit argument `b` of
  every definition; the value configured in the source is
  `MINSEGSIZE_BITS = 20`, and the `#if` ladder supports `8 ≤ b ≤ 25`.
* `unsigned char` is `Fin 256`.  The `FILE *input` is the list of bytes not
  yet read; `fread` takes a prefix of it.
* The unsigned types `charsum_t`, `fletchsum_t` and `fletchsum_mp_t` are
  natural numbers reduced modulo `2 ^ width` after every operation; the widths
  follow the `#if` ladders of the source with `UINT_BITS = 32` and
  `ULONG_BITS = ULLONG_BITS = 64` (LP64).
* `size_t` counters (`bytes_into_seg`, `last_hit_at`) are natural numbers: they
  count bytes of the stream and would need a stream of `2 ^ 64` bytes to wrap.
* A cStringIO output buffer is the list of bytes written to it so far;
  `NULL` is `none`.  Allocation and I/O failures are not modelled.
-/

set_option autoImplicit false

namespace FletcherSumSplit

/-! ## Constants and integer types -/

/-- An `unsigned char`. -/
abbrev Byte := Fin 256

/-- The value of `MINSEGSIZE_BITS` configured in the source. -/
def MINSEGSIZE_BITS : Nat := 20

/-- The constant `MINSEGSIZE`: `#define MINSEGSIZE (1<<MINSEGSIZE_BITS)`. -/
def MINSEGSIZE (b : Nat) : Nat := 2 ^ b

/-- The constant `SUM_WINDOW_BITS`: `#define SUM_WINDOW_BITS (MINSEGSIZE_BITS-1)`. -/
def SUM_WINDOW_BITS (b : Nat) : Nat := b - 1

/-- The constant `SUM_WINDOW`: `#define SUM_WINDOW (1<<SUM_WINDOW_BITS)`. -/
def SUM_WINDOW (b : Nat) : Nat := 2 ^ SUM_WINDOW_BITS b

/-- The constant `MEAN_SEGMENT_SIZE`: `#define MEAN_SEGMENT_SIZE (4 * MINSEGSIZE)`. -/
def MEAN_SEGMENT_SIZE (b : Nat) : Nat := 4 * MINSEGSIZE b

/-- The `#if MINSEGSIZE_BITS == ...` ladder defining `PRIME`; the `#error`
branch (an unsupported value) is `0`. -/
def PRIME (b : Nat) : Nat :=
  if b = 8 then 257
  else if b = 9 then 509
  else if b = 10 then 1031
  else if b = 11 then 2053
  else if b = 12 then 4093
  else if b = 13 then 8191
  else if b = 14 then 16381
  else if b = 15 then 32771
  else if b = 16 then 65537
  else if b = 17 then 131071
  else if b = 18 then 262147
  else if b = 19 then 524287
  else if b = 20 then 1048573
  else if b = 21 then 2097143
  else if b = 22 then 4194301
  else if b = 23 then 8388593
  else if b = 24 then 16777213
  else if b = 25 then 33554467
  else 0

/-- The constant `CHAR_BIT` of `<limits.h>`. -/
def CHAR_BIT : Nat := 8

/-- The constant `CHARSUM_BITS`: `#define CHARSUM_BITS (SUM_WINDOW_BITS+CHAR_BIT)`. -/
def CHARSUM_BITS (b : Nat) : Nat := SUM_WINDOW_BITS b + CHAR_BIT

/-- The constant `FLETCHSUM_BITS`: `#define FLETCHSUM_BITS (CHARSUM_BITS + SUM_WINDOW_BITS - 1)`. -/
def FLETCHSUM_BITS (b : Nat) : Nat := CHARSUM_BITS b + SUM_WINDOW_BITS b - 1

/-- The constant `FLETCHSUM_MODPRIME_BITS`: `#define FLETCHSUM_MODPRIME_BITS (MINSEGSIZE_BITS < FLETCHSUM_BITS ? ...)`. -/
def FLETCHSUM_MODPRIME_BITS (b : Nat) : Nat :=
  if b < FLETCHSUM_BITS b then b else FLETCHSUM_BITS b

/-- The value of `BITS70(UINT_MAX)` on an LP64 platform. -/
def UINT_BITS : Nat := 32

/-- The value of `BITS70(ULONG_MAX)` on an LP64 platform. -/
def ULONG_BITS : Nat := 64

/-- The value of `BITS70(ULLONG_MAX)` on an LP64 platform. -/
def ULLONG_BITS : Nat := 64

/-- The `#if UINT_BITS > n ... #elif ULONG_BITS > n ...` ladder that picks an
unsigned type for a quantity of `n` bits; the result is the width of the type
picked (`0` stands for the `#error` branch). -/
def pick_width (n : Nat) : Nat :=
  if UINT_BITS > n then UINT_BITS
  else if ULONG_BITS > n then ULONG_BITS
  else if ULLONG_BITS > n then ULLONG_BITS
  else 0

/-- Width in bits of `charsum_t`. -/
def charsum_t (b : Nat) : Nat := pick_width (CHARSUM_BITS b)

/-- Width in bits of `fletchsum_t`. -/
def fletchsum_t (b : Nat) : Nat := pick_width (FLETCHSUM_BITS b)

/-- Width in bits of `fletchsum_mp_t`. -/
def fletchsum_mp_t (b : Nat) : Nat := pick_width (FLETCHSUM_MODPRIME_BITS b)

/-- Conversion of a non-negative value to an unsigned type of `w` bits. -/
def wrap (w n : Nat) : Nat := n % 2 ^ w

/-! ## State -/

/-- The C `struct fss_state`.  `blockstore` is represented by its two halves
`blk` and `prev_blk`. -/
structure fss_state where
  /-- The bytes of the stream that have not been read yet. -/
  input : List Byte
  bytes_into_seg : Nat
  last_hit_at : Nat
  blk : List Byte
  prev_blk : List Byte
  outbuf : Option (List Byte)
  eof : Bool
  char_sum : Nat
  fletch_sum : Nat
  precomputed_remove_oldbyte : List Nat
  deriving DecidableEq, Repr

/-- The value `fread(buf, 1, n, input)` stores and returns: the bytes read
(at most `n`, fewer only at the end of the stream). -/
def fread_got (n : Nat) (input : List Byte) : List Byte := input.take n

/-- The buffer after `fread` stored `got` at its start. -/
def fread_buf (buf got : List Byte) : List Byte := got ++ buf.drop got.length

/-- The call `PycStringIO->cwrite(out, data, n)`: append the first `n` bytes of `data`. -/
def cwrite (out : Option (List Byte)) (data : List Byte) (n : Nat) : Option (List Byte) :=
  out.map (fun o => o ++ data.take n)

/-- The C function `convert_cstringio_to_string`: the bytes held by the buffer. -/
def convert_cstringio_to_string (out : Option (List Byte)) : List Byte :=
  out.getD []

/-! ## `sums_from_scratch` -/

/-- The loop of `sums_from_scratch`, from index `i`, with `n` iterations left;
the state is `(char_sum, fletch_sum)`. -/
def sums_loop (b : Nat) (buf : List Byte) : Nat → Nat → Nat × Nat → Nat × Nat
  | 0, _, acc => acc
  | n + 1, i, (char_sum, fletch_sum) =>
    let char_sum := wrap (charsum_t b) (char_sum + (buf.getD i 0).val)
    let fletch_sum := wrap (fletchsum_t b) (fletch_sum + char_sum)
    sums_loop b buf n (i + 1) (char_sum, fletch_sum)

/-- The C function `sums_from_scratch`. -/
def sums_from_scratch (b : Nat) (fsss : fss_state) (buf : List Byte) : fss_state :=
  let r := sums_loop b buf (SUM_WINDOW b) 0 (0, 0)
  { fsss with
    char_sum := r.1
    fletch_sum := wrap (fletchsum_mp_t b) (r.2 % PRIME b) }

/-! ## `fletcher_sum_split_new` -/

/-- The table built by the `for ( i=0 ; i<256 ; i++ )` loop of
`fletcher_sum_split_new`: entry `i` is
`PRIME - (((charsum_t)SUM_WINDOW * (charsum_t)i) % PRIME)`, computed in
`charsum_t` and stored in `fletchsum_mp_t`. -/
def remove_oldbyte_table (b : Nat) : List Nat :=
  (List.range 256).map fun i =>
    wrap (fletchsum_mp_t b)
      (wrap (charsum_t b)
        (PRIME b - wrap (charsum_t b)
          (wrap (charsum_t b) (SUM_WINDOW b) * wrap (charsum_t b) i) % PRIME b))

/-- The C function `fletcher_sum_split_new`, applied to a stream holding
`input`.  The two blocks and the two sums start as zeros (the source leaves
them uninitialised; they are written before they are read). -/
def fletcher_sum_split_new (b : Nat) (input : List Byte) : fss_state :=
  let fsss : fss_state :=
    { input := input
      bytes_into_seg := 0
      last_hit_at := 0
      blk := List.replicate (SUM_WINDOW b) 0
      prev_blk := List.replicate (SUM_WINDOW b) 0
      outbuf := some []
      eof := false
      char_sum := 0
      fletch_sum := 0
      precomputed_remove_oldbyte := remove_oldbyte_table b }
  let got := fread_got (SUM_WINDOW b) fsss.input
  let gotbytes := got.length
  let fsss := { fsss with
    prev_blk := fread_buf fsss.prev_blk got
    input := fsss.input.drop (SUM_WINDOW b) }
  let fsss := { fsss with bytes_into_seg := gotbytes }
  let fsss := { fsss with outbuf := cwrite fsss.outbuf fsss.prev_blk gotbytes }
  if gotbytes = SUM_WINDOW b then
    let fsss := sums_from_scratch b fsss fsss.prev_blk
    if fsss.fletch_sum = 0 then
      { fsss with last_hit_at := SUM_WINDOW b }
    else fsss
  else
    { fsss with eof := true }

/-! ## `fletcher_sum_split_readsegment` -/

/-- The local variables of `fletcher_sum_split_readsegment` that live across
iterations of its loops. -/
structure locals where
  char_sum : Nat
  fletch_sum : Nat
  complete_seg_outbuf : Option (List Byte)
  newseg_bytes : Nat
  deriving DecidableEq, Repr

/-- What a call of `fletcher_sum_split_readsegment` returns. -/
inductive result where
  /-- A Python string: one segment. -/
  | segment (bytes : List Byte)
  /-- `Py_RETURN_NONE`: the end-of-stream sentinel. -/
  | sentinel
  /-- `return NULL` after `PyErr_SetString(PyExc_AssertionError, ...)`. -/
  | assertion_error
  /-- Not a C outcome: the embedding ran out of loop fuel. -/
  | out_of_fuel
  deriving DecidableEq, Repr

/-- The statement `char_sum += fsss->blk[i] - fsss->prev_blk[i];` with
`x = prev_blk[i]` and `y = blk[i]`: the `int` difference `y - x` is converted
to `charsum_t` (adding `2 ^ width` when negative) and added modulo `2 ^ width`. -/
def roll_char_sum (b char_sum x y : Nat) : Nat :=
  wrap (charsum_t b) (char_sum + wrap (charsum_t b) (2 ^ charsum_t b + y - x))

/-- The statements
`fletch_sum += char_sum + fsss->precomputed_remove_oldbyte[fsss->prev_blk[i]];`
and `fletch_sum %= PRIME;` with `x = prev_blk[i]`.  The sum is formed in the
wider of `charsum_t` and `fletchsum_mp_t` and stored in `fletchsum_mp_t`. -/
def roll_fletch_sum (b : Nat) (table : List Nat) (fletch_sum char_sum x : Nat) : Nat :=
  let wide := max (charsum_t b) (fletchsum_mp_t b)
  wrap (fletchsum_mp_t b)
    (wrap wide (fletch_sum + wrap wide (char_sum + table.getD x 0))) % PRIME b

/-- One iteration, at index `i`, of the `for ( i=0 ; i<SUM_WINDOW ; i++ )`
loop.  `Except.error` is the `return NULL` of the assertion branch. -/
def scan_body (b i : Nat) (fsss : fss_state) (l : locals) :
    Except fss_state (fss_state × locals) :=
  let x := fsss.prev_blk.getD i 0
  let y := fsss.blk.getD i 0
  let char_sum := roll_char_sum b l.char_sum x.val y.val
  let fletch_sum :=
    roll_fletch_sum b fsss.precomputed_remove_oldbyte l.fletch_sum char_sum x.val
  let l := { l with char_sum := char_sum, fletch_sum := fletch_sum }
  if fletch_sum = 0 then
    if fsss.bytes_into_seg + i > fsss.last_hit_at + MINSEGSIZE b then
      -- End of segment pattern found.
      if l.complete_seg_outbuf.isSome then
        Except.error fsss
      else
        let fsss := { fsss with outbuf := cwrite fsss.outbuf fsss.blk (i + 1) }
        let newoutbuf : Option (List Byte) := some []
        let newseg_bytes := SUM_WINDOW b - (i + 1)
        let newoutbuf :=
          if newseg_bytes > 0 then cwrite newoutbuf (fsss.blk.drop (i + 1)) newseg_bytes
          else newoutbuf
        let l := { l with complete_seg_outbuf := fsss.outbuf, newseg_bytes := newseg_bytes }
        let fsss := { fsss with outbuf := newoutbuf }
        Except.ok ({ fsss with last_hit_at := fsss.bytes_into_seg + i }, l)
    else
      Except.ok ({ fsss with last_hit_at := fsss.bytes_into_seg + i }, l)
  else
    Except.ok (fsss, l)

/-- The `for ( i=0 ; i<SUM_WINDOW ; i++ )` loop from index `i`, with `n`
iterations left. -/
def scan_loop (b : Nat) : Nat → Nat → fss_state → locals →
    Except fss_state (fss_state × locals)
  | 0, _, fsss, l => Except.ok (fsss, l)
  | n + 1, i, fsss, l =>
    match scan_body b i fsss l with
    | Except.error e => Except.error e
    | Except.ok (fsss, l) => scan_loop b n (i + 1) fsss l

/-- The `for (;;)` loop of `fletcher_sum_split_readsegment`; the first
argument bounds the number of iterations. -/
def read_loop (b : Nat) : Nat → fss_state → locals → result × fss_state
  | 0, fsss, _ => (result.out_of_fuel, fsss)
  | fuel + 1, fsss, l =>
    let got := fread_got (SUM_WINDOW b) fsss.input
    let gotbytes := got.length
    let fsss := { fsss with
      blk := fread_buf fsss.blk got
      input := fsss.input.drop (SUM_WINDOW b) }
    if gotbytes < SUM_WINDOW b then
      let fsss := { fsss with eof := true }
      let fsss := { fsss with outbuf := cwrite fsss.outbuf fsss.blk gotbytes }
      let pobj := fsss.outbuf
      let fsss := { fsss with outbuf := none }
      (result.segment (convert_cstringio_to_string pobj), fsss)
    else
      let l := { l with complete_seg_outbuf := none }
      match scan_loop b (SUM_WINDOW b) 0 fsss l with
      | Except.error e => (result.assertion_error, e)
      | Except.ok (fsss, l) =>
        let tmp := fsss.blk
        let fsss := { fsss with blk := fsss.prev_blk }
        let fsss := { fsss with prev_blk := tmp }
        match l.complete_seg_outbuf with
        | some seg =>
          let fsss := { fsss with char_sum := l.char_sum }
          let fsss := { fsss with fletch_sum := l.fletch_sum }
          let fsss := { fsss with bytes_into_seg := l.newseg_bytes }
          (result.segment (convert_cstringio_to_string (some seg)), fsss)
        | none =>
          let fsss := { fsss with outbuf := cwrite fsss.outbuf fsss.prev_blk (SUM_WINDOW b) }
          let fsss := { fsss with bytes_into_seg := fsss.bytes_into_seg + SUM_WINDOW b }
          read_loop b fuel fsss l

/-- The C function `fletcher_sum_split_readsegment`.  Every iteration of its
`for (;;)` loop that does not return reads `SUM_WINDOW` bytes, so
`input.length + 1` iterations are enough (`readsegment_fuel_suffices`). -/
def fletcher_sum_split_readsegment (b : Nat) (fsss : fss_state) : result × fss_state :=
  if fsss.eof then
    match fsss.outbuf with
    | some out =>
      (result.segment (convert_cstringio_to_string (some out)), { fsss with outbuf := none })
    | none => (result.sentinel, fsss)
  else
    read_loop b (fsss.input.length + 1) fsss
      { char_sum := fsss.char_sum
        fletch_sum := fsss.fletch_sum
        complete_seg_outbuf := none
        newseg_bytes := 0 }

/-! ## A caller: read until the sentinel -/

/-- Call `readsegment` repeatedly, at most `n` times, collecting the segments
returned before the first sentinel.  The result is `none` when the sentinel
was not reached (an error return, or `n` calls were not enough). -/
def read_segments (b : Nat) : Nat → fss_state → Option (List (List Byte))
  | 0, _ => none
  | n + 1, fsss =>
    match fletcher_sum_split_readsegment b fsss with
    | (result.segment seg, fsss) => (read_segments b n fsss).map (fun segs => seg :: segs)
    | (result.sentinel, _) => some []
    | (_, _) => none

/-- The segmentation of a stream: `new` followed by `readsegment` until the
sentinel. -/
def split (b : Nat) (input : List Byte) : Option (List (List Byte)) :=
  read_segments b (input.length + 2) (fletcher_sum_split_new b input)

/-! ## Auxiliary definitions used by the proofs -/

/-- The pair `(char_sum, fletch_sum)` after the iterations `i, ..., i + n - 1`
of the scan. -/
def block_sums (b : Nat) (table : List Nat) (prev blk : List Byte) :
    Nat → Nat → Nat → Nat → Nat × Nat
  | 0, _, cs, fs => (cs, fs)
  | n + 1, i, cs, fs =>
    block_sums b table prev blk n (i + 1)
      (roll_char_sum b cs (prev.getD i 0).val (blk.getD i 0).val)
      (roll_fletch_sum b table fs
        (roll_char_sum b cs (prev.getD i 0).val (blk.getD i 0).val) (prev.getD i 0).val)

/-- The indices among `i, ..., i + n - 1` at which `fletch_sum == 0` holds
during the scan. -/
def block_hits (b : Nat) (table : List Nat) (prev blk : List Byte) :
    Nat → Nat → Nat → Nat → List Nat
  | 0, _, _, _ => []
  | n + 1, i, cs, fs =>
    if roll_fletch_sum b table fs
        (roll_char_sum b cs (prev.getD i 0).val (blk.getD i 0).val) (prev.getD i 0).val = 0 then
      i :: block_hits b table prev blk n (i + 1)
        (roll_char_sum b cs (prev.getD i 0).val (blk.getD i 0).val)
        (roll_fletch_sum b table fs
          (roll_char_sum b cs (prev.getD i 0).val (blk.getD i 0).val) (prev.getD i 0).val)
    else
      block_hits b table prev blk n (i + 1)
        (roll_char_sum b cs (prev.getD i 0).val (blk.getD i 0).val)
        (roll_fletch_sum b table fs
          (roll_char_sum b cs (prev.getD i 0).val (blk.getD i 0).val) (prev.getD i 0).val)

/-- The value of `last_hit_at` after hits at the indices `hits` of a block
entered with `bytes_into_seg = bis` and `last_hit_at = lh`. -/
def last_hit_after (bis : Nat) (hits : List Nat) (lh : Nat) : Nat :=
  hits.foldl (fun _ j => bis + j) lh

/-- The state and locals after the scan of a block entered with
`complete_seg_outbuf == NULL`, given the hit indices of the block and the sums
on exit: only the first hit can end the segment, and `last_hit_at` ends at the
last hit. -/
def scan_result (b : Nat) (fsss : fss_state) (l : locals) (hits : List Nat)
    (sums : Nat × Nat) : fss_state × locals :=
  match hits with
  | [] => (fsss, { l with char_sum := sums.1, fletch_sum := sums.2 })
  | j :: t =>
    if fsss.bytes_into_seg + j > fsss.last_hit_at + MINSEGSIZE b then
      ({ fsss with
          outbuf := some ((fsss.blk.drop (j + 1)).take (SUM_WINDOW b - (j + 1))),
          last_hit_at := last_hit_after fsss.bytes_into_seg t (fsss.bytes_into_seg + j) },
       { char_sum := sums.1,
         fletch_sum := sums.2,
         complete_seg_outbuf := cwrite fsss.outbuf fsss.blk (j + 1),
         newseg_bytes := SUM_WINDOW b - (j + 1) })
    else
      ({ fsss with
          last_hit_at := last_hit_after fsss.bytes_into_seg t (fsss.bytes_into_seg + j) },
       { l with char_sum := sums.1, fletch_sum := sums.2 })

/-- The state after the `fread` of a loop iteration. -/
def after_fread (b : Nat) (fsss : fss_state) : fss_state :=
  { fsss with
    blk := fread_buf fsss.blk (fread_got (SUM_WINDOW b) fsss.input)
    input := fsss.input.drop (SUM_WINDOW b) }

/-- The state and locals after the scan of the block read by a loop
iteration. -/
def block_scan (b : Nat) (fsss : fss_state) (l : locals) : fss_state × locals :=
  scan_result b (after_fread b fsss) { l with complete_seg_outbuf := none }
    (block_hits b fsss.precomputed_remove_oldbyte fsss.prev_blk (after_fread b fsss).blk
      (SUM_WINDOW b) 0 l.char_sum l.fletch_sum)
    (block_sums b fsss.precomputed_remove_oldbyte fsss.prev_blk (after_fread b fsss).blk
      (SUM_WINDOW b) 0 l.char_sum l.fletch_sum)

/-- The state of the segmenter after `new` and `k` calls of `readsegment`. -/
def nth_state (b : Nat) (input : List Byte) : Nat → fss_state
  | 0 => fletcher_sum_split_new b input
  | k + 1 => (fletcher_sum_split_readsegment b (nth_state b input k)).2

/-- What call number `k` of `readsegment` (counting from `0`) returns. -/
def nth_result (b : Nat) (input : List Byte) (k : Nat) : result :=
  (fletcher_sum_split_readsegment b (nth_state b input k)).1

/-- The bytes of a returned value (the sentinel and the error returns carry
none). -/
def result.bytes : result → List Byte
  | result.segment seg => seg
  | _ => []

/-- The bytes handed to the caller by the calls `0, ..., k - 1`. -/
def delivered (b : Nat) (input : List Byte) : Nat → List Byte
  | 0 => []
  | k + 1 => delivered b input k ++ (nth_result b input k).bytes

/-- Byte accounting: the bytes delivered so far, the bytes in the output
buffer and the unread bytes make up the stream. -/
def accounted (input d : List Byte) (fsss : fss_state) : Prop :=
  (fsss.eof = true → fsss.input = [] ∧ d ++ fsss.outbuf.getD [] = input) ∧
  (fsss.eof = false → ∃ o, fsss.outbuf = some o ∧ o.length = fsss.bytes_into_seg ∧
    d ++ o ++ fsss.input = input)

/-! ## Sample streams for the 256-byte configuration (`MINSEGSIZE_BITS = 8`) -/

/-- 384 bytes `0x01`, 128 bytes `0x00`, 200 bytes `0x01`: with
`MINSEGSIZE_BITS = 8` the first 512 bytes form a segment that ends on the
all-zero window. -/
def sample_two_segments : List Byte :=
  List.replicate 384 1 ++ List.replicate 128 0 ++ List.replicate 200 1

/-- The first 512 bytes of `sample_two_segments`. -/
def sample_first_segment : List Byte :=
  List.replicate 384 1 ++ List.replicate 128 0

/-- The last 200 bytes of `sample_two_segments`. -/
def sample_last_segment : List Byte :=
  List.replicate 200 1

/-- 256 bytes `0x01` followed by 128 bytes `0x00`: with `MINSEGSIZE_BITS = 8`
the stream ends on the last byte of a block, and that byte ends a segment. -/
def sample_boundary_at_end : List Byte :=
  List.replicate 256 1 ++ List.replicate 128 0

/-! ## The sums of a window, as defined in the specification -/

/-- The unsigned byte sum of a window. -/
def byte_sum : List Byte → Nat
  | [] => 0
  | x :: xs => x.val + byte_sum xs

/-- The Fletcher sum of a window `b₁ … bₙ`: the weighted sum `Σⱼ (n - j + 1) · bⱼ`
(the first byte has weight `n`, the last byte weight `1`). -/
def fletcher_sum : List Byte → Nat
  | [] => 0
  | x :: xs => (xs.length + 1) * x.val + fletcher_sum xs

/-- The `SUM_WINDOW` most recent bytes once `i` bytes of the block `blk` have
been scanned after the block `prev`. -/
def window (prev blk : List Byte) (i : Nat) : List Byte :=
  prev.drop i ++ blk.take i

/-- The rolling-sum invariant for the stream `input`, a state `fsss` and the
current values `cs`, `fs` of the two sums: `prev_blk` holds the `SUM_WINDOW`
bytes of the stream just before the unread part, and `cs`, `fs` are the byte
sum and the Fletcher sum modulo `PRIME` of those bytes. -/
def roll_inv (b : Nat) (input : List Byte) (fsss : fss_state) (cs fs : Nat) : Prop :=
  fsss.prev_blk.length = SUM_WINDOW b ∧ fsss.blk.length = SUM_WINDOW b ∧
    fsss.precomputed_remove_oldbyte = remove_oldbyte_table b ∧
    (∃ pre, input = pre ++ fsss.prev_blk ++ fsss.input) ∧
    cs = byte_sum fsss.prev_blk ∧ fs = fletcher_sum fsss.prev_blk % PRIME b

/-- The states and locals at the head of the `for (;;)` loop of `readsegment`
in the run on the stream `input`: on entry of a call made before end of file,
and after every iteration that goes round again. -/
inductive at_loop_head (b : Nat) (input : List Byte) : fss_state → locals → Prop
  | enter (k : Nat) (h : (nth_state b input k).eof = false) :
      at_loop_head b input (nth_state b input k)
        { char_sum := (nth_state b input k).char_sum
          fletch_sum := (nth_state b input k).fletch_sum
          complete_seg_outbuf := none
          newseg_bytes := 0 }
  | again (fsss : fss_state) (l : locals) (f' : fss_state) (l' : locals)
      (h : at_loop_head b input fsss l)
      (hfull : ¬ (fread_got (SUM_WINDOW b) fsss.input).length < SUM_WINDOW b)
      (hscan : scan_loop b (SUM_WINDOW b) 0 (after_fread b fsss)
        { l with complete_seg_outbuf := none } = Except.ok (f', l'))
      (hnone : l'.complete_seg_outbuf = none) :
      at_loop_head b input
        { f' with
          blk := f'.prev_blk
          prev_blk := f'.blk
          outbuf := cwrite f'.outbuf f'.blk (SUM_WINDOW b)
          bytes_into_seg := f'.bytes_into_seg + SUM_WINDOW b }
        l'

/-- The state `fsss` with the unread part of the stream replaced. -/
def with_input (fsss : fss_state) (inp : List Byte) : fss_state :=
  { fsss with input := inp }

/-- The state in which a loop iteration returns a completed segment. -/
def state_after_boundary (b : Nat) (fsss : fss_state) (l : locals) : fss_state :=
  { (block_scan b fsss l).1 with
    blk := fsss.prev_blk
    prev_blk := (after_fread b fsss).blk
    char_sum := (block_scan b fsss l).2.char_sum
    fletch_sum := (block_scan b fsss l).2.fletch_sum
    bytes_into_seg := (block_scan b fsss l).2.newseg_bytes }

/-- The state in which a loop iteration that found no end of segment goes
round again. -/
def state_after_block (b : Nat) (fsss : fss_state) (l : locals) : fss_state :=
  { (block_scan b fsss l).1 with
    blk := fsss.prev_blk
    prev_blk := (after_fread b fsss).blk
    outbuf := cwrite (block_scan b fsss l).1.outbuf (after_fread b fsss).blk (SUM_WINDOW b)
    bytes_into_seg := fsss.bytes_into_seg + SUM_WINDOW b }

/-- Before call number `k`, the runs on `x ++ y` and on `x ++ z` are in step:
their states differ only by the unread input, `r ++ y` against `r ++ z`, where
`r` is the part of `x` not yet read. -/
def in_step (b : Nat) (x y z : List Byte) (k : Nat) : Prop :=
  ∃ s r o, nth_state b (x ++ y) k = with_input s (r ++ y) ∧
    nth_state b (x ++ z) k = with_input s (r ++ z) ∧
    s.eof = false ∧ s.outbuf = some o ∧ o.length = s.bytes_into_seg ∧
    delivered b (x ++ y) k ++ o ++ r = x

/-- Before call number `k` of the run on `x ++ y`, the bytes delivered and
the bytes in the output buffer already reach beyond `x`. -/
def past_common (b : Nat) (x y : List Byte) (k : Nat) : Prop :=
  x.length < (delivered b (x ++ y) k).length +
    ((nth_state b (x ++ y) k).outbuf.getD []).length

/-- 2048 bytes `0x01`: a tail of `8 * MINSEGSIZE` bytes for `MINSEGSIZE_BITS = 8`. -/
def sample_tail_ones : List Byte := List.replicate 2048 1

/-- 2048 bytes `0x00`: a tail of `8 * MINSEGSIZE` bytes for `MINSEGSIZE_BITS = 8`. -/
def sample_tail_zeros : List Byte := List.replicate 2048 0

/-! ## Streams made of two kinds of block

`one_block` is the byte `0x01` followed by zeros, `zero_block` is all zeros.
In a stream made of such blocks every window of `SUM_WINDOW` bytes holds at
most one byte `0x01`, so its Fletcher sum is the weight of that byte (between
`1` and `SUM_WINDOW`, not a multiple of `PRIME`) or `0`: no byte of a
`one_block` is a hit, and every byte of a `zero_block` is a hit. -/

/-- The block `01 00 00 … 00`. -/
def one_block (b : Nat) : List Byte := 1 :: List.replicate (SUM_WINDOW b - 1) 0

/-- The block `00 00 … 00`. -/
def zero_block (b : Nat) : List Byte := List.replicate (SUM_WINDOW b) 0

/-- The stream of `n` blocks `one_block`. -/
def one_blocks (b : Nat) : Nat → List Byte
  | 0 => []
  | n + 1 => one_block b ++ one_blocks b n

/-- The locals on entry of the `for (;;)` loop of `readsegment`. -/
def entry_locals (fsss : fss_state) : locals :=
  { char_sum := fsss.char_sum
    fletch_sum := fsss.fletch_sum
    complete_seg_outbuf := none
    newseg_bytes := 0 }

/-- The `for (;;)` loop with the fuel that `readsegment` gives it. -/
def run_loop (b : Nat) (fsss : fss_state) (l : locals) : result × fss_state :=
  read_loop b (fsss.input.length + 1) fsss l

/-- The situation at a head of the `for (;;)` loop in a stream of
blocks `one_block` and `zero_block`: the output buffer holds `o`,
`last_hit_at` is `lh`, the unread input is `rest`, the previous block is zero
after its first byte, and the sums in the locals are those of the previous
block. -/
def at_block (b : Nat) (fsss : fss_state) (l : locals) (o : List Byte) (lh : Nat)
    (rest : List Byte) : Prop :=
  fsss.eof = false ∧ fsss.outbuf = some o ∧ fsss.bytes_into_seg = o.length ∧
    fsss.last_hit_at = lh ∧ fsss.input = rest ∧
    fsss.prev_blk.length = SUM_WINDOW b ∧ fsss.blk.length = SUM_WINDOW b ∧
    fsss.precomputed_remove_oldbyte = remove_oldbyte_table b ∧
    fsss.prev_blk.drop 1 = List.replicate (SUM_WINDOW b - 1) 0 ∧
    l.char_sum = byte_sum fsss.prev_blk ∧
    l.fletch_sum = fletcher_sum fsss.prev_blk % PRIME b

/-- The tail `t` of the streams that refute re-synchronisation: a
`one_block`, a `zero_block`, `n` blocks `one_block`, a `zero_block` and a
`one_block`. -/
def resync_tail (b n : Nat) : List Byte :=
  one_block b ++ (zero_block b ++ (one_blocks b n ++ (zero_block b ++ one_block b)))

/-- The inserted bytes `c`: `n + 1` blocks `one_block`. -/
def resync_insert (b n : Nat) : List Byte :=
  one_block b ++ one_blocks b n

/-- A segment boundary of the run on `input` falls after the first `q` bytes
of the stream: some call returns a segment that ends there, before the end of
the stream. -/
def is_boundary (b : Nat) (input : List Byte) (q : Nat) : Prop :=
  q < input.length ∧
    ∃ k seg, nth_result b input k = result.segment seg ∧
      (delivered b input (k + 1)).length = q

/-- The re-synchronisation property with the bound `K`: for all byte strings
`a`, `c`, `t`, the runs on `a ++ t` and on `a ++ c ++ t` have the same segment
boundaries more than `K` bytes into `t`. -/
def resync_claim (b K : Nat) : Prop :=
  ∀ (a c t : List Byte) (p : Nat), K < p →
    (is_boundary b (a ++ c ++ t) (a.length + c.length + p) ↔
      is_boundary b (a ++ t) (a.length + p))

/-! ## Definitions for the sums, the table and the end-of-segment pattern -/

/-- The sum of the running sums `b₁`, `b₁ + b₂`, …, `b₁ + … + bₙ` of a
buffer: what the loop of `sums_from_scratch` accumulates when nothing wraps. -/
def running_sums_total (buf : List Byte) : Nat :=
  ((List.range buf.length).map fun k => byte_sum (buf.take (k + 1))).sum

/-- 129 bytes `0x01`: with `MINSEGSIZE_BITS = 8`, one byte more than a window. -/
def sample_window_plus_one : List Byte := List.replicate 129 1

/-- Trial division: `true` when no `m` with `2 ≤ m < k` divides `p`. -/
def no_small_divisor (p : Nat) : Nat → Bool
  | 0 => true
  | k + 1 => (decide (k < 2) || decide (p % k ≠ 0)) && no_small_divisor p k

/-- The supported values of `MINSEGSIZE_BITS` whose `PRIME` is below
`MINSEGSIZE`; for the other supported values `PRIME` is above `MINSEGSIZE`. -/
def prime_below_bits : List Nat := [9, 12, 13, 14, 17, 19, 20, 21, 22, 23, 24]

/-! ## Hits at positions of the stream -/

/-- The `SUM_WINDOW` bytes of the stream that end with the byte at position
`p` (positions are counted from `0`). -/
def window_at (b : Nat) (input : List Byte) (p : Nat) : List Byte :=
  (input.drop (p + 1 - SUM_WINDOW b)).take (SUM_WINDOW b)

/-- The byte at position `p` of the stream is a hit: a full window of
`SUM_WINDOW` bytes ends with it, and the Fletcher sum of that window is `0`
modulo `PRIME`. -/
def is_hit (b : Nat) (input : List Byte) (p : Nat) : Prop :=
  SUM_WINDOW b ≤ p + 1 ∧ p < input.length ∧
    fletcher_sum (window_at b input p) % PRIME b = 0

instance is_hit_decidable (b : Nat) (input : List Byte) (p : Nat) :
    Decidable (is_hit b input p) := by
  unfold is_hit
  exact inferInstance

/-- A segment of the run on `input` ends with the byte at position `p`: some
call returns a segment, and the bytes delivered up to and including that call
are the first `p + 1` bytes of the stream. -/
def ends_segment (b : Nat) (input : List Byte) (p : Nat) : Prop :=
  ∃ k seg, nth_result b input k = result.segment seg ∧
    (delivered b input (k + 1)).length = p + 1

/-- The minimum-distance rule measured from the true previous hit: a hit at
position `p`, in a block that `readsegment` reads in full, whose most recent
prior hit is at position `l`, ends a segment if and only if `p - l` exceeds
`MINSEGSIZE`. -/
def min_distance_claim (b : Nat) : Prop :=
  ∀ (input : List Byte) (p l : Nat),
    SUM_WINDOW b ≤ p → p < SUM_WINDOW b * (input.length / SUM_WINDOW b) →
    is_hit b input p →
    is_hit b input l → l < p → (∀ q, l < q → q < p → ¬ is_hit b input q) →
    (ends_segment b input p ↔ MINSEGSIZE b < p - l)

/-- A stream of nine blocks, `E Z E E Z E E Z E` with `E = one_block` and
`Z = zero_block`: the second `Z` ends a segment on its first byte, and the
first byte of the third `Z` is a hit `2 * SUM_WINDOW + 1` bytes after the
previous hit. -/
def stale_hit_stream (b : Nat) : List Byte :=
  one_block b ++ (zero_block b ++ (one_blocks b 2 ++ (zero_block b ++
    (one_blocks b 2 ++ (zero_block b ++ one_block b)))))

/-- Every hit among the positions of the stream scanned so far (those before
`d + bytes_into_seg`, where `d` bytes were delivered by earlier calls) is at
most at position `d + last_hit_at`. -/
def hits_bounded (b : Nat) (input : List Byte) (d : Nat) (fsss : fss_state) : Prop :=
  ∀ p, is_hit b input p → p < d + fsss.bytes_into_seg → p ≤ d + fsss.last_hit_at

/-- The invariant at a head of the `for (;;)` loop of `readsegment` in the
run on `input`, when the bytes `d` were delivered by earlier calls: the
segmenter is not at end of file, the bytes delivered, the output buffer and
the unread bytes make up the stream, the sums in the locals are those of the
window before the unread bytes, and `hits_bounded` holds. -/
def head_inv (b : Nat) (input d : List Byte) (fsss : fss_state) (l : locals) : Prop :=
  fsss.eof = false ∧
    (∃ o, fsss.outbuf = some o ∧ o.length = fsss.bytes_into_seg ∧
      d ++ o ++ fsss.input = input) ∧
    roll_inv b input fsss l.char_sum l.fletch_sum ∧
    hits_bounded b input d.length fsss

/-- The end-of-segment pattern at the end `e` of a segment (the segment ends
with the byte at position `e - 1`): that byte is a hit, and none of the
`MINSEGSIZE` positions before it is a hit. -/
def sound_end (b : Nat) (input : List Byte) (e : Nat) : Prop :=
  MINSEGSIZE b < e ∧ is_hit b input (e - 1) ∧
    ∀ q, e - 1 - MINSEGSIZE b ≤ q → q < e - 1 → ¬ is_hit b input q

/-! # Theorems -/

/-! ## Elementary facts about the constants -/

theorem SUM_WINDOW_pos (b : Nat) : 0 < SUM_WINDOW b := by
  unfold SUM_WINDOW
  exact Nat.pow_pos (by decide)

theorem SUM_WINDOW_le_MINSEGSIZE (b : Nat) : SUM_WINDOW b ≤ MINSEGSIZE b := by
  unfold SUM_WINDOW MINSEGSIZE SUM_WINDOW_BITS
  exact Nat.pow_le_pow_right (by decide) (Nat.sub_le b 1)

/-! ## The scan of one block, described by its hits

The sums computed while a block is scanned depend only on the two blocks, the
table and the sums on entry.  `block_hits` lists the indices of the block at
which the rolling Fletcher sum is zero, `block_sums` gives the sums on exit. -/

theorem block_hits_ge (b : Nat) (table : List Nat) (prev blk : List Byte) (n i cs fs : Nat) :
    ∀ j ∈ block_hits b table prev blk n i cs fs, i ≤ j ∧ j < i + n := by
  induction n generalizing i cs fs with
  | zero => intro j hj; simp [block_hits] at hj
  | succ n ih =>
    intro j hj
    unfold block_hits at hj
    split at hj
    · rcases List.mem_cons.1 hj with rfl | hj
      · omega
      · have := ih _ _ _ j hj; omega
    · have := ih _ _ _ j hj; omega

theorem last_hit_after_ge (bis : Nat) (hits : List Nat) (lh : Nat) (h : bis ≤ lh) :
    bis ≤ last_hit_after bis hits lh := by
  induction hits generalizing lh with
  | nil => simpa [last_hit_after] using h
  | cons j t ih =>
    have := ih (bis + j) (Nat.le_add_right _ _)
    simpa [last_hit_after] using this

/-- While `bytes_into_seg ≤ last_hit_at`, no index of a block can satisfy the
end-of-segment test: the scan only moves `last_hit_at`. -/
theorem scan_loop_no_boundary (b n i : Nat) (fsss : fss_state) (l : locals)
    (hn : i + n ≤ MINSEGSIZE b) (hl : fsss.bytes_into_seg ≤ fsss.last_hit_at) :
    scan_loop b n i fsss l = Except.ok
      ({ fsss with
          last_hit_at :=
            last_hit_after fsss.bytes_into_seg
              (block_hits b fsss.precomputed_remove_oldbyte fsss.prev_blk fsss.blk n i
                l.char_sum l.fletch_sum) fsss.last_hit_at },
       { l with
          char_sum :=
            (block_sums b fsss.precomputed_remove_oldbyte fsss.prev_blk fsss.blk n i
              l.char_sum l.fletch_sum).1,
          fletch_sum :=
            (block_sums b fsss.precomputed_remove_oldbyte fsss.prev_blk fsss.blk n i
              l.char_sum l.fletch_sum).2 }) := by
  induction n generalizing i fsss l with
  | zero => rfl
  | succ n ih =>
    unfold scan_loop scan_body block_hits block_sums
    by_cases hz : roll_fletch_sum b fsss.precomputed_remove_oldbyte l.fletch_sum
        (roll_char_sum b l.char_sum (fsss.prev_blk.getD i 0).val (fsss.blk.getD i 0).val)
        (fsss.prev_blk.getD i 0).val = 0
    · have hno : ¬ (fsss.bytes_into_seg + i > fsss.last_hit_at + MINSEGSIZE b) := by omega
      simp only [hz, hno, if_true, if_false]
      rw [ih (i + 1) _ _ (by omega) (by simp)]
      simp [last_hit_after]
    · simp only [hz, if_false]
      rw [ih (i + 1) _ _ (by omega) hl]

/-- The buffer that starts the next segment holds the rest of the block. -/
theorem newoutbuf_eq (blk : List Byte) (k : Nat) :
    (if k > 0 then cwrite (some []) blk k else some []) = some (blk.take k) := by
  by_cases hk : k > 0
  · simp [hk, cwrite]
  · have : k = 0 := by omega
    simp [this]

@[simp] theorem scan_result_input (b : Nat) (fsss : fss_state) (l : locals) (hits : List Nat)
    (sums : Nat × Nat) : (scan_result b fsss l hits sums).1.input = fsss.input := by
  unfold scan_result; split <;> (try split) <;> rfl

@[simp] theorem scan_result_bytes_into_seg (b : Nat) (fsss : fss_state) (l : locals)
    (hits : List Nat) (sums : Nat × Nat) :
    (scan_result b fsss l hits sums).1.bytes_into_seg = fsss.bytes_into_seg := by
  unfold scan_result; split <;> (try split) <;> rfl

@[simp] theorem scan_result_blk (b : Nat) (fsss : fss_state) (l : locals) (hits : List Nat)
    (sums : Nat × Nat) : (scan_result b fsss l hits sums).1.blk = fsss.blk := by
  unfold scan_result; split <;> (try split) <;> rfl

@[simp] theorem scan_result_prev_blk (b : Nat) (fsss : fss_state) (l : locals) (hits : List Nat)
    (sums : Nat × Nat) : (scan_result b fsss l hits sums).1.prev_blk = fsss.prev_blk := by
  unfold scan_result; split <;> (try split) <;> rfl

@[simp] theorem scan_result_eof (b : Nat) (fsss : fss_state) (l : locals) (hits : List Nat)
    (sums : Nat × Nat) : (scan_result b fsss l hits sums).1.eof = fsss.eof := by
  unfold scan_result; split <;> (try split) <;> rfl

@[simp] theorem scan_result_state_char_sum (b : Nat) (fsss : fss_state) (l : locals)
    (hits : List Nat) (sums : Nat × Nat) :
    (scan_result b fsss l hits sums).1.char_sum = fsss.char_sum := by
  unfold scan_result; split <;> (try split) <;> rfl

@[simp] theorem scan_result_state_fletch_sum (b : Nat) (fsss : fss_state) (l : locals)
    (hits : List Nat) (sums : Nat × Nat) :
    (scan_result b fsss l hits sums).1.fletch_sum = fsss.fletch_sum := by
  unfold scan_result; split <;> (try split) <;> rfl

@[simp] theorem scan_result_table (b : Nat) (fsss : fss_state) (l : locals) (hits : List Nat)
    (sums : Nat × Nat) :
    (scan_result b fsss l hits sums).1.precomputed_remove_oldbyte =
      fsss.precomputed_remove_oldbyte := by
  unfold scan_result; split <;> (try split) <;> rfl

@[simp] theorem scan_result_char_sum (b : Nat) (fsss : fss_state) (l : locals) (hits : List Nat)
    (sums : Nat × Nat) : (scan_result b fsss l hits sums).2.char_sum = sums.1 := by
  unfold scan_result; split <;> (try split) <;> rfl

@[simp] theorem scan_result_fletch_sum (b : Nat) (fsss : fss_state) (l : locals) (hits : List Nat)
    (sums : Nat × Nat) : (scan_result b fsss l hits sums).2.fletch_sum = sums.2 := by
  unfold scan_result; split <;> (try split) <;> rfl

/-- The scan of a block (or of a part of it) entered with
`complete_seg_outbuf == NULL` never takes the assertion branch, and its effect
is `scan_result`. -/
theorem scan_loop_eq (b n i : Nat) (fsss : fss_state) (l : locals)
    (hn : i + n ≤ MINSEGSIZE b) (hc : l.complete_seg_outbuf = none) :
    scan_loop b n i fsss l = Except.ok
      (scan_result b fsss l
        (block_hits b fsss.precomputed_remove_oldbyte fsss.prev_blk fsss.blk n i
          l.char_sum l.fletch_sum)
        (block_sums b fsss.precomputed_remove_oldbyte fsss.prev_blk fsss.blk n i
          l.char_sum l.fletch_sum)) := by
  induction n generalizing i fsss l with
  | zero => rfl
  | succ n ih =>
    unfold scan_loop scan_body block_hits block_sums
    by_cases hz : roll_fletch_sum b fsss.precomputed_remove_oldbyte l.fletch_sum
        (roll_char_sum b l.char_sum (fsss.prev_blk.getD i 0).val (fsss.blk.getD i 0).val)
        (fsss.prev_blk.getD i 0).val = 0
    · by_cases hb : fsss.bytes_into_seg + i > fsss.last_hit_at + MINSEGSIZE b
      · simp only [hz, hb, hc, if_true, Option.isSome_none, Bool.false_eq_true, if_false,
          newoutbuf_eq]
        rw [scan_loop_no_boundary b n (i + 1) _ _ (by omega) (by simp)]
        simp [scan_result, hb]
      · simp only [hz, hb, if_true, if_false]
        rw [scan_loop_no_boundary b n (i + 1) _ _ (by omega) (by simp)]
        simp [scan_result, hb]
    · simp only [hz, if_false]
      exact (ih (i + 1) _ _ (by omega) (by exact hc)).trans (by rfl)

/-! ## One iteration of the `for (;;)` loop -/

/-- A loop iteration whose `fread` comes back short returns the last
segment. -/
theorem read_loop_short (b fuel : Nat) (fsss : fss_state) (l : locals) (o : List Byte)
    (ho : fsss.outbuf = some o) (h : fsss.input.length < SUM_WINDOW b) :
    read_loop b (fuel + 1) fsss l =
      (result.segment (o ++ fsss.input),
       { after_fread b fsss with eof := true, outbuf := none }) := by
  have htake : List.take (SUM_WINDOW b) fsss.input = fsss.input :=
    List.take_of_length_le (Nat.le_of_lt h)
  unfold read_loop
  simp [fread_got, htake, h, after_fread, fread_buf, cwrite, convert_cstringio_to_string, ho]

/-- A loop iteration whose `fread` fills the block scans it; it returns the
completed segment when the scan found the end of one, and goes round again
otherwise. -/
theorem read_loop_full (b fuel : Nat) (fsss : fss_state) (l : locals)
    (h : SUM_WINDOW b ≤ fsss.input.length) :
    read_loop b (fuel + 1) fsss l =
      match (block_scan b fsss l).2.complete_seg_outbuf with
      | some seg =>
        (result.segment seg,
         { (block_scan b fsss l).1 with
            blk := fsss.prev_blk,
            prev_blk := (after_fread b fsss).blk,
            char_sum := (block_scan b fsss l).2.char_sum,
            fletch_sum := (block_scan b fsss l).2.fletch_sum,
            bytes_into_seg := (block_scan b fsss l).2.newseg_bytes })
      | none =>
        read_loop b fuel
          { (block_scan b fsss l).1 with
            blk := fsss.prev_blk,
            prev_blk := (after_fread b fsss).blk,
            outbuf := cwrite (block_scan b fsss l).1.outbuf (after_fread b fsss).blk
              (SUM_WINDOW b),
            bytes_into_seg := fsss.bytes_into_seg + SUM_WINDOW b }
          (block_scan b fsss l).2 := by
  have hlen : ¬ (List.take (SUM_WINDOW b) fsss.input).length < SUM_WINDOW b := by
    simp [List.length_take]; omega
  rw [read_loop]
  simp only [fread_got, hlen, if_false]
  rw [scan_loop_eq b (SUM_WINDOW b) 0 _ _ (by simpa using SUM_WINDOW_le_MINSEGSIZE b) rfl]
  simp only [block_scan, after_fread, fread_got]
  split <;> rename_i hc
  · simp [convert_cstringio_to_string]
  · congr 1
    simp

/-- The block that a full `fread` stores starts with the bytes read. -/
theorem after_fread_blk_take (b : Nat) (fsss : fss_state) (k : Nat)
    (h : SUM_WINDOW b ≤ fsss.input.length) (hk : k ≤ SUM_WINDOW b) :
    (after_fread b fsss).blk.take k = fsss.input.take k := by
  have hlen : (List.take (SUM_WINDOW b) fsss.input).length = SUM_WINDOW b := by
    simp [List.length_take]; omega
  simp only [after_fread, fread_buf, fread_got]
  rw [List.take_append_of_le_length (by omega), List.take_take]
  congr 1
  omega

theorem after_fread_blk_drop (b : Nat) (fsss : fss_state) (k : Nat)
    (h : SUM_WINDOW b ≤ fsss.input.length) (hk : k ≤ SUM_WINDOW b) :
    ((after_fread b fsss).blk.drop k).take (SUM_WINDOW b - k) =
      (fsss.input.take (SUM_WINDOW b)).drop k := by
  have hlen : (List.take (SUM_WINDOW b) fsss.input).length = SUM_WINDOW b := by
    simp [List.length_take]; omega
  simp only [after_fread, fread_buf, fread_got]
  rw [List.drop_append_of_le_length (by omega), List.take_append_of_le_length (by simp; omega)]
  apply List.take_of_length_le
  simp
  omega

/-- The two outcomes of the scan of a full block: either no segment ends in
it and the output buffer is untouched, or the segment ends at some index `j`
of the block that passes the distance test. -/
theorem block_scan_cases (b : Nat) (fsss : fss_state) (l : locals) (o : List Byte)
    (ho : fsss.outbuf = some o) (h : SUM_WINDOW b ≤ fsss.input.length) :
    ((block_scan b fsss l).2.complete_seg_outbuf = none ∧
      (block_scan b fsss l).1.outbuf = some o) ∨
    (∃ j, j < SUM_WINDOW b ∧
      fsss.last_hit_at + MINSEGSIZE b < fsss.bytes_into_seg + j ∧
      (block_scan b fsss l).2.complete_seg_outbuf = some (o ++ fsss.input.take (j + 1)) ∧
      (block_scan b fsss l).1.outbuf = some ((fsss.input.take (SUM_WINDOW b)).drop (j + 1)) ∧
      (block_scan b fsss l).2.newseg_bytes = SUM_WINDOW b - (j + 1) ∧
      ∃ t, block_hits b fsss.precomputed_remove_oldbyte fsss.prev_blk (after_fread b fsss).blk
        (SUM_WINDOW b) 0 l.char_sum l.fletch_sum = j :: t) := by
  unfold block_scan
  have hmem := block_hits_ge b fsss.precomputed_remove_oldbyte fsss.prev_blk
    (after_fread b fsss).blk (SUM_WINDOW b) 0 l.char_sum l.fletch_sum
  generalize block_hits b fsss.precomputed_remove_oldbyte fsss.prev_blk
    (after_fread b fsss).blk (SUM_WINDOW b) 0 l.char_sum l.fletch_sum = hits at hmem ⊢
  cases hits with
  | nil => left; simp [scan_result, after_fread, ho]
  | cons j t =>
    have hj : j < SUM_WINDOW b := by
      have := (hmem j (List.mem_cons_self _ _)).2; omega
    by_cases hb : fsss.bytes_into_seg + j > fsss.last_hit_at + MINSEGSIZE b
    · right
      refine ⟨j, hj, hb, ?_, ?_, ?_, t, rfl⟩
      · have h1 := after_fread_blk_take b fsss (j + 1) h (by omega)
        have hb' : (after_fread b fsss).bytes_into_seg + j >
            (after_fread b fsss).last_hit_at + MINSEGSIZE b := hb
        simp only [scan_result, hb', if_true, cwrite]
        rw [h1]
        simp [after_fread, ho]
      · have h2 := after_fread_blk_drop b fsss (j + 1) h (by omega)
        have hb' : (after_fread b fsss).bytes_into_seg + j >
            (after_fread b fsss).last_hit_at + MINSEGSIZE b := hb
        simp only [scan_result, hb', if_true]
        rw [h2]
      · have hb' : (after_fread b fsss).bytes_into_seg + j >
            (after_fread b fsss).last_hit_at + MINSEGSIZE b := hb
        simp only [scan_result, hb', if_true]
    · left
      have hb' : ¬ (after_fread b fsss).bytes_into_seg + j >
          (after_fread b fsss).last_hit_at + MINSEGSIZE b := hb
      simp only [scan_result, hb', if_false]
      simp [after_fread, ho]

/-! ## One call of `readsegment` -/

/-- What one run of the `for (;;)` loop returns, from a state whose output
buffer holds `o`: a segment `o ++ mid`, where either `mid` is all the input
that was left (the last segment, `eof` is now set and the buffer is gone), or
`mid` ends at the end-of-segment pattern, the segment is longer than
`MINSEGSIZE`, and the new buffer `o'` holds the rest of the block read last. -/
theorem read_loop_spec (b : Nat) (fuel : Nat) (fsss : fss_state) (l : locals) (o : List Byte)
    (ho : fsss.outbuf = some o) (hfuel : fsss.input.length < fuel)
    (hbis : o.length = fsss.bytes_into_seg) :
    ∃ mid s', read_loop b fuel fsss l = (result.segment (o ++ mid), s') ∧
      ((s'.eof = true ∧ s'.outbuf = none ∧ s'.input = [] ∧ mid = fsss.input) ∨
       (s'.eof = fsss.eof ∧ ∃ o', s'.outbuf = some o' ∧ o'.length = s'.bytes_into_seg ∧
          mid ++ o' ++ s'.input = fsss.input ∧ MINSEGSIZE b < (o ++ mid).length ∧
          s'.input.length < fsss.input.length ∧
          s'.input.length % SUM_WINDOW b = fsss.input.length % SUM_WINDOW b)) := by
  induction fuel generalizing fsss l o with
  | zero => omega
  | succ fuel ih =>
    by_cases hshort : fsss.input.length < SUM_WINDOW b
    · refine ⟨fsss.input, _, read_loop_short b fuel fsss l o ho hshort, Or.inl ⟨rfl, rfl, ?_, rfl⟩⟩
      simp [after_fread]
      omega
    · have hfull : SUM_WINDOW b ≤ fsss.input.length := by omega
      have hW := SUM_WINDOW_pos b
      rw [read_loop_full b fuel fsss l hfull]
      rcases block_scan_cases b fsss l o ho hfull with
        ⟨hc, hout⟩ | ⟨j, hj, hb, hc, hout, hnew, -⟩
      · simp only [hc]
        have htake := after_fread_blk_take b fsss (SUM_WINDOW b) hfull (Nat.le_refl _)
        obtain ⟨mid, s', hrun, hcases⟩ := ih
          { (block_scan b fsss l).1 with
            blk := fsss.prev_blk,
            prev_blk := (after_fread b fsss).blk,
            outbuf := cwrite (block_scan b fsss l).1.outbuf (after_fread b fsss).blk
              (SUM_WINDOW b),
            bytes_into_seg := fsss.bytes_into_seg + SUM_WINDOW b }
          (block_scan b fsss l).2 (o ++ fsss.input.take (SUM_WINDOW b))
          (by simp [hout, cwrite, htake])
          (by simp [block_scan, after_fread]; omega)
          (by simp [List.length_take]; omega)
        refine ⟨fsss.input.take (SUM_WINDOW b) ++ mid, s', ?_, ?_⟩
        · rw [hrun]; simp
        · rcases hcases with ⟨h1, h2, h3, h4⟩ | ⟨h1, o', h2, h3, h4, h5, h6, h7⟩
          · left
            refine ⟨h1, h2, h3, ?_⟩
            rw [h4]
            simp [block_scan, after_fread]
          · right
            have hdrop : (fsss.input.drop (SUM_WINDOW b)).length % SUM_WINDOW b =
                fsss.input.length % SUM_WINDOW b := by
              rw [List.length_drop]
              conv_rhs => rw [← Nat.sub_add_cancel hfull]
              rw [Nat.add_mod_right]
            refine ⟨?_, o', h2, h3, ?_, ?_, ?_, ?_⟩
            rotate_left 4
            · rw [← hdrop, h7]
              simp [block_scan, after_fread]
            · rw [h1]; simp [block_scan, after_fread]
            · have h4' : mid ++ o' ++ s'.input = fsss.input.drop (SUM_WINDOW b) := by
                simpa [block_scan, after_fread] using h4
              rw [List.append_assoc, List.append_assoc, ← List.append_assoc mid, h4',
                List.take_append_drop]
            · simpa [List.append_assoc] using h5
            · have h6' : s'.input.length < (fsss.input.drop (SUM_WINDOW b)).length := by
                simpa [block_scan, after_fread] using h6
              simp at h6'
              omega
      · simp only [hc]
        have hdrop : (fsss.input.drop (SUM_WINDOW b)).length % SUM_WINDOW b =
            fsss.input.length % SUM_WINDOW b := by
          rw [List.length_drop]
          conv_rhs => rw [← Nat.sub_add_cancel hfull]
          rw [Nat.add_mod_right]
        refine ⟨fsss.input.take (j + 1), _, rfl, Or.inr ⟨?_,
          (fsss.input.take (SUM_WINDOW b)).drop (j + 1), ?_, ?_, ?_, ?_, ?_, ?_⟩⟩
        rotate_left 6
        · rw [← hdrop]
          simp [block_scan, after_fread]
        · simp [block_scan, after_fread]
        · simpa using hout
        · simp [hnew, List.length_take]
          omega
        · simp only [block_scan, scan_result_input, after_fread]
          have e1 : fsss.input.take (j + 1) = (fsss.input.take (SUM_WINDOW b)).take (j + 1) := by
            rw [List.take_take]; congr 1; omega
          rw [e1, List.take_append_drop, List.take_append_drop]
        · simp [List.length_take]
          omega
        · simp [block_scan, after_fread]
          omega

/-! ## The state after `new` -/

theorem fread_buf_take (buf got : List Byte) : (fread_buf buf got).take got.length = got := by
  simp [fread_buf]

theorem new_outbuf (b : Nat) (input : List Byte) :
    (fletcher_sum_split_new b input).outbuf = some (input.take (SUM_WINDOW b)) := by
  unfold fletcher_sum_split_new
  simp only [sums_from_scratch]
  split_ifs <;>
    simp only [cwrite, Option.map, List.nil_append, fread_buf_take] <;> rfl

theorem new_input (b : Nat) (input : List Byte) :
    (fletcher_sum_split_new b input).input = input.drop (SUM_WINDOW b) := by
  unfold fletcher_sum_split_new
  simp only [sums_from_scratch]
  split_ifs <;> rfl

theorem new_bytes_into_seg (b : Nat) (input : List Byte) :
    (fletcher_sum_split_new b input).bytes_into_seg = (input.take (SUM_WINDOW b)).length := by
  unfold fletcher_sum_split_new
  simp only [sums_from_scratch]
  split_ifs <;> rfl

theorem new_eof_of_short (b : Nat) (input : List Byte) (h : input.length < SUM_WINDOW b) :
    (fletcher_sum_split_new b input).eof = true := by
  have hne : ¬ (fread_got (SUM_WINDOW b) input).length = SUM_WINDOW b := by
    simp [fread_got, List.length_take]; omega
  unfold fletcher_sum_split_new
  simp only [hne, if_false]

theorem new_eof_of_full (b : Nat) (input : List Byte) (h : SUM_WINDOW b ≤ input.length) :
    (fletcher_sum_split_new b input).eof = false := by
  have hne : (fread_got (SUM_WINDOW b) input).length = SUM_WINDOW b := by
    simp [fread_got, List.length_take]; omega
  unfold fletcher_sum_split_new
  simp only [hne, if_true, sums_from_scratch]
  split_ifs <;> rfl

/-! ## Calls of `readsegment` in the two end-of-file states -/

theorem readsegment_eof_some (b : Nat) (fsss : fss_state) (o : List Byte)
    (he : fsss.eof = true) (ho : fsss.outbuf = some o) :
    fletcher_sum_split_readsegment b fsss = (result.segment o, { fsss with outbuf := none }) := by
  simp [fletcher_sum_split_readsegment, he, ho, convert_cstringio_to_string]

theorem readsegment_eof_none (b : Nat) (fsss : fss_state)
    (he : fsss.eof = true) (ho : fsss.outbuf = none) :
    fletcher_sum_split_readsegment b fsss = (result.sentinel, fsss) := by
  simp [fletcher_sum_split_readsegment, he, ho]

theorem readsegment_live (b : Nat) (fsss : fss_state) (he : fsss.eof = false) :
    fletcher_sum_split_readsegment b fsss =
      read_loop b (fsss.input.length + 1) fsss
        { char_sum := fsss.char_sum
          fletch_sum := fsss.fletch_sum
          complete_seg_outbuf := none
          newseg_bytes := 0 } := by
  simp [fletcher_sum_split_readsegment, he]

/-! ## Reading until the sentinel -/

/-- From a state whose output buffer holds `o`, reading until the sentinel
returns the segments `segs ++ [last]`: together they are `o` followed by the
unread input, every segment of `segs` is longer than `MINSEGSIZE`, and `last`
is not empty when the unread input is not a whole number of blocks. -/
theorem read_segments_spec (b n : Nat) (fsss : fss_state) (o : List Byte)
    (ho : fsss.outbuf = some o) (hlive : fsss.eof = false → o.length = fsss.bytes_into_seg)
    (heof : fsss.eof = true → fsss.input = []) (hn : fsss.input.length + 2 ≤ n) :
    ∃ segs last, read_segments b n fsss = some (segs ++ [last]) ∧
      (segs ++ [last]).flatten = o ++ fsss.input ∧
      (∀ seg ∈ segs, MINSEGSIZE b < seg.length) ∧
      (fsss.input.length % SUM_WINDOW b ≠ 0 → last ≠ []) ∧
      (fsss.eof = true → segs = [] ∧ last = o) := by
  induction n generalizing fsss o with
  | zero => omega
  | succ n ih =>
    have hdone : ∀ s' : fss_state, s'.eof = true → s'.outbuf = none →
        read_segments b n s' = some [] := by
      intro s' h1 h2
      obtain ⟨m, rfl⟩ : ∃ m, n = m + 1 := ⟨n - 1, by omega⟩
      simp [read_segments, readsegment_eof_none b s' h1 h2]
    cases he : fsss.eof with
    | true =>
      have hin := heof he
      refine ⟨[], o, ?_, by simp [hin], by simp, by simp [hin], fun _ => ⟨rfl, rfl⟩⟩
      rw [read_segments, readsegment_eof_some b fsss o he ho]
      simp [hdone { fsss with outbuf := none } he rfl]
    | false =>
      obtain ⟨mid, s', hrun, hcases⟩ := read_loop_spec b (fsss.input.length + 1) fsss
        { char_sum := fsss.char_sum
          fletch_sum := fsss.fletch_sum
          complete_seg_outbuf := none
          newseg_bytes := 0 } o ho (Nat.lt_succ_self _) (hlive he)
      rw [read_segments, readsegment_live b fsss he, hrun]
      rcases hcases with ⟨h1, h2, h3, h4⟩ | ⟨h1, o', h2, h3, h4, h5, h6, h7⟩
      · refine ⟨[], o ++ mid, ?_, by simp [h4], by simp, ?_, by simp⟩
        · simp [hdone s' h1 h2]
        · intro hne hnil
          have : mid = [] := (List.append_eq_nil.1 hnil).2
          rw [h4] at this
          simp [this] at hne
      · have he' : s'.eof = false := by rw [h1, he]
        obtain ⟨segs, last, hrs, hflat, hlen, hlast, -⟩ := ih s' o' h2 (fun _ => h3)
          (by intro h; rw [he'] at h; cases h) (by omega)
        refine ⟨(o ++ mid) :: segs, last, ?_, ?_, ?_, ?_, by simp⟩
        · simp [hrs]
        · simp only [List.cons_append, List.flatten_cons, hflat]
          rw [← h4]
          simp [List.append_assoc]
        · intro seg hseg
          rcases List.mem_cons.1 hseg with rfl | hseg
          · exact h5
          · exact hlen seg hseg
        · intro hne
          exact hlast (by rw [h7]; exact hne)

/-- The segmentation of any stream: `split` reaches the sentinel, the
segments returned are `segs ++ [last]`, they make up the stream, and every
segment of `segs` is longer than `MINSEGSIZE`. -/
theorem split_spec (b : Nat) (input : List Byte) :
    ∃ segs last, split b input = some (segs ++ [last]) ∧
      (segs ++ [last]).flatten = input ∧
      (∀ seg ∈ segs, MINSEGSIZE b < seg.length) ∧
      (input.length % SUM_WINDOW b ≠ 0 → last ≠ []) ∧
      (input.length < SUM_WINDOW b → segs = [] ∧ last = input) := by
  obtain ⟨segs, last, h1, h2, h3, h4, h5⟩ := read_segments_spec b (input.length + 2)
    (fletcher_sum_split_new b input) (input.take (SUM_WINDOW b)) (new_outbuf b input)
    (fun _ => (new_bytes_into_seg b input).symm)
    (by
      intro he
      by_cases hlt : input.length < SUM_WINDOW b
      · rw [new_input]; exact List.drop_eq_nil_of_le (Nat.le_of_lt hlt)
      · rw [new_eof_of_full b input (by omega)] at he; cases he)
    (by rw [new_input, List.length_drop]; omega)
  rw [new_input, List.take_append_drop] at h2
  refine ⟨segs, last, h1, h2, h3, ?_, ?_⟩
  · intro hne
    by_cases hlt : input.length < SUM_WINDOW b
    · obtain ⟨-, hl⟩ := h5 (new_eof_of_short b input hlt)
      rw [hl, List.take_of_length_le (Nat.le_of_lt hlt)]
      intro hnil
      rw [hnil] at hne
      simp at hne
    · apply h4
      rw [new_input, List.length_drop]
      have hfull : SUM_WINDOW b ≤ input.length := by omega
      intro h0
      apply hne
      conv_lhs => rw [← Nat.sub_add_cancel hfull]
      rw [Nat.add_mod_right]
      exact h0
  · intro hlt
    obtain ⟨hs, hl⟩ := h5 (new_eof_of_short b input hlt)
    exact ⟨hs, by rw [hl, List.take_of_length_le (Nat.le_of_lt hlt)]⟩

/-! ## The sequence of calls made by a caller -/

theorem accounted_new (b : Nat) (input : List Byte) :
    accounted input [] (fletcher_sum_split_new b input) := by
  constructor
  · intro he
    have hlt : input.length < SUM_WINDOW b := by
      by_contra hlt
      rw [new_eof_of_full b input (by omega)] at he
      cases he
    rw [new_input, new_outbuf]
    exact ⟨List.drop_eq_nil_of_le (Nat.le_of_lt hlt),
      by simp [List.take_of_length_le (Nat.le_of_lt hlt)]⟩
  · intro _
    exact ⟨_, new_outbuf b input, (new_bytes_into_seg b input).symm,
      by rw [new_input]; simp⟩

theorem accounted_step (b : Nat) (input d : List Byte) (fsss : fss_state)
    (h : accounted input d fsss) :
    (fletcher_sum_split_readsegment b fsss = (result.sentinel, fsss) ∧
      fsss.eof = true ∧ fsss.outbuf = none ∧ d = input) ∨
    (∃ seg, (fletcher_sum_split_readsegment b fsss).1 = result.segment seg ∧
      accounted input (d ++ seg) (fletcher_sum_split_readsegment b fsss).2) := by
  cases he : fsss.eof with
  | true =>
    obtain ⟨hin, hd⟩ := h.1 he
    cases ho : fsss.outbuf with
    | none =>
      left
      exact ⟨readsegment_eof_none b fsss he ho, rfl, rfl, by simpa [ho] using hd⟩
    | some o =>
      right
      rw [readsegment_eof_some b fsss o he ho]
      refine ⟨o, rfl, ?_, ?_⟩
      · intro _; exact ⟨hin, by simpa [ho] using hd⟩
      · intro h'; simp [he] at h'
  | false =>
    right
    obtain ⟨o, ho, hbis, hd⟩ := h.2 he
    obtain ⟨mid, s', hrun, hcases⟩ := read_loop_spec b (fsss.input.length + 1) fsss
      { char_sum := fsss.char_sum
        fletch_sum := fsss.fletch_sum
        complete_seg_outbuf := none
        newseg_bytes := 0 } o ho (Nat.lt_succ_self _) hbis
    rw [readsegment_live b fsss he, hrun]
    refine ⟨o ++ mid, rfl, ?_⟩
    rcases hcases with ⟨h1, h2, h3, h4⟩ | ⟨h1, o', h2, h3, h4, -, -, -⟩
    · constructor
      · intro _
        refine ⟨h3, ?_⟩
        simp only [h2, Option.getD_none, List.append_nil]
        rw [h4, ← List.append_assoc]; exact hd
      · intro h'; simp [h1] at h'
    · constructor
      · intro h'; simp [h1, he] at h'
      · intro _
        refine ⟨o', h2, h3, ?_⟩
        rw [← hd, ← h4]
        simp [List.append_assoc]

theorem accounted_nth (b : Nat) (input : List Byte) (k : Nat) :
    accounted input (delivered b input k) (nth_state b input k) := by
  induction k with
  | zero => exact accounted_new b input
  | succ k ih =>
    rcases accounted_step b input _ _ ih with ⟨h1, -, -, -⟩ | ⟨seg, h1, h2⟩
    · have hs : nth_state b input (k + 1) = nth_state b input k := by
        simp [nth_state, h1]
      have hd : delivered b input (k + 1) = delivered b input k := by
        simp [delivered, nth_result, h1, result.bytes]
      rw [hs, hd]; exact ih
    · have hd : delivered b input (k + 1) = delivered b input k ++ seg := by
        simp [delivered, nth_result, h1, result.bytes]
      rw [hd]; exact h2

/-- The loop of `readsegment` never returns through the assertion branch. -/
theorem read_loop_no_assertion (b fuel : Nat) (fsss : fss_state) (l : locals) :
    (read_loop b fuel fsss l).1 ≠ result.assertion_error := by
  induction fuel generalizing fsss l with
  | zero => simp [read_loop]
  | succ fuel ih =>
    by_cases hshort : fsss.input.length < SUM_WINDOW b
    · have hlen : (fread_got (SUM_WINDOW b) fsss.input).length < SUM_WINDOW b := by
        simp [fread_got, List.length_take]; omega
      rw [read_loop]
      simp [hlen]
    · rw [read_loop_full b fuel fsss l (by omega)]
      split
      · simp
      · exact ih _ _

/-- The first call after `new` on a stream of at most `SUM_WINDOW` bytes
returns the whole stream and leaves the segmenter at end of file with no
buffer. -/
theorem first_call_short (b : Nat) (input : List Byte) (h : input.length ≤ SUM_WINDOW b) :
    ∃ s', fletcher_sum_split_readsegment b (fletcher_sum_split_new b input) =
        (result.segment input, s') ∧ s'.eof = true ∧ s'.outbuf = none := by
  have hout : (fletcher_sum_split_new b input).outbuf = some input := by
    rw [new_outbuf, List.take_of_length_le h]
  by_cases hlt : input.length < SUM_WINDOW b
  · exact ⟨_, readsegment_eof_some b _ input (new_eof_of_short b input hlt) hout, 
      new_eof_of_short b input hlt, rfl⟩
  · have hin : (fletcher_sum_split_new b input).input = [] := by
      rw [new_input]; exact List.drop_eq_nil_of_le h
    rw [readsegment_live b _ (new_eof_of_full b input (by omega))]
    rw [hin]
    have := read_loop_short b 0 (fletcher_sum_split_new b input)
      { char_sum := (fletcher_sum_split_new b input).char_sum
        fletch_sum := (fletcher_sum_split_new b input).fletch_sum
        complete_seg_outbuf := none
        newseg_bytes := 0 } input hout (by rw [hin]; exact SUM_WINDOW_pos b)
    rw [hin, List.append_nil] at this
    exact ⟨_, this, rfl, rfl⟩

/-- The first two calls after `new` on a stream of at most `SUM_WINDOW`
bytes: the whole stream, then the sentinel. -/
theorem first_calls_short (b : Nat) (input : List Byte) (h : input.length ≤ SUM_WINDOW b) :
    nth_result b input 0 = result.segment input ∧ nth_result b input 1 = result.sentinel := by
  obtain ⟨s', h1, h2, h3⟩ := first_call_short b input h
  constructor
  · simp [nth_result, nth_state, h1]
  · simp [nth_result, nth_state, h1, readsegment_eof_none b s' h2 h3]

/-- No call of `readsegment` returns through the assertion branch. -/
theorem readsegment_no_assertion (b : Nat) (fsss : fss_state) :
    (fletcher_sum_split_readsegment b fsss).1 ≠ result.assertion_error := by
  unfold fletcher_sum_split_readsegment
  split
  · split <;> simp
  · exact read_loop_no_assertion b _ _ _

/-- Once a call has returned the sentinel, the state no longer changes. -/
theorem nth_state_after_sentinel (b : Nat) (input : List Byte) (k : Nat)
    (h : fletcher_sum_split_readsegment b (nth_state b input k) =
      (result.sentinel, nth_state b input k)) (m : Nat) :
    nth_state b input (k + m) = nth_state b input k := by
  induction m with
  | zero => rfl
  | succ m ih =>
    show (fletcher_sum_split_readsegment b (nth_state b input (k + m))).2 = _
    rw [ih, h]

/-! ## Arithmetic of the two sums -/

theorem byte_sum_append (u v : List Byte) : byte_sum (u ++ v) = byte_sum u + byte_sum v := by
  induction u with
  | nil => simp [byte_sum]
  | cons x u ih => simp [byte_sum, ih, Nat.add_assoc]

theorem byte_sum_le (w : List Byte) : byte_sum w ≤ 255 * w.length := by
  induction w with
  | nil => simp [byte_sum]
  | cons x w ih =>
    have := x.isLt
    simp only [byte_sum, List.length_cons]
    omega

/-- Appending a byte raises every weight by one: the sum of the running
prefix sums. -/
theorem fletcher_sum_concat (w : List Byte) (y : Byte) :
    fletcher_sum (w ++ [y]) = fletcher_sum w + byte_sum (w ++ [y]) := by
  induction w with
  | nil => simp [fletcher_sum, byte_sum]
  | cons x w ih =>
    show fletcher_sum (x :: (w ++ [y])) = fletcher_sum (x :: w) + byte_sum (x :: (w ++ [y]))
    rw [fletcher_sum, fletcher_sum, byte_sum, ih, List.length_append, List.length_singleton]
    ring

theorem two_fletcher_sum_le (w : List Byte) :
    2 * fletcher_sum w ≤ 255 * (w.length * (w.length + 1)) := by
  induction w with
  | nil => simp [fletcher_sum]
  | cons x w ih =>
    have hx : x.val ≤ 255 := Nat.le_of_lt_succ x.isLt
    simp only [fletcher_sum, List.length_cons]
    have h1 : (w.length + 1) * x.val ≤ (w.length + 1) * 255 := Nat.mul_le_mul_left _ hx
    nlinarith

/-- The integer types picked for the supported configurations below 25 bits. -/
theorem widths_of_supported (b : Nat) (h8 : 8 ≤ b) (h24 : b ≤ 24) :
    charsum_t b = 32 ∧ fletchsum_mp_t b = 32 ∧ 0 < PRIME b ∧
      255 * SUM_WINDOW b + 2 * PRIME b < 2 ^ 32 := by
  interval_cases b <;> decide

/-- The Fletcher sum of a window fits `fletchsum_t`. -/
theorem fletchsum_t_fits (b : Nat) (h8 : 8 ≤ b) (h25 : b ≤ 25) :
    255 * (SUM_WINDOW b * (SUM_WINDOW b + 1)) < 2 * 2 ^ fletchsum_t b ∧
      255 * SUM_WINDOW b < 2 ^ charsum_t b := by
  interval_cases b <;> decide

theorem wrap_of_lt (w n : Nat) (h : n < 2 ^ w) : wrap w n = n :=
  Nat.mod_eq_of_lt h

/-- The entry of the table for the byte `x`, in the supported configurations
below 25 bits. -/
theorem table_getD (b : Nat) (h8 : 8 ≤ b) (h24 : b ≤ 24) (x : Nat) (hx : x < 256) :
    (remove_oldbyte_table b).getD x 0 = PRIME b - (SUM_WINDOW b * x) % PRIME b := by
  obtain ⟨hc, hm, hP, hbound⟩ := widths_of_supported b h8 h24
  have hW : SUM_WINDOW b * x < 2 ^ 32 := by
    have : SUM_WINDOW b * x ≤ SUM_WINDOW b * 255 := Nat.mul_le_mul_left _ (by omega)
    omega
  have hW1 : SUM_WINDOW b < 2 ^ 32 := by omega
  unfold remove_oldbyte_table
  rw [List.getD_eq_getElem?_getD, List.getElem?_map, List.getElem?_range hx]
  simp only [Option.map_some', Option.getD_some, hc, hm]
  rw [wrap_of_lt 32 (SUM_WINDOW b) hW1, wrap_of_lt 32 x (by omega),
    wrap_of_lt 32 (SUM_WINDOW b * x) hW,
    wrap_of_lt 32 (PRIME b - SUM_WINDOW b * x % PRIME b) (by omega),
    wrap_of_lt 32 (PRIME b - SUM_WINDOW b * x % PRIME b) (by omega)]

/-- The modular identity behind the rolling update: adding `P - (W·x) mod P`
removes the weight-`W` contribution of the byte that leaves the window. -/
theorem fletch_roll_mod (P F Fw cs Wx : Nat) (hP : 0 < P) (hF : F = Wx + Fw) :
    (F % P + cs + (P - Wx % P)) % P = (Fw + cs) % P := by
  have hr : Wx % P < P := Nat.mod_lt _ hP
  have hdiv : P * (Wx / P) + Wx % P = Wx := Nat.div_add_mod Wx P
  have e : F + (cs + (P - Wx % P)) = (Fw + cs) + P * (Wx / P + 1) := by
    rw [hF, Nat.mul_add, Nat.mul_one]; omega
  rw [Nat.add_assoc, Nat.mod_add_mod, e, Nat.add_mul_mod_self_left]

/-- One rolling step on a window `x :: w` of `SUM_WINDOW` bytes, with the new
byte `y`: `char_sum` becomes the byte sum of `w ++ [y]`. -/
theorem roll_char_sum_eq (b : Nat) (h8 : 8 ≤ b) (h24 : b ≤ 24) (x y : Byte) (w : List Byte)
    (hw : w.length + 1 = SUM_WINDOW b) :
    roll_char_sum b (byte_sum (x :: w)) x.val y.val = byte_sum (w ++ [y]) := by
  obtain ⟨hc, hm, hP, hbound⟩ := widths_of_supported b h8 h24
  have h1 := byte_sum_le w
  have hx := x.isLt
  have hy := y.isLt
  have e : byte_sum (w ++ [y]) = byte_sum w + y.val := by
    rw [byte_sum_append]; simp [byte_sum]
  rw [e]
  unfold roll_char_sum wrap
  rw [hc]
  simp only [byte_sum]
  norm_num at hbound ⊢
  omega

/-- One rolling step on a window `x :: w` of `SUM_WINDOW` bytes, with the new
byte `y`: `fletch_sum` becomes the Fletcher sum of `w ++ [y]` modulo `PRIME`. -/
theorem roll_fletch_sum_eq (b : Nat) (h8 : 8 ≤ b) (h24 : b ≤ 24) (x y : Byte) (w : List Byte)
    (hw : w.length + 1 = SUM_WINDOW b) :
    roll_fletch_sum b (remove_oldbyte_table b) (fletcher_sum (x :: w) % PRIME b)
        (byte_sum (w ++ [y])) x.val =
      fletcher_sum (w ++ [y]) % PRIME b := by
  obtain ⟨hc, hm, hP, hbound⟩ := widths_of_supported b h8 h24
  have h1 := byte_sum_le (w ++ [y])
  have hlen : (w ++ [y]).length = SUM_WINDOW b := by simp [hw]
  have hfs : fletcher_sum (x :: w) % PRIME b < PRIME b := Nat.mod_lt _ hP
  have ht : PRIME b - (SUM_WINDOW b * x.val) % PRIME b ≤ PRIME b := Nat.sub_le _ _
  unfold roll_fletch_sum
  simp only [hc, hm, Nat.max_self, table_getD b h8 h24 x.val x.isLt]
  have e1 := wrap_of_lt 32
    (byte_sum (w ++ [y]) + (PRIME b - (SUM_WINDOW b * x.val) % PRIME b)) (by omega)
  have e2 := wrap_of_lt 32 (fletcher_sum (x :: w) % PRIME b +
    (byte_sum (w ++ [y]) + (PRIME b - (SUM_WINDOW b * x.val) % PRIME b))) (by omega)
  rw [e1, e2, e2, ← Nat.add_assoc, fletcher_sum_concat]
  exact fletch_roll_mod (PRIME b) _ _ _ _ hP (by rw [fletcher_sum, hw])

/-! ## The rolling sums during the scan of a block -/

theorem window_length (prev blk : List Byte) (i : Nat) (hi : i ≤ prev.length)
    (hb : i ≤ blk.length) : (window prev blk i).length = prev.length := by
  simp [window, List.length_take]
  omega

/-- The window before index `i` is scanned starts with `prev[i]`; after the
scan that byte is gone and `blk[i]` has been appended. -/
theorem window_step (prev blk : List Byte) (i : Nat) (hp : i < prev.length)
    (hb : i < blk.length) :
    window prev blk i = prev.getD i 0 :: (prev.drop (i + 1) ++ blk.take i) ∧
      window prev blk (i + 1) = (prev.drop (i + 1) ++ blk.take i) ++ [blk.getD i 0] := by
  constructor
  · simp only [window]
    rw [List.drop_eq_getElem_cons hp, List.getD_eq_getElem _ _ hp]
    rfl
  · simp only [window]
    rw [List.take_succ, List.getD_eq_getElem _ _ hb, List.getElem?_eq_getElem hb]
    simp

/-- One step of the scan keeps the two sums equal to the sums of the window. -/
theorem roll_window (b : Nat) (h8 : 8 ≤ b) (h24 : b ≤ 24) (prev blk : List Byte) (i : Nat)
    (hp : prev.length = SUM_WINDOW b) (hb : SUM_WINDOW b ≤ blk.length)
    (hi : i < SUM_WINDOW b) :
    roll_char_sum b (byte_sum (window prev blk i)) (prev.getD i 0).val (blk.getD i 0).val =
        byte_sum (window prev blk (i + 1)) ∧
      roll_fletch_sum b (remove_oldbyte_table b) (fletcher_sum (window prev blk i) % PRIME b)
          (byte_sum (window prev blk (i + 1))) (prev.getD i 0).val =
        fletcher_sum (window prev blk (i + 1)) % PRIME b := by
  obtain ⟨e1, e2⟩ := window_step prev blk i (by omega) (by omega)
  have hw : (prev.drop (i + 1) ++ blk.take i).length + 1 = SUM_WINDOW b := by
    simp [List.length_take]
    omega
  rw [e1, e2]
  exact ⟨roll_char_sum_eq b h8 h24 _ _ _ hw, roll_fletch_sum_eq b h8 h24 _ _ _ hw⟩

/-- The sums after the scan of the indices `i, ..., i + n - 1` of a block are
the sums of the window that ends at index `i + n - 1`. -/
theorem block_sums_eq (b : Nat) (h8 : 8 ≤ b) (h24 : b ≤ 24) (prev blk : List Byte)
    (hp : prev.length = SUM_WINDOW b) (hb : SUM_WINDOW b ≤ blk.length) (n i : Nat)
    (hin : i + n ≤ SUM_WINDOW b) :
    block_sums b (remove_oldbyte_table b) prev blk n i (byte_sum (window prev blk i))
        (fletcher_sum (window prev blk i) % PRIME b) =
      (byte_sum (window prev blk (i + n)), fletcher_sum (window prev blk (i + n)) % PRIME b) := by
  induction n generalizing i with
  | zero => rfl
  | succ n ih =>
    obtain ⟨e1, e2⟩ := roll_window b h8 h24 prev blk i hp hb (by omega)
    rw [block_sums, e1, e2, ih (i + 1) (by omega)]
    rw [show i + 1 + n = i + (n + 1) by omega]

/-- The hits of a block are the indices at which the window that ends there
has a Fletcher sum divisible by `PRIME`. -/
theorem mem_block_hits (b : Nat) (h8 : 8 ≤ b) (h24 : b ≤ 24) (prev blk : List Byte)
    (hp : prev.length = SUM_WINDOW b) (hb : SUM_WINDOW b ≤ blk.length) (n i : Nat)
    (hin : i + n ≤ SUM_WINDOW b) (j : Nat) :
    j ∈ block_hits b (remove_oldbyte_table b) prev blk n i (byte_sum (window prev blk i))
        (fletcher_sum (window prev blk i) % PRIME b) ↔
      i ≤ j ∧ j < i + n ∧ fletcher_sum (window prev blk (j + 1)) % PRIME b = 0 := by
  induction n generalizing i with
  | zero => simp [block_hits]; omega
  | succ n ih =>
    obtain ⟨e1, e2⟩ := roll_window b h8 h24 prev blk i hp hb (by omega)
    rw [block_hits, e1, e2]
    by_cases hz : fletcher_sum (window prev blk (i + 1)) % PRIME b = 0
    · rw [if_pos hz, List.mem_cons, ih (i + 1) (by omega)]
      constructor
      · rintro (rfl | ⟨h1, h2, h3⟩)
        · exact ⟨Nat.le_refl _, by omega, hz⟩
        · exact ⟨by omega, by omega, h3⟩
      · rintro ⟨h1, h2, h3⟩
        by_cases hji : j = i
        · exact Or.inl hji
        · exact Or.inr ⟨by omega, by omega, h3⟩
    · rw [if_neg hz, ih (i + 1) (by omega)]
      constructor
      · rintro ⟨h1, h2, h3⟩
        exact ⟨by omega, by omega, h3⟩
      · rintro ⟨h1, h2, h3⟩
        have hji : j ≠ i := by
          rintro rfl
          exact hz h3
        exact ⟨by omega, by omega, h3⟩

/-! ## `sums_from_scratch` computes the sums of the window -/

theorem fletcher_sum_fits (b : Nat) (h8 : 8 ≤ b) (h24 : b ≤ 24) (w : List Byte)
    (hw : w.length ≤ SUM_WINDOW b) :
    byte_sum w < 2 ^ charsum_t b ∧ fletcher_sum w < 2 ^ fletchsum_t b := by
  obtain ⟨h1, h2⟩ := fletchsum_t_fits b h8 (by omega)
  have h3 := byte_sum_le w
  have h4 := two_fletcher_sum_le w
  have h5 : w.length * (w.length + 1) ≤ SUM_WINDOW b * (SUM_WINDOW b + 1) :=
    Nat.mul_le_mul hw (by omega)
  constructor
  · omega
  · omega

/-- The loop of `sums_from_scratch` keeps the byte sum and the Fletcher sum of
the bytes seen so far. -/
theorem sums_loop_eq (b : Nat) (h8 : 8 ≤ b) (h24 : b ≤ 24) (buf : List Byte) (n i : Nat)
    (hin : i + n ≤ SUM_WINDOW b) (hb : i + n ≤ buf.length) :
    sums_loop b buf n i (byte_sum (buf.take i), fletcher_sum (buf.take i)) =
      (byte_sum (buf.take (i + n)), fletcher_sum (buf.take (i + n))) := by
  induction n generalizing i with
  | zero => rfl
  | succ n ih =>
    have hi : i < buf.length := by omega
    have htake : buf.take (i + 1) = buf.take i ++ [buf.getD i 0] := by
      rw [List.take_succ, List.getD_eq_getElem _ _ hi, List.getElem?_eq_getElem hi]
      rfl
    obtain ⟨hc, hf⟩ := fletcher_sum_fits b h8 h24 (buf.take (i + 1))
      (by simp [List.length_take]; omega)
    have e1 : wrap (charsum_t b) (byte_sum (buf.take i) + (buf.getD i 0).val) =
        byte_sum (buf.take (i + 1)) := by
      have : byte_sum (buf.take (i + 1)) = byte_sum (buf.take i) + (buf.getD i 0).val := by
        rw [htake, byte_sum_append]; simp [byte_sum]
      rw [← this]
      exact wrap_of_lt _ _ hc
    have e2 : wrap (fletchsum_t b) (fletcher_sum (buf.take i) + byte_sum (buf.take (i + 1))) =
        fletcher_sum (buf.take (i + 1)) := by
      have : fletcher_sum (buf.take (i + 1)) =
          fletcher_sum (buf.take i) + byte_sum (buf.take (i + 1)) := by
        rw [htake, fletcher_sum_concat]
      rw [← this]
      exact wrap_of_lt _ _ hf
    rw [sums_loop]
    simp only [e1, e2]
    rw [ih (i + 1) (by omega) (by omega)]
    rw [show i + 1 + n = i + (n + 1) by omega]

/-- The state left by `new` on a stream of at least `SUM_WINDOW` bytes. -/
theorem new_eq_of_full (b : Nat) (h8 : 8 ≤ b) (h24 : b ≤ 24) (input : List Byte)
    (h : SUM_WINDOW b ≤ input.length) :
    fletcher_sum_split_new b input =
      { input := input.drop (SUM_WINDOW b)
        bytes_into_seg := SUM_WINDOW b
        last_hit_at :=
          if fletcher_sum (input.take (SUM_WINDOW b)) % PRIME b = 0 then SUM_WINDOW b else 0
        blk := List.replicate (SUM_WINDOW b) 0
        prev_blk := input.take (SUM_WINDOW b)
        outbuf := some (input.take (SUM_WINDOW b))
        eof := false
        char_sum := byte_sum (input.take (SUM_WINDOW b))
        fletch_sum := fletcher_sum (input.take (SUM_WINDOW b)) % PRIME b
        precomputed_remove_oldbyte := remove_oldbyte_table b } := by
  obtain ⟨hc, hm, hP, hbound⟩ := widths_of_supported b h8 h24
  have hlen : (fread_got (SUM_WINDOW b) input).length = SUM_WINDOW b := by
    simp [fread_got, List.length_take]; omega
  have hbuf : fread_buf (List.replicate (SUM_WINDOW b) 0) (fread_got (SUM_WINDOW b) input) =
      input.take (SUM_WINDOW b) := by
    unfold fread_buf
    rw [hlen]
    simp [fread_got]
  have hsums := sums_loop_eq b h8 h24 (input.take (SUM_WINDOW b)) (SUM_WINDOW b) 0
    (by omega) (by simp [List.length_take]; omega)
  simp only [List.take_zero, byte_sum, fletcher_sum, Nat.zero_add] at hsums
  have htt : (input.take (SUM_WINDOW b)).take (SUM_WINDOW b) = input.take (SUM_WINDOW b) := by
    rw [List.take_take, Nat.min_self]
  rw [htt] at hsums
  have hfl : wrap (fletchsum_mp_t b) (fletcher_sum (input.take (SUM_WINDOW b)) % PRIME b) =
      fletcher_sum (input.take (SUM_WINDOW b)) % PRIME b := by
    apply wrap_of_lt
    have := Nat.mod_lt (fletcher_sum (input.take (SUM_WINDOW b))) hP
    rw [hm]; omega
  unfold fletcher_sum_split_new
  simp only [hlen, if_true, sums_from_scratch, hbuf, hsums, hfl, cwrite, Option.map,
    List.nil_append, htt]
  split_ifs <;> rfl

/-! ## The rolling-sum invariant along a run -/

theorem window_zero (prev blk : List Byte) : window prev blk 0 = prev := by
  simp [window]

theorem window_full (prev blk : List Byte) (n : Nat) (h : prev.length = n) :
    window prev blk n = blk.take n := by
  simp [window, List.drop_eq_nil_of_le (Nat.le_of_eq h)]

theorem after_fread_blk_eq (b : Nat) (fsss : fss_state) (hblk : fsss.blk.length = SUM_WINDOW b)
    (h : SUM_WINDOW b ≤ fsss.input.length) :
    (after_fread b fsss).blk = fsss.input.take (SUM_WINDOW b) := by
  have hlen : (List.take (SUM_WINDOW b) fsss.input).length = SUM_WINDOW b := by
    simp [List.length_take]; omega
  simp only [after_fread, fread_buf, fread_got, hlen]
  rw [List.drop_eq_nil_of_le (Nat.le_of_eq hblk), List.append_nil]

theorem window_take (prev blk : List Byte) (n i : Nat) (h : i ≤ n) :
    window prev (blk.take n) i = window prev blk i := by
  simp only [window, List.take_take]
  rw [Nat.min_eq_left h]

/-- Under the rolling-sum invariant, the sums after the scan of the first `n`
bytes of the block read next are the sums of the window that ends there. -/
theorem roll_inv_block_sums (b : Nat) (h8 : 8 ≤ b) (h24 : b ≤ 24) (input : List Byte)
    (fsss : fss_state) (cs fs : Nat) (hinv : roll_inv b input fsss cs fs)
    (h : SUM_WINDOW b ≤ fsss.input.length) (n : Nat) (hn : n ≤ SUM_WINDOW b) :
    block_sums b fsss.precomputed_remove_oldbyte fsss.prev_blk (after_fread b fsss).blk n 0
        cs fs =
      (byte_sum (window fsss.prev_blk fsss.input n),
        fletcher_sum (window fsss.prev_blk fsss.input n) % PRIME b) := by
  obtain ⟨hp, hblk, htab, -, hcs, hfs⟩ := hinv
  have := block_sums_eq b h8 h24 fsss.prev_blk (fsss.input.take (SUM_WINDOW b)) hp
    (by simp [List.length_take]; omega) n 0 (by omega)
  rw [window_zero, Nat.zero_add, window_take _ _ _ _ hn] at this
  rw [after_fread_blk_eq b fsss hblk h, htab, hcs, hfs, this]

/-- Under the rolling-sum invariant, the hits of the block read next are the
indices at which the window that ends there has Fletcher sum `0` modulo
`PRIME`. -/
theorem roll_inv_mem_block_hits (b : Nat) (h8 : 8 ≤ b) (h24 : b ≤ 24) (input : List Byte)
    (fsss : fss_state) (cs fs : Nat) (hinv : roll_inv b input fsss cs fs)
    (h : SUM_WINDOW b ≤ fsss.input.length) (n : Nat) (hn : n ≤ SUM_WINDOW b) (j : Nat) :
    j ∈ block_hits b fsss.precomputed_remove_oldbyte fsss.prev_blk (after_fread b fsss).blk n 0
        cs fs ↔
      j < n ∧ fletcher_sum (window fsss.prev_blk fsss.input (j + 1)) % PRIME b = 0 := by
  obtain ⟨hp, hblk, htab, -, hcs, hfs⟩ := hinv
  have := mem_block_hits b h8 h24 fsss.prev_blk (fsss.input.take (SUM_WINDOW b)) hp
    (by simp [List.length_take]; omega) n 0 (by omega) j
  rw [window_zero, Nat.zero_add] at this
  rw [after_fread_blk_eq b fsss hblk h, htab, hcs, hfs, this]
  constructor
  · rintro ⟨-, h2, h3⟩
    rw [window_take _ _ _ _ (by omega)] at h3
    exact ⟨h2, h3⟩
  · rintro ⟨h2, h3⟩
    rw [window_take _ _ _ _ (by omega)]
    exact ⟨Nat.zero_le _, h2, h3⟩

/-- The rolling-sum invariant holds again after the scan of a full block and
the exchange of the two blocks, whatever is done to the other fields. -/
theorem roll_inv_next (b : Nat) (h8 : 8 ≤ b) (h24 : b ≤ 24) (input : List Byte)
    (fsss : fss_state) (l : locals) (hinv : roll_inv b input fsss l.char_sum l.fletch_sum)
    (h : SUM_WINDOW b ≤ fsss.input.length) (s' : fss_state)
    (hprev : s'.prev_blk = (after_fread b fsss).blk) (hblk' : s'.blk = fsss.prev_blk)
    (htab' : s'.precomputed_remove_oldbyte = fsss.precomputed_remove_oldbyte)
    (hin' : s'.input = fsss.input.drop (SUM_WINDOW b)) :
    roll_inv b input s' (block_scan b fsss l).2.char_sum (block_scan b fsss l).2.fletch_sum := by
  have hsums := roll_inv_block_sums b h8 h24 input fsss _ _ hinv h (SUM_WINDOW b) (Nat.le_refl _)
  obtain ⟨hp, hblk, htab, ⟨pre, hpre⟩, hcs, hfs⟩ := hinv
  have hb := after_fread_blk_eq b fsss hblk h
  rw [window_full _ _ _ hp] at hsums
  refine ⟨?_, ?_, ?_, ⟨pre ++ fsss.prev_blk, ?_⟩, ?_, ?_⟩
  · rw [hprev, hb]; simp [List.length_take]; omega
  · rw [hblk', hp]
  · rw [htab', htab]
  · rw [hprev, hb, hin', hpre]
    simp [List.append_assoc]
  · simp only [block_scan, scan_result_char_sum, hprev]
    rw [hsums, hb]
  · simp only [block_scan, scan_result_fletch_sum, hprev]
    rw [hsums, hb]

/-- The scan of the block read by a loop iteration succeeds and gives
`block_scan`. -/
theorem scan_full_eq (b : Nat) (fsss : fss_state) (l : locals) :
    scan_loop b (SUM_WINDOW b) 0 (after_fread b fsss) { l with complete_seg_outbuf := none } =
      Except.ok (block_scan b fsss l) :=
  scan_loop_eq b (SUM_WINDOW b) 0 _ _ (by simpa using SUM_WINDOW_le_MINSEGSIZE b) rfl

/-- A run of the `for (;;)` loop that starts under the rolling-sum invariant
and does not end at end of file leaves a state in which the stored sums
satisfy the invariant. -/
theorem read_loop_roll_inv (b : Nat) (h8 : 8 ≤ b) (h24 : b ≤ 24) (input : List Byte)
    (fuel : Nat) (fsss : fss_state) (l : locals)
    (hinv : roll_inv b input fsss l.char_sum l.fletch_sum)
    (hfuel : fsss.input.length < fuel)
    (he : (read_loop b fuel fsss l).2.eof = false) :
    roll_inv b input (read_loop b fuel fsss l).2 (read_loop b fuel fsss l).2.char_sum
      (read_loop b fuel fsss l).2.fletch_sum := by
  induction fuel generalizing fsss l with
  | zero => omega
  | succ fuel ih =>
    by_cases hshort : fsss.input.length < SUM_WINDOW b
    · have hlen : (fread_got (SUM_WINDOW b) fsss.input).length < SUM_WINDOW b := by
        simp [fread_got, List.length_take]; omega
      rw [read_loop] at he
      simp [hlen] at he
    · have hfull : SUM_WINDOW b ≤ fsss.input.length := by omega
      have hW := SUM_WINDOW_pos b
      rw [read_loop_full b fuel fsss l hfull] at he ⊢
      cases hc : (block_scan b fsss l).2.complete_seg_outbuf with
      | some seg =>
        simp only [hc] at he ⊢
        exact roll_inv_next b h8 h24 input fsss l hinv hfull _ rfl rfl
          (by simp [block_scan, after_fread]) (by simp [block_scan, after_fread])
      | none =>
        simp only [hc] at he ⊢
        exact ih _ _
          (roll_inv_next b h8 h24 input fsss l hinv hfull _ rfl rfl
            (by simp [block_scan, after_fread]) (by simp [block_scan, after_fread]))
          (by simp [block_scan, after_fread]; omega) he

/-- Every state of a run that has not reached end of file satisfies the
rolling-sum invariant. -/
theorem nth_state_roll_inv (b : Nat) (h8 : 8 ≤ b) (h24 : b ≤ 24) (input : List Byte) (k : Nat)
    (he : (nth_state b input k).eof = false) :
    roll_inv b input (nth_state b input k) (nth_state b input k).char_sum
      (nth_state b input k).fletch_sum := by
  induction k with
  | zero =>
    by_cases hlt : input.length < SUM_WINDOW b
    · rw [nth_state, new_eof_of_short b input hlt] at he
      cases he
    · have hfull : SUM_WINDOW b ≤ input.length := by omega
      rw [nth_state, new_eq_of_full b h8 h24 input hfull]
      refine ⟨?_, ?_, rfl, ⟨[], ?_⟩, rfl, rfl⟩
      · simp [List.length_take]; omega
      · simp
      · simp
  | succ k ih =>
    cases hk : (nth_state b input k).eof with
    | true =>
      exfalso
      rw [nth_state] at he
      cases ho : (nth_state b input k).outbuf with
      | none => rw [readsegment_eof_none b _ hk ho, hk] at he; cases he
      | some o =>
        rw [readsegment_eof_some b _ o hk ho] at he
        simp [hk] at he
    | false =>
      rw [nth_state, readsegment_live b _ hk] at he ⊢
      exact read_loop_roll_inv b h8 h24 input _ _ _ (ih hk) (Nat.lt_succ_self _) he

/-- The rolling-sum invariant holds, for the sums kept in the locals, at every
head of the `for (;;)` loop. -/
theorem at_loop_head_roll_inv (b : Nat) (h8 : 8 ≤ b) (h24 : b ≤ 24) (input : List Byte)
    (fsss : fss_state) (l : locals) (h : at_loop_head b input fsss l) :
    roll_inv b input fsss l.char_sum l.fletch_sum := by
  induction h with
  | enter k he => exact nth_state_roll_inv b h8 h24 input k he
  | again fsss l f' l' _ hfull hscan hnone ih =>
    have hfull' : SUM_WINDOW b ≤ fsss.input.length := by
      simp [fread_got, List.length_take] at hfull
      omega
    rw [scan_full_eq] at hscan
    injection hscan with hscan
    have h1 : f' = (block_scan b fsss l).1 := by rw [hscan]
    have h2 : l' = (block_scan b fsss l).2 := by rw [hscan]
    subst h1 h2
    exact roll_inv_next b h8 h24 input fsss l ih hfull' _
      (by simp [block_scan]) (by simp [block_scan, after_fread])
      (by simp [block_scan, after_fread]) (by simp [block_scan, after_fread])

/-- The scan of the first `n` indices of a block succeeds, and the sums it
leaves in the locals are `block_sums`. -/
theorem scan_head_sums (b n : Nat) (fsss : fss_state) (l : locals)
    (hn : n ≤ MINSEGSIZE b) :
    ∃ f' l', scan_loop b n 0 fsss { l with complete_seg_outbuf := none } = Except.ok (f', l') ∧
      l'.char_sum = (block_sums b fsss.precomputed_remove_oldbyte fsss.prev_blk fsss.blk n 0
        l.char_sum l.fletch_sum).1 ∧
      l'.fletch_sum = (block_sums b fsss.precomputed_remove_oldbyte fsss.prev_blk fsss.blk n 0
        l.char_sum l.fletch_sum).2 :=
  ⟨(scan_result b fsss { l with complete_seg_outbuf := none }
      (block_hits b fsss.precomputed_remove_oldbyte fsss.prev_blk fsss.blk n 0
        l.char_sum l.fletch_sum)
      (block_sums b fsss.precomputed_remove_oldbyte fsss.prev_blk fsss.blk n 0
        l.char_sum l.fletch_sum)).1,
   (scan_result b fsss { l with complete_seg_outbuf := none }
      (block_hits b fsss.precomputed_remove_oldbyte fsss.prev_blk fsss.blk n 0
        l.char_sum l.fletch_sum)
      (block_sums b fsss.precomputed_remove_oldbyte fsss.prev_blk fsss.blk n 0
        l.char_sum l.fletch_sum)).2,
   scan_loop_eq b n 0 fsss _ (by omega) rfl,
   scan_result_char_sum _ _ _ _ _, scan_result_fletch_sum _ _ _ _ _⟩

/-! ## Two runs on streams with a common prefix -/

theorem getD_take (blk : List Byte) (m k : Nat) (h : k < m) :
    (blk.take m).getD k 0 = blk.getD k 0 := by
  simp [List.getD_eq_getElem?_getD, List.getElem?_take, h]

/-- The hits among the indices `i, ..., i + n - 1` depend only on the first
`i + n` bytes of the block. -/
theorem block_hits_take (b : Nat) (table : List Nat) (prev blk : List Byte) (n i cs fs : Nat) :
    block_hits b table prev (blk.take (i + n)) n i cs fs =
      block_hits b table prev blk n i cs fs := by
  induction n generalizing i cs fs blk with
  | zero => rfl
  | succ n ih =>
    have e := ih (blk.take (i + (n + 1))) (i + 1)
    rw [List.take_take, show min (i + 1 + n) (i + (n + 1)) = i + 1 + n by omega] at e
    rw [block_hits, block_hits, getD_take blk _ i (by omega)]
    rw [← e, ih blk (i + 1)]

theorem block_sums_take (b : Nat) (table : List Nat) (prev blk : List Byte) (n i cs fs : Nat) :
    block_sums b table prev (blk.take (i + n)) n i cs fs =
      block_sums b table prev blk n i cs fs := by
  induction n generalizing i cs fs blk with
  | zero => rfl
  | succ n ih =>
    have e := ih (blk.take (i + (n + 1))) (i + 1)
    rw [List.take_take, show min (i + 1 + n) (i + (n + 1)) = i + 1 + n by omega] at e
    rw [block_sums, block_sums, getD_take blk _ i (by omega)]
    rw [← e, ih blk (i + 1)]

/-- The hits of a scan are the hits of its first `n₁` iterations followed by
the hits of the remaining ones. -/
theorem block_hits_add (b : Nat) (table : List Nat) (prev blk : List Byte)
    (n₁ n₂ i cs fs : Nat) :
    block_hits b table prev blk (n₁ + n₂) i cs fs =
      block_hits b table prev blk n₁ i cs fs ++
        block_hits b table prev blk n₂ (i + n₁)
          (block_sums b table prev blk n₁ i cs fs).1
          (block_sums b table prev blk n₁ i cs fs).2 := by
  induction n₁ generalizing i cs fs with
  | zero => simp [block_hits, block_sums]
  | succ n₁ ih =>
    rw [show n₁ + 1 + n₂ = (n₁ + n₂) + 1 by omega, block_hits, block_hits, block_sums]
    rw [show i + (n₁ + 1) = i + 1 + n₁ by omega]
    split
    · rw [ih]; rfl
    · rw [ih]

/-- Two blocks that start with the same `m` bytes have the same hits at the
indices below `m`: if the first hit of one block lies below `m`, it is the
first hit of the other block as well. -/
theorem first_hit_of_common_head (b : Nat) (table : List Nat) (prev blk blk' : List Byte)
    (n m cs fs : Nat) (hm : m ≤ n) (hpre : blk.take m = blk'.take m) (j : Nat) (t : List Nat)
    (hj : j < m) (hhits : block_hits b table prev blk n 0 cs fs = j :: t) :
    ∃ t', block_hits b table prev blk' n 0 cs fs = j :: t' := by
  have e1 := block_hits_add b table prev blk m (n - m) 0 cs fs
  have e2 := block_hits_add b table prev blk' m (n - m) 0 cs fs
  rw [show m + (n - m) = n by omega] at e1 e2
  have e3 : block_hits b table prev blk m 0 cs fs = block_hits b table prev blk' m 0 cs fs := by
    have h1 := block_hits_take b table prev blk m 0 cs fs
    have h2 := block_hits_take b table prev blk' m 0 cs fs
    rw [Nat.zero_add] at h1 h2
    rw [← h1, ← h2, hpre]
  rw [hhits] at e1
  cases hH : block_hits b table prev blk m 0 cs fs with
  | nil =>
    rw [hH, List.nil_append] at e1
    have := (block_hits_ge b table prev blk (n - m) (0 + m) _ _ j
      (by rw [← e1]; exact List.mem_cons_self _ _)).1
    omega
  | cons j' t0 =>
    rw [hH, List.cons_append] at e1
    injection e1 with e1 _
    subst e1
    rw [e2, ← e3, hH]
    exact ⟨_, rfl⟩

/-- If the first hit of the block read next passes the distance test, the
segment ends there. -/
theorem block_scan_of_first_hit (b : Nat) (fsss : fss_state) (l : locals) (o : List Byte)
    (j : Nat) (t : List Nat) (ho : fsss.outbuf = some o)
    (h : SUM_WINDOW b ≤ fsss.input.length)
    (hhits : block_hits b fsss.precomputed_remove_oldbyte fsss.prev_blk (after_fread b fsss).blk
      (SUM_WINDOW b) 0 l.char_sum l.fletch_sum = j :: t)
    (hb : fsss.last_hit_at + MINSEGSIZE b < fsss.bytes_into_seg + j) :
    (block_scan b fsss l).2.complete_seg_outbuf = some (o ++ fsss.input.take (j + 1)) := by
  have hj : j < SUM_WINDOW b := by
    have := (block_hits_ge b fsss.precomputed_remove_oldbyte fsss.prev_blk
      (after_fread b fsss).blk (SUM_WINDOW b) 0 l.char_sum l.fletch_sum j
      (by rw [hhits]; exact List.mem_cons_self _ _)).2
    omega
  have h1 := after_fread_blk_take b fsss (j + 1) h (by omega)
  have hb' : (after_fread b fsss).bytes_into_seg + j >
      (after_fread b fsss).last_hit_at + MINSEGSIZE b := hb
  unfold block_scan
  rw [hhits]
  simp only [scan_result, hb', if_true, cwrite]
  rw [h1]
  simp [after_fread, ho]

theorem scan_result_with_input (b : Nat) (fsss : fss_state) (l : locals) (hits : List Nat)
    (sums : Nat × Nat) (inp : List Byte) :
    scan_result b (with_input fsss inp) l hits sums =
      (with_input (scan_result b fsss l hits sums).1 inp, (scan_result b fsss l hits sums).2) := by
  unfold scan_result
  cases hits with
  | nil => rfl
  | cons j t =>
    simp only [with_input]
    split <;> rfl

/-- The scan of the next block depends on the unread input only through the
block itself: replacing the input by one that starts with the same
`SUM_WINDOW` bytes changes nothing but the unread part. -/
theorem block_scan_with_input (b : Nat) (s : fss_state) (l : locals) (inp₁ inp₂ : List Byte)
    (h : inp₁.take (SUM_WINDOW b) = inp₂.take (SUM_WINDOW b)) :
    block_scan b (with_input s inp₂) l =
      (with_input (block_scan b (with_input s inp₁) l).1 (inp₂.drop (SUM_WINDOW b)),
        (block_scan b (with_input s inp₁) l).2) := by
  have e : after_fread b (with_input s inp₂) =
      with_input (after_fread b (with_input s inp₁)) (inp₂.drop (SUM_WINDOW b)) := by
    simp [after_fread, with_input, fread_got, h]
  have e' : (after_fread b (with_input s inp₂)).blk = (after_fread b (with_input s inp₁)).blk := by
    rw [e]; rfl
  unfold block_scan
  rw [e', e, scan_result_with_input]
  rfl

theorem read_loop_full_some (b fuel : Nat) (fsss : fss_state) (l : locals) (seg : List Byte)
    (h : SUM_WINDOW b ≤ fsss.input.length)
    (hc : (block_scan b fsss l).2.complete_seg_outbuf = some seg) :
    read_loop b (fuel + 1) fsss l = (result.segment seg, state_after_boundary b fsss l) := by
  rw [read_loop_full b fuel fsss l h]
  simp only [hc]
  rfl

theorem read_loop_full_none (b fuel : Nat) (fsss : fss_state) (l : locals)
    (h : SUM_WINDOW b ≤ fsss.input.length)
    (hc : (block_scan b fsss l).2.complete_seg_outbuf = none) :
    read_loop b (fuel + 1) fsss l =
      read_loop b fuel (state_after_block b fsss l) (block_scan b fsss l).2 := by
  rw [read_loop_full b fuel fsss l h]
  simp only [hc]
  rfl

theorem state_after_block_with_input (b : Nat) (s : fss_state) (l : locals)
    (inp₁ inp₂ : List Byte) (h : inp₁.take (SUM_WINDOW b) = inp₂.take (SUM_WINDOW b)) :
    state_after_block b (with_input s inp₂) l =
      with_input (state_after_block b (with_input s inp₁) l) (inp₂.drop (SUM_WINDOW b)) := by
  have e : (after_fread b (with_input s inp₂)).blk = (after_fread b (with_input s inp₁)).blk := by
    simp [after_fread, with_input, fread_got, h]
  unfold state_after_block
  rw [block_scan_with_input b s l inp₁ inp₂ h, e]
  rfl

theorem state_after_boundary_with_input (b : Nat) (s : fss_state) (l : locals)
    (inp₁ inp₂ : List Byte) (h : inp₁.take (SUM_WINDOW b) = inp₂.take (SUM_WINDOW b)) :
    state_after_boundary b (with_input s inp₂) l =
      with_input (state_after_boundary b (with_input s inp₁) l) (inp₂.drop (SUM_WINDOW b)) := by
  have e : (after_fread b (with_input s inp₂)).blk = (after_fread b (with_input s inp₁)).blk := by
    simp [after_fread, with_input, fread_got, h]
  unfold state_after_boundary
  rw [block_scan_with_input b s l inp₁ inp₂ h, e]
  rfl

theorem state_after_block_input (b : Nat) (fsss : fss_state) (l : locals) :
    (state_after_block b fsss l).input = fsss.input.drop (SUM_WINDOW b) := by
  simp [state_after_block, block_scan, after_fread]

theorem state_after_boundary_input (b : Nat) (fsss : fss_state) (l : locals) :
    (state_after_boundary b fsss l).input = fsss.input.drop (SUM_WINDOW b) := by
  simp [state_after_boundary, block_scan, after_fread]

theorem state_after_block_eof (b : Nat) (fsss : fss_state) (l : locals) :
    (state_after_block b fsss l).eof = fsss.eof := by
  simp [state_after_block, block_scan, after_fread]

theorem state_after_boundary_eof (b : Nat) (fsss : fss_state) (l : locals) :
    (state_after_boundary b fsss l).eof = fsss.eof := by
  simp [state_after_boundary, block_scan, after_fread]

theorem with_input_self (fsss : fss_state) (inp : List Byte) (h : fsss.input = inp) :
    with_input fsss inp = fsss := by
  subst h; rfl

theorem with_input_with_input (fsss : fss_state) (i₁ i₂ : List Byte) :
    with_input (with_input fsss i₁) i₂ = with_input fsss i₂ := rfl

/-- Lock-step of two runs of the `for (;;)` loop, from the same state, on the
inputs `r ++ y` and `r ++ z`.  If the run on `r ++ y` returns a segment that
ends inside `r`, the run on `r ++ z` returns the same segment, and afterwards
either the two states still differ by their unread input only, or the next
segment of the first run will end beyond `r`. -/
theorem sync_loop (b : Nat) (y z : List Byte) (hy : SUM_WINDOW b ≤ y.length)
    (hz : SUM_WINDOW b ≤ z.length) (fy : Nat) :
    ∀ (fz : Nat) (s : fss_state) (l : locals) (r o mid : List Byte) (sy' : fss_state),
      s.outbuf = some o → o.length = s.bytes_into_seg →
      (r ++ y).length < fy → (r ++ z).length < fz →
      read_loop b fy (with_input s (r ++ y)) l = (result.segment (o ++ mid), sy') →
      mid.length ≤ r.length →
      ∃ sz', read_loop b fz (with_input s (r ++ z)) l = (result.segment (o ++ mid), sz') ∧
        ((∃ r' o', sy'.input = r' ++ y ∧ sz' = with_input sy' (r' ++ z) ∧ sy'.eof = s.eof ∧
            sy'.outbuf = some o' ∧ o'.length = sy'.bytes_into_seg ∧ mid ++ o' ++ r' = r) ∨
         (∃ o', sy'.outbuf = some o' ∧ r.length < mid.length + o'.length)) := by
  induction fy with
  | zero => intro fz s l r o mid sy' _ _ hfy; omega
  | succ fy ih =>
    intro fz s l r o mid sy' ho hbis hfy hfz hrun hmid
    obtain ⟨fz, rfl⟩ : ∃ k, fz = k + 1 := ⟨fz - 1, by omega⟩
    have hW := SUM_WINDOW_pos b
    have hly : (r ++ y).length = r.length + y.length := List.length_append _ _
    have hlz : (r ++ z).length = r.length + z.length := List.length_append _ _
    have hfull_y : SUM_WINDOW b ≤ (with_input s (r ++ y)).input.length := by
      show SUM_WINDOW b ≤ (r ++ y).length
      omega
    have hfull_z : SUM_WINDOW b ≤ (with_input s (r ++ z)).input.length := by
      show SUM_WINDOW b ≤ (r ++ z).length
      omega
    have hoy : (with_input s (r ++ y)).outbuf = some o := ho
    have hoz : (with_input s (r ++ z)).outbuf = some o := ho
    by_cases hr : SUM_WINDOW b ≤ r.length
    · -- the block lies inside `r`: both runs scan the same block
      have htake : (r ++ y).take (SUM_WINDOW b) = (r ++ z).take (SUM_WINDOW b) := by
        rw [List.take_append_of_le_length hr, List.take_append_of_le_length hr]
      have hdy : (r ++ y).drop (SUM_WINDOW b) = r.drop (SUM_WINDOW b) ++ y :=
        List.drop_append_of_le_length hr
      have hdz : (r ++ z).drop (SUM_WINDOW b) = r.drop (SUM_WINDOW b) ++ z :=
        List.drop_append_of_le_length hr
      have hbs := block_scan_with_input b s l (r ++ y) (r ++ z) htake
      have hcz : (block_scan b (with_input s (r ++ z)) l).2 =
          (block_scan b (with_input s (r ++ y)) l).2 := by rw [hbs]
      rcases block_scan_cases b (with_input s (r ++ y)) l o hoy hfull_y with
        ⟨hc, hout⟩ | ⟨j, hj, hb, hc, hout, hnew, -⟩
      · -- no end of segment in this block: both runs go round again
        rw [read_loop_full_none b fy _ l hfull_y hc] at hrun
        rw [read_loop_full_none b fz _ l hfull_z (by rw [hcz]; exact hc), hcz,
          state_after_block_with_input b s l (r ++ y) (r ++ z) htake, hdz]
        have hin1 : (state_after_block b (with_input s (r ++ y)) l).input =
            r.drop (SUM_WINDOW b) ++ y := by
          rw [state_after_block_input]; exact hdy
        have ho1 : (state_after_block b (with_input s (r ++ y)) l).outbuf =
            some (o ++ r.take (SUM_WINDOW b)) := by
          have := after_fread_blk_take b (with_input s (r ++ y)) (SUM_WINDOW b) hfull_y
            (Nat.le_refl _)
          simp only [state_after_block, hout, cwrite, Option.map, this]
          show some (o ++ (r ++ y).take (SUM_WINDOW b)) = _
          rw [List.take_append_of_le_length hr]
        have hb1 : (o ++ r.take (SUM_WINDOW b)).length =
            (state_after_block b (with_input s (r ++ y)) l).bytes_into_seg := by
          simp only [state_after_block, List.length_append, List.length_take, hbis, with_input]
          omega
        obtain ⟨mid1, s1, hspec, -⟩ := read_loop_spec b fy
          (state_after_block b (with_input s (r ++ y)) l)
          (block_scan b (with_input s (r ++ y)) l).2 _ ho1
          (by rw [hin1, List.length_append, List.length_drop]; omega) hb1
        have hmid1 : mid = r.take (SUM_WINDOW b) ++ mid1 := by
          rw [hspec] at hrun
          injection hrun with h1 _
          injection h1 with h1
          rw [List.append_assoc] at h1
          exact (List.append_cancel_left h1).symm
        have hrun1 : read_loop b fy
            (with_input (state_after_block b (with_input s (r ++ y)) l)
              (r.drop (SUM_WINDOW b) ++ y))
            (block_scan b (with_input s (r ++ y)) l).2 =
              (result.segment ((o ++ r.take (SUM_WINDOW b)) ++ mid1), sy') := by
          rw [with_input_self _ _ hin1, hrun, hmid1, List.append_assoc]
        have hm1 : mid1.length ≤ (r.drop (SUM_WINDOW b)).length := by
          rw [hmid1, List.length_append, List.length_take] at hmid
          rw [List.length_drop]
          omega
        obtain ⟨sz', hz1, hcases⟩ := ih fz
          (state_after_block b (with_input s (r ++ y)) l)
          (block_scan b (with_input s (r ++ y)) l).2 (r.drop (SUM_WINDOW b))
          (o ++ r.take (SUM_WINDOW b)) mid1 sy' ho1 hb1
          (by rw [List.length_append, List.length_drop]; omega)
          (by rw [List.length_append, List.length_drop]; omega) hrun1 hm1
        refine ⟨sz', ?_, ?_⟩
        · rw [hz1, hmid1, List.append_assoc]
        · rcases hcases with ⟨r', o', h1, h2, h3, h4, h5, h6⟩ | ⟨o', h1, h2⟩
          · left
            refine ⟨r', o', h1, h2, ?_, h4, h5, ?_⟩
            · rw [h3, state_after_block_eof]; rfl
            · rw [hmid1, List.append_assoc, List.append_assoc, ← List.append_assoc mid1, h6,
                List.take_append_drop]
          · right
            refine ⟨o', h1, ?_⟩
            rw [List.length_drop] at h2
            rw [hmid1, List.length_append, List.length_take]
            omega
      · -- the segment ends in this block, in both runs
        rw [read_loop_full_some b fy _ l _ hfull_y hc] at hrun
        rw [read_loop_full_some b fz _ l _ hfull_z (by rw [hcz]; exact hc),
          state_after_boundary_with_input b s l (r ++ y) (r ++ z) htake, hdz]
        injection hrun with h1 h2
        injection h1 with h1
        have hmid' : mid = (r ++ y).take (j + 1) := (List.append_cancel_left h1).symm
        have hmidr : mid = r.take (j + 1) := by
          rw [hmid']; exact List.take_append_of_le_length (by omega)
        subst h2
        refine ⟨_, by rw [h1], Or.inl ⟨r.drop (SUM_WINDOW b),
          (r.take (SUM_WINDOW b)).drop (j + 1), ?_, rfl, ?_, ?_, ?_, ?_⟩⟩
        · rw [state_after_boundary_input]; exact hdy
        · rw [state_after_boundary_eof]; rfl
        · simp only [state_after_boundary, hout]
          show some (((r ++ y).take (SUM_WINDOW b)).drop (j + 1)) = _
          rw [List.take_append_of_le_length hr]
        · simp only [state_after_boundary, hnew, List.length_drop, List.length_take]
          omega
        · rw [hmidr]
          have e1 : r.take (j + 1) = (r.take (SUM_WINDOW b)).take (j + 1) := by
            rw [List.take_take]; congr 1; omega
          rw [e1, List.take_append_drop, List.take_append_drop]
    · -- the block reaches beyond `r`
      have hrlt : r.length < SUM_WINDOW b := by omega
      rcases block_scan_cases b (with_input s (r ++ y)) l o hoy hfull_y with
        ⟨hc, hout⟩ | ⟨j, hj, hb, hc, hout, hnew, t, hhits⟩
      · -- no end of segment in this block: the segment ends beyond `r`
        exfalso
        rw [read_loop_full_none b fy _ l hfull_y hc] at hrun
        have ho1 : (state_after_block b (with_input s (r ++ y)) l).outbuf =
            some (o ++ (r ++ y).take (SUM_WINDOW b)) := by
          have := after_fread_blk_take b (with_input s (r ++ y)) (SUM_WINDOW b) hfull_y
            (Nat.le_refl _)
          simp only [state_after_block, hout, cwrite, Option.map, this]
          rfl
        obtain ⟨mid1, s1, hspec, -⟩ := read_loop_spec b fy
          (state_after_block b (with_input s (r ++ y)) l)
          (block_scan b (with_input s (r ++ y)) l).2 _ ho1
          (by
            rw [state_after_block_input]
            show ((r ++ y).drop (SUM_WINDOW b)).length < fy
            rw [List.length_drop]; omega)
          (by
            simp only [state_after_block, List.length_append, List.length_take, hbis, with_input]
            omega)
        rw [hspec] at hrun
        injection hrun with h1 _
        injection h1 with h1
        rw [List.append_assoc] at h1
        have := congrArg List.length (List.append_cancel_left h1)
        rw [List.length_append, List.length_take] at this
        omega
      · -- the segment ends at the first hit `j` of the block, which lies in `r`
        rw [read_loop_full_some b fy _ l _ hfull_y hc] at hrun
        injection hrun with h1 h2
        injection h1 with h1
        have hmid' : mid = (r ++ y).take (j + 1) := (List.append_cancel_left h1).symm
        have hjr : j < r.length := by
          have := congrArg List.length hmid'
          rw [List.length_take] at this
          omega
        have hpre : (after_fread b (with_input s (r ++ y))).blk.take r.length =
            (after_fread b (with_input s (r ++ z))).blk.take r.length := by
          rw [after_fread_blk_take b _ _ hfull_y (by omega),
            after_fread_blk_take b _ _ hfull_z (by omega)]
          show (r ++ y).take r.length = (r ++ z).take r.length
          rw [List.take_left', List.take_left'] <;> rfl
        obtain ⟨t', hhits'⟩ := first_hit_of_common_head b s.precomputed_remove_oldbyte
          s.prev_blk _ _ (SUM_WINDOW b) r.length l.char_sum l.fletch_sum (by omega) hpre j t hjr
          hhits
        have hcz := block_scan_of_first_hit b (with_input s (r ++ z)) l o j t' hoz hfull_z
          hhits' hb
        have hzy : (with_input s (r ++ z)).input.take (j + 1) = mid := by
          rw [hmid']
          show (r ++ z).take (j + 1) = (r ++ y).take (j + 1)
          rw [List.take_append_of_le_length (by omega), List.take_append_of_le_length (by omega)]
        rw [hzy] at hcz
        rw [read_loop_full_some b fz _ l _ hfull_z hcz]
        subst h2
        refine ⟨_, rfl, Or.inr ⟨((r ++ y).take (SUM_WINDOW b)).drop (j + 1), ?_, ?_⟩⟩
        · simp only [state_after_boundary, hout]
          rfl
        · rw [hmid', List.length_take, List.length_drop, List.length_take]
          omega

/-- The state left by `new` depends on the stream only through its first `SUM_WINDOW` bytes,
apart from the unread part it leaves. -/
theorem new_with_input (b : Nat) (inp₁ inp₂ : List Byte)
    (h : inp₁.take (SUM_WINDOW b) = inp₂.take (SUM_WINDOW b)) :
    fletcher_sum_split_new b inp₂ =
      with_input (fletcher_sum_split_new b inp₁) (inp₂.drop (SUM_WINDOW b)) := by
  unfold fletcher_sum_split_new
  simp only [fread_got, h, with_input, sums_from_scratch]
  split_ifs <;> rfl

/-- What call number `k` of a run returns: the sentinel, leaving everything
as it is, or a segment that starts with the contents of the output buffer. -/
theorem nth_result_cases (b : Nat) (input : List Byte) (k : Nat) :
    (nth_result b input k = result.sentinel ∧
        nth_state b input (k + 1) = nth_state b input k ∧
        delivered b input (k + 1) = delivered b input k) ∨
    (∃ o mid, (nth_state b input k).outbuf = some o ∧
        nth_result b input k = result.segment (o ++ mid) ∧
        delivered b input (k + 1) = delivered b input k ++ (o ++ mid)) := by
  have hacc := accounted_nth b input k
  cases he : (nth_state b input k).eof with
  | true =>
    cases ho : (nth_state b input k).outbuf with
    | none =>
      left
      have h := readsegment_eof_none b _ he ho
      refine ⟨by rw [nth_result, h], by rw [nth_state, h], ?_⟩
      simp [delivered, nth_result, h, result.bytes]
    | some o =>
      right
      have h := readsegment_eof_some b _ o he ho
      refine ⟨o, [], rfl, by rw [nth_result, h, List.append_nil], ?_⟩
      simp [delivered, nth_result, h, result.bytes]
  | false =>
    right
    obtain ⟨o, ho, hbis, -⟩ := hacc.2 he
    obtain ⟨mid, s', hrun, -⟩ := read_loop_spec b ((nth_state b input k).input.length + 1)
      (nth_state b input k)
      { char_sum := (nth_state b input k).char_sum
        fletch_sum := (nth_state b input k).fletch_sum
        complete_seg_outbuf := none
        newseg_bytes := 0 } o ho (Nat.lt_succ_self _) hbis
    have h : fletcher_sum_split_readsegment b (nth_state b input k) =
        (result.segment (o ++ mid), s') := by
      rw [readsegment_live b _ he, hrun]
    refine ⟨o, mid, ho, by rw [nth_result, h], ?_⟩
    simp [delivered, nth_result, h, result.bytes]

/-- The bytes delivered never shrink. -/
theorem delivered_length_mono (b : Nat) (input : List Byte) (j k : Nat) (h : j ≤ k) :
    (delivered b input j).length ≤ (delivered b input k).length := by
  induction k with
  | zero =>
    have : j = 0 := by omega
    rw [this]
  | succ k ih =>
    by_cases hjk : j = k + 1
    · rw [hjk]
    · have := ih (by omega)
      rw [delivered, List.length_append]
      omega

/-- After the sentinel, only the sentinel. -/
theorem sentinel_persists (b : Nat) (input : List Byte) (k : Nat)
    (h : nth_result b input k = result.sentinel) (m : Nat) (hm : k ≤ m) :
    nth_result b input m = result.sentinel ∧
      nth_state b input (m + 1) = nth_state b input k := by
  rcases accounted_step b input _ _ (accounted_nth b input k) with
    ⟨h1, -, -, -⟩ | ⟨seg, h1, -⟩
  · obtain ⟨d, rfl⟩ : ∃ d, m = k + d := ⟨m - k, by omega⟩
    have hs := nth_state_after_sentinel b input k h1
    constructor
    · unfold nth_result
      rw [hs d, h1]
    · exact hs (d + 1)
  · unfold nth_result at h
    rw [h] at h1
    cases h1

/-- A call that returns a segment is preceded by calls that return
segments. -/
theorem segment_before_segment (b : Nat) (input : List Byte) (j k : Nat) (h : j ≤ k)
    (seg : List Byte) (hk : nth_result b input k = result.segment seg) :
    ∃ seg', nth_result b input j = result.segment seg' := by
  rcases nth_result_cases b input j with ⟨hs, -, -⟩ | ⟨o, mid, -, hr, -⟩
  · have := (sentinel_persists b input j hs k h).1
    rw [this] at hk
    cases hk
  · exact ⟨_, hr⟩

theorem in_step_or_past_zero (b : Nat) (x y z : List Byte) (hy : SUM_WINDOW b ≤ y.length) :
    in_step b x y z 0 ∨ past_common b x y 0 := by
  by_cases hx : SUM_WINDOW b ≤ x.length
  · left
    have hty : (x ++ y).take (SUM_WINDOW b) = x.take (SUM_WINDOW b) :=
      List.take_append_of_le_length hx
    have htz : (x ++ z).take (SUM_WINDOW b) = x.take (SUM_WINDOW b) :=
      List.take_append_of_le_length hx
    have hdy : (x ++ y).drop (SUM_WINDOW b) = x.drop (SUM_WINDOW b) ++ y :=
      List.drop_append_of_le_length hx
    have hdz : (x ++ z).drop (SUM_WINDOW b) = x.drop (SUM_WINDOW b) ++ z :=
      List.drop_append_of_le_length hx
    refine ⟨fletcher_sum_split_new b (x ++ y), x.drop (SUM_WINDOW b), x.take (SUM_WINDOW b),
      ?_, ?_, ?_, ?_, ?_, ?_⟩
    · rw [nth_state, with_input_self _ _ (by rw [new_input, hdy])]
    · rw [nth_state, new_with_input b (x ++ y) (x ++ z) (by rw [hty, htz]), hdz]
    · exact new_eof_of_full b _ (by rw [List.length_append]; omega)
    · rw [new_outbuf, hty]
    · rw [new_bytes_into_seg, hty]
    · simp [delivered]
  · right
    unfold past_common
    rw [nth_state, new_outbuf]
    simp only [delivered, List.length_nil, Nat.zero_add, Option.getD_some, List.length_take,
      List.length_append]
    omega

theorem in_step_or_past_succ (b : Nat) (x y z : List Byte) (hy : SUM_WINDOW b ≤ y.length)
    (hz : SUM_WINDOW b ≤ z.length) (k : Nat)
    (h : in_step b x y z k ∨ past_common b x y k) :
    (in_step b x y z (k + 1) ∨ past_common b x y (k + 1)) ∧
      (∀ seg, nth_result b (x ++ y) k = result.segment seg →
        (delivered b (x ++ y) (k + 1)).length ≤ x.length →
        nth_result b (x ++ z) k = result.segment seg) := by
  rcases h with ⟨s, r, o, hY, hZ, he, ho, hbis, hacc⟩ | hpast
  · have hlive : fletcher_sum_split_readsegment b (with_input s (r ++ y)) =
        read_loop b ((r ++ y).length + 1) (with_input s (r ++ y))
          { char_sum := s.char_sum, fletch_sum := s.fletch_sum,
            complete_seg_outbuf := none, newseg_bytes := 0 } :=
      readsegment_live b (with_input s (r ++ y)) he
    have hlivez : fletcher_sum_split_readsegment b (with_input s (r ++ z)) =
        read_loop b ((r ++ z).length + 1) (with_input s (r ++ z))
          { char_sum := s.char_sum, fletch_sum := s.fletch_sum,
            complete_seg_outbuf := none, newseg_bytes := 0 } :=
      readsegment_live b (with_input s (r ++ z)) he
    obtain ⟨mid, sy', hrun, -⟩ := read_loop_spec b ((r ++ y).length + 1)
      (with_input s (r ++ y))
      { char_sum := s.char_sum, fletch_sum := s.fletch_sum,
        complete_seg_outbuf := none, newseg_bytes := 0 } o ho (Nat.lt_succ_self _) hbis
    have hresY : nth_result b (x ++ y) k = result.segment (o ++ mid) := by
      rw [nth_result, hY, hlive, hrun]
    have hstY : nth_state b (x ++ y) (k + 1) = sy' := by
      rw [nth_state, hY, hlive, hrun]
    have hdel : delivered b (x ++ y) (k + 1) = delivered b (x ++ y) k ++ (o ++ mid) := by
      rw [delivered, hresY]; rfl
    have hxlen : x.length = (delivered b (x ++ y) k).length + o.length + r.length := by
      have := congrArg List.length hacc
      simp only [List.length_append] at this
      omega
    by_cases hmid : mid.length ≤ r.length
    · obtain ⟨sz', hrunz, hcases⟩ := sync_loop b y z hy hz ((r ++ y).length + 1)
        ((r ++ z).length + 1) s _ r o mid sy' ho hbis (Nat.lt_succ_self _)
        (Nat.lt_succ_self _) hrun hmid
      have hresZ : nth_result b (x ++ z) k = result.segment (o ++ mid) := by
        rw [nth_result, hZ, hlivez, hrunz]
      have hstZ : nth_state b (x ++ z) (k + 1) = sz' := by
        rw [nth_state, hZ, hlivez, hrunz]
      constructor
      · rcases hcases with ⟨r', o', h1, h2, h3, h4, h5, h6⟩ | ⟨o', h1, h2⟩
        · left
          refine ⟨sy', r', o', ?_, ?_, ?_, h4, h5, ?_⟩
          · rw [hstY, with_input_self _ _ h1]
          · rw [hstZ, h2]
          · rw [h3, he]
          · have hacc' := hacc
            rw [← h6] at hacc'
            rw [hdel]
            simpa [List.append_assoc] using hacc'
        · right
          unfold past_common
          rw [hstY, h1, hdel]
          simp only [Option.getD_some, List.length_append]
          omega
      · intro seg hseg _
        rw [hresY] at hseg
        rw [hresZ, hseg]
    · constructor
      · right
        unfold past_common
        rw [hdel]
        simp only [List.length_append]
        omega
      · intro seg _ hend
        rw [hdel] at hend
        simp only [List.length_append] at hend
        omega
  · unfold past_common at hpast
    rcases nth_result_cases b (x ++ y) k with ⟨hs, hst, hd⟩ | ⟨o, mid, ho, hr, hd⟩
    · constructor
      · right
        unfold past_common
        rw [hst, hd]
        exact hpast
      · intro seg hseg _
        rw [hs] at hseg
        cases hseg
    · rw [ho] at hpast
      simp only [Option.getD_some] at hpast
      constructor
      · right
        unfold past_common
        rw [hd]
        simp only [List.length_append]
        omega
      · intro seg _ hend
        rw [hd] at hend
        simp only [List.length_append] at hend
        omega

theorem in_step_or_past (b : Nat) (x y z : List Byte) (hy : SUM_WINDOW b ≤ y.length)
    (hz : SUM_WINDOW b ≤ z.length) (k : Nat) :
    in_step b x y z k ∨ past_common b x y k := by
  induction k with
  | zero => exact in_step_or_past_zero b x y z hy
  | succ k ih => exact (in_step_or_past_succ b x y z hy hz k ih).1

/-- Prefix stability for tails of at least `SUM_WINDOW` bytes: a segment of
the run on `x ++ y` that ends inside `x` is returned by the same call of the
run on `x ++ z`, and so are all the segments before it. -/
theorem same_leading_segments (b : Nat) (x y z : List Byte) (hy : SUM_WINDOW b ≤ y.length)
    (hz : SUM_WINDOW b ≤ z.length) (k : Nat) (seg : List Byte)
    (hres : nth_result b (x ++ y) k = result.segment seg)
    (hend : (delivered b (x ++ y) (k + 1)).length ≤ x.length) (j : Nat) (hj : j ≤ k) :
    nth_result b (x ++ z) j = nth_result b (x ++ y) j := by
  obtain ⟨seg', hseg'⟩ := segment_before_segment b (x ++ y) j k hj seg hres
  have hlen := delivered_length_mono b (x ++ y) (j + 1) (k + 1) (by omega)
  rw [hseg']
  exact (in_step_or_past_succ b x y z hy hz j (in_step_or_past b x y z hy hz j)).2 seg' hseg'
    (by omega)

/-! ## Streams of blocks `one_block` and `zero_block` -/

theorem fletcher_sum_zeros (n : Nat) : fletcher_sum (List.replicate n 0) = 0 := by
  induction n with
  | zero => rfl
  | succ n ih => simp [List.replicate_succ, fletcher_sum, ih]

theorem fletcher_sum_zeros_append (n : Nat) (w : List Byte) :
    fletcher_sum (List.replicate n 0 ++ w) = fletcher_sum w := by
  induction n with
  | zero => rfl
  | succ n ih => simp [List.replicate_succ, fletcher_sum, ih]

theorem fletcher_sum_one_zeros (j : Nat) :
    fletcher_sum ((1 : Byte) :: List.replicate j 0) = j + 1 := by
  simp [fletcher_sum, fletcher_sum_zeros]

theorem one_block_length (b : Nat) : (one_block b).length = SUM_WINDOW b := by
  have := SUM_WINDOW_pos b
  simp [one_block]
  omega

theorem zero_block_length (b : Nat) : (zero_block b).length = SUM_WINDOW b := by
  simp [zero_block]

theorem one_blocks_length (b n : Nat) : (one_blocks b n).length = n * SUM_WINDOW b := by
  induction n with
  | zero => simp [one_blocks]
  | succ n ih =>
    rw [one_blocks, List.length_append, ih, one_block_length]
    ring

/-- The window is zero before the bytes taken from the new block, when the
previous block is zero after its first byte. -/
theorem window_of_zero_tail (b : Nat) (prev inp : List Byte) (j : Nat)
    (hp : prev.drop 1 = List.replicate (SUM_WINDOW b - 1) 0) :
    window prev inp (j + 1) = List.replicate (SUM_WINDOW b - 1 - j) 0 ++ inp.take (j + 1) := by
  have : prev.drop (j + 1) = List.replicate (SUM_WINDOW b - 1 - j) 0 := by
    rw [show j + 1 = 1 + j by omega, ← List.drop_drop, hp, List.drop_replicate]
  rw [window, this]

theorem take_one_block (b : Nat) (rest : List Byte) (j : Nat) (hj : j < SUM_WINDOW b) :
    (one_block b ++ rest).take (j + 1) = 1 :: List.replicate j 0 := by
  rw [List.take_append_of_le_length (by rw [one_block_length]; omega)]
  simp only [one_block, List.take_succ_cons, List.take_replicate]
  congr 2
  omega

theorem take_zero_block (b : Nat) (rest : List Byte) (j : Nat) (hj : j ≤ SUM_WINDOW b) :
    (zero_block b ++ rest).take j = List.replicate j 0 := by
  rw [List.take_append_of_le_length (by rw [zero_block_length]; omega)]
  simp only [zero_block, List.take_replicate]
  congr 1
  omega

/-- The window is shorter than `PRIME` in the supported configurations. -/
theorem SUM_WINDOW_lt_PRIME (b : Nat) (h8 : 8 ≤ b) (h24 : b ≤ 24) :
    SUM_WINDOW b < PRIME b ∧ MINSEGSIZE b = 2 * SUM_WINDOW b := by
  interval_cases b <;> decide

/-- No byte of a `one_block` is a hit. -/
theorem fletcher_window_one_block (b : Nat) (h8 : 8 ≤ b) (h24 : b ≤ 24) (prev rest : List Byte)
    (hp : prev.drop 1 = List.replicate (SUM_WINDOW b - 1) 0) (j : Nat) (hj : j < SUM_WINDOW b) :
    fletcher_sum (window prev (one_block b ++ rest) (j + 1)) % PRIME b ≠ 0 := by
  have hP := (SUM_WINDOW_lt_PRIME b h8 h24).1
  rw [window_of_zero_tail b prev _ j hp, take_one_block b rest j hj, fletcher_sum_zeros_append,
    fletcher_sum_one_zeros, Nat.mod_eq_of_lt (by omega)]
  omega

/-- Every byte of a `zero_block` is a hit. -/
theorem fletcher_window_zero_block (b : Nat) (prev rest : List Byte)
    (hp : prev.drop 1 = List.replicate (SUM_WINDOW b - 1) 0) (j : Nat) (hj : j < SUM_WINDOW b) :
    fletcher_sum (window prev (zero_block b ++ rest) (j + 1)) % PRIME b = 0 := by
  rw [window_of_zero_tail b prev _ j hp, take_zero_block b rest (j + 1) (by omega),
    fletcher_sum_zeros_append, fletcher_sum_zeros]
  simp

/-- When every index is a hit, the hits are all the indices. -/
theorem block_hits_all (b : Nat) (h8 : 8 ≤ b) (h24 : b ≤ 24) (prev blk : List Byte)
    (hp : prev.length = SUM_WINDOW b) (hb : SUM_WINDOW b ≤ blk.length) (n i : Nat)
    (hin : i + n ≤ SUM_WINDOW b)
    (hall : ∀ j, i ≤ j → j < i + n → fletcher_sum (window prev blk (j + 1)) % PRIME b = 0) :
    block_hits b (remove_oldbyte_table b) prev blk n i (byte_sum (window prev blk i))
        (fletcher_sum (window prev blk i) % PRIME b) = List.range' i n := by
  induction n generalizing i with
  | zero => rfl
  | succ n ih =>
    obtain ⟨e1, e2⟩ := roll_window b h8 h24 prev blk i hp hb (by omega)
    rw [block_hits, e1, e2, if_pos (hall i (Nat.le_refl _) (by omega)),
      ih (i + 1) (by omega) (fun j h1 h2 => hall j (by omega) (by omega))]
    rfl

theorem last_hit_after_range' (bis i n : Nat) :
    last_hit_after bis (List.range' (i + 1) n) (bis + i) = bis + i + n := by
  induction n generalizing i with
  | zero => rfl
  | succ n ih =>
    rw [List.range'_succ, last_hit_after, List.foldl_cons]
    have := ih (i + 1)
    rw [last_hit_after] at this
    rw [this]
    omega

/-- The `for (;;)` loop does not depend on its fuel, as long as the fuel
exceeds the length of the unread input. -/
theorem read_loop_fuel_irrel (b : Nat) (f₁ f₂ : Nat) (fsss : fss_state) (l : locals)
    (h₁ : fsss.input.length < f₁) (h₂ : fsss.input.length < f₂) :
    read_loop b f₁ fsss l = read_loop b f₂ fsss l := by
  induction f₁ generalizing f₂ fsss l with
  | zero => omega
  | succ f₁ ih =>
    obtain ⟨f₂, rfl⟩ : ∃ k, f₂ = k + 1 := ⟨f₂ - 1, by omega⟩
    by_cases hshort : fsss.input.length < SUM_WINDOW b
    · have hlen : (fread_got (SUM_WINDOW b) fsss.input).length < SUM_WINDOW b := by
        simp [fread_got, List.length_take]; omega
      rw [read_loop, read_loop]
      simp only [hlen, if_true]
    · have hfull : SUM_WINDOW b ≤ fsss.input.length := by omega
      have hW := SUM_WINDOW_pos b
      cases hc : (block_scan b fsss l).2.complete_seg_outbuf with
      | some seg =>
        rw [read_loop_full_some b f₁ fsss l seg hfull hc,
          read_loop_full_some b f₂ fsss l seg hfull hc]
      | none =>
        rw [read_loop_full_none b f₁ fsss l hfull hc, read_loop_full_none b f₂ fsss l hfull hc]
        apply ih <;> (rw [state_after_block_input, List.length_drop]; omega)

theorem readsegment_run_loop (b : Nat) (fsss : fss_state) (he : fsss.eof = false) :
    fletcher_sum_split_readsegment b fsss = run_loop b fsss (entry_locals fsss) :=
  readsegment_live b fsss he

theorem run_loop_none (b : Nat) (fsss : fss_state) (l : locals)
    (h : SUM_WINDOW b ≤ fsss.input.length)
    (hc : (block_scan b fsss l).2.complete_seg_outbuf = none) :
    run_loop b fsss l = run_loop b (state_after_block b fsss l) (block_scan b fsss l).2 := by
  have hW := SUM_WINDOW_pos b
  unfold run_loop
  rw [read_loop_full_none b _ fsss l h hc]
  apply read_loop_fuel_irrel <;> (rw [state_after_block_input, List.length_drop]; omega)

theorem run_loop_some (b : Nat) (fsss : fss_state) (l : locals) (seg : List Byte)
    (h : SUM_WINDOW b ≤ fsss.input.length)
    (hc : (block_scan b fsss l).2.complete_seg_outbuf = some seg) :
    run_loop b fsss l = (result.segment seg, state_after_boundary b fsss l) :=
  read_loop_full_some b _ fsss l seg h hc

theorem at_block_roll_inv (b : Nat) (fsss : fss_state) (l : locals) (o : List Byte) (lh : Nat)
    (rest : List Byte) (h : at_block b fsss l o lh rest) :
    roll_inv b (fsss.prev_blk ++ fsss.input) fsss l.char_sum l.fletch_sum := by
  obtain ⟨-, -, -, -, -, hp, hb, ht, -, hcs, hfs⟩ := h
  exact ⟨hp, hb, ht, ⟨[], rfl⟩, hcs, hfs⟩

/-- The block read next is a `one_block`: it has no hit. -/
theorem hits_one_block (b : Nat) (h8 : 8 ≤ b) (h24 : b ≤ 24) (fsss : fss_state) (l : locals)
    (o : List Byte) (lh : Nat) (rest : List Byte)
    (h : at_block b fsss l o lh (one_block b ++ rest)) :
    block_hits b fsss.precomputed_remove_oldbyte fsss.prev_blk (after_fread b fsss).blk
      (SUM_WINDOW b) 0 l.char_sum l.fletch_sum = [] := by
  have hinv := at_block_roll_inv b fsss l o lh _ h
  obtain ⟨-, -, -, -, hin, -, -, -, hz, -, -⟩ := h
  have hfull : SUM_WINDOW b ≤ fsss.input.length := by
    rw [hin, List.length_append, one_block_length]; omega
  apply List.eq_nil_iff_forall_not_mem.2
  intro j hj
  rw [roll_inv_mem_block_hits b h8 h24 _ fsss _ _ hinv hfull (SUM_WINDOW b) (Nat.le_refl _)] at hj
  rw [hin] at hj
  exact fletcher_window_one_block b h8 h24 _ rest hz j hj.1 hj.2

/-- The block read next is a `zero_block`: every index is a hit. -/
theorem hits_zero_block (b : Nat) (h8 : 8 ≤ b) (h24 : b ≤ 24) (fsss : fss_state) (l : locals)
    (o : List Byte) (lh : Nat) (rest : List Byte)
    (h : at_block b fsss l o lh (zero_block b ++ rest)) :
    block_hits b fsss.precomputed_remove_oldbyte fsss.prev_blk (after_fread b fsss).blk
      (SUM_WINDOW b) 0 l.char_sum l.fletch_sum = List.range' 0 (SUM_WINDOW b) := by
  obtain ⟨-, -, -, -, hin, hp, hb, ht, hz, hcs, hfs⟩ := h
  have hfull : SUM_WINDOW b ≤ fsss.input.length := by
    rw [hin, List.length_append, zero_block_length]; omega
  have := block_hits_all b h8 h24 fsss.prev_blk (fsss.input.take (SUM_WINDOW b)) hp
    (by simp [List.length_take]; omega) (SUM_WINDOW b) 0 (by omega)
    (by
      intro j _ hj
      rw [window_take _ _ _ _ (by omega), hin]
      exact fletcher_window_zero_block b _ rest hz j (by omega))
  rw [window_zero] at this
  rw [after_fread_blk_eq b fsss hb hfull, ht, hcs, hfs, this]

theorem block_scan_no_hit (b : Nat) (fsss : fss_state) (l : locals)
    (hhits : block_hits b fsss.precomputed_remove_oldbyte fsss.prev_blk (after_fread b fsss).blk
      (SUM_WINDOW b) 0 l.char_sum l.fletch_sum = []) :
    (block_scan b fsss l).2.complete_seg_outbuf = none ∧
      (block_scan b fsss l).1.outbuf = fsss.outbuf ∧
      (block_scan b fsss l).1.last_hit_at = fsss.last_hit_at := by
  unfold block_scan
  rw [hhits]
  exact ⟨rfl, rfl, rfl⟩

theorem block_scan_hit_keep (b : Nat) (fsss : fss_state) (l : locals) (j : Nat) (t : List Nat)
    (hhits : block_hits b fsss.precomputed_remove_oldbyte fsss.prev_blk (after_fread b fsss).blk
      (SUM_WINDOW b) 0 l.char_sum l.fletch_sum = j :: t)
    (hk : ¬ fsss.last_hit_at + MINSEGSIZE b < fsss.bytes_into_seg + j) :
    (block_scan b fsss l).2.complete_seg_outbuf = none ∧
      (block_scan b fsss l).1.outbuf = fsss.outbuf ∧
      (block_scan b fsss l).1.last_hit_at =
        last_hit_after fsss.bytes_into_seg t (fsss.bytes_into_seg + j) := by
  have hk' : ¬ (after_fread b fsss).bytes_into_seg + j >
      (after_fread b fsss).last_hit_at + MINSEGSIZE b := hk
  unfold block_scan
  rw [hhits]
  simp only [scan_result, hk', if_false]
  refine ⟨?_, ?_, ?_⟩ <;> first | rfl | trivial

theorem block_scan_hit_split (b : Nat) (fsss : fss_state) (l : locals) (j : Nat) (t : List Nat)
    (hhits : block_hits b fsss.precomputed_remove_oldbyte fsss.prev_blk (after_fread b fsss).blk
      (SUM_WINDOW b) 0 l.char_sum l.fletch_sum = j :: t)
    (hs : fsss.last_hit_at + MINSEGSIZE b < fsss.bytes_into_seg + j) :
    (block_scan b fsss l).2.complete_seg_outbuf =
        cwrite fsss.outbuf (after_fread b fsss).blk (j + 1) ∧
      (block_scan b fsss l).1.outbuf =
        some (((after_fread b fsss).blk.drop (j + 1)).take (SUM_WINDOW b - (j + 1))) ∧
      (block_scan b fsss l).2.newseg_bytes = SUM_WINDOW b - (j + 1) ∧
      (block_scan b fsss l).1.last_hit_at =
        last_hit_after fsss.bytes_into_seg t (fsss.bytes_into_seg + j) := by
  have hs' : (after_fread b fsss).bytes_into_seg + j >
      (after_fread b fsss).last_hit_at + MINSEGSIZE b := hs
  unfold block_scan
  rw [hhits]
  simp only [scan_result, hs', if_true]
  refine ⟨?_, ?_, ?_, ?_⟩ <;> first | rfl | trivial

/-- The situation at the next head of the loop, after a block `B` in which no
segment ended. -/
theorem at_block_after_block (b : Nat) (h8 : 8 ≤ b) (h24 : b ≤ 24) (fsss : fss_state)
    (l : locals) (o : List Byte) (lh : Nat) (B rest : List Byte)
    (h : at_block b fsss l o lh (B ++ rest)) (hB : B.length = SUM_WINDOW b)
    (hBz : B.drop 1 = List.replicate (SUM_WINDOW b - 1) 0)
    (hout : (block_scan b fsss l).1.outbuf = some o) :
    at_block b (state_after_block b fsss l) (block_scan b fsss l).2 (o ++ B)
      (block_scan b fsss l).1.last_hit_at rest := by
  have hinv := at_block_roll_inv b fsss l o lh _ h
  obtain ⟨he, ho, hbis, hl, hin, hp, hb, ht, hz, hcs, hfs⟩ := h
  have hfull : SUM_WINDOW b ≤ fsss.input.length := by
    rw [hin, List.length_append, hB]; omega
  have hblk : (after_fread b fsss).blk = B := by
    rw [after_fread_blk_eq b fsss hb hfull, hin, ← hB, List.take_left']
    rfl
  obtain ⟨-, -, -, -, h5, h6⟩ := roll_inv_next b h8 h24 _ fsss l hinv hfull
    (state_after_block b fsss l) (by simp [state_after_block])
    (by simp [state_after_block]) (by simp [state_after_block, block_scan, after_fread])
    (state_after_block_input b fsss l)
  refine ⟨?_, ?_, ?_, rfl, ?_, ?_, ?_, ?_, ?_, h5, h6⟩
  · rw [state_after_block_eof, he]
  · simp only [state_after_block, hout, hblk, cwrite, Option.map]
    rw [← hB, List.take_length]
  · simp only [state_after_block, hbis, List.length_append, hB]
  · rw [state_after_block_input, hin, ← hB, List.drop_left']
    rfl
  · simp only [state_after_block, hblk, hB]
  · simp only [state_after_block, hp]
  · simp [state_after_block, block_scan, after_fread, ht]
  · simp only [state_after_block, hblk, hBz]

/-- The situation at the entry of the next call, after a block `B` whose
index `j` ended a segment. -/
theorem at_block_after_boundary (b : Nat) (h8 : 8 ≤ b) (h24 : b ≤ 24) (fsss : fss_state)
    (l : locals) (o : List Byte) (lh : Nat) (B rest : List Byte) (j : Nat)
    (h : at_block b fsss l o lh (B ++ rest)) (hB : B.length = SUM_WINDOW b)
    (hBz : B.drop 1 = List.replicate (SUM_WINDOW b - 1) 0)
    (hout : (block_scan b fsss l).1.outbuf =
      some (((after_fread b fsss).blk.drop (j + 1)).take (SUM_WINDOW b - (j + 1))))
    (hnew : (block_scan b fsss l).2.newseg_bytes = SUM_WINDOW b - (j + 1)) :
    at_block b (state_after_boundary b fsss l) (entry_locals (state_after_boundary b fsss l))
      (B.drop (j + 1)) (block_scan b fsss l).1.last_hit_at rest := by
  have hinv := at_block_roll_inv b fsss l o lh _ h
  obtain ⟨he, ho, hbis, hl, hin, hp, hb, ht, hz, hcs, hfs⟩ := h
  have hfull : SUM_WINDOW b ≤ fsss.input.length := by
    rw [hin, List.length_append, hB]; omega
  have hblk : (after_fread b fsss).blk = B := by
    rw [after_fread_blk_eq b fsss hb hfull, hin, ← hB, List.take_left']
    rfl
  obtain ⟨-, -, -, -, h5, h6⟩ := roll_inv_next b h8 h24 _ fsss l hinv hfull
    (state_after_boundary b fsss l) (by simp [state_after_boundary])
    (by simp [state_after_boundary]) (by simp [state_after_boundary, block_scan, after_fread])
    (state_after_boundary_input b fsss l)
  refine ⟨?_, ?_, ?_, rfl, ?_, ?_, ?_, ?_, ?_, h5, h6⟩
  · rw [state_after_boundary_eof, he]
  · simp only [state_after_boundary, hout, hblk]
    rw [List.take_of_length_le (by rw [List.length_drop, hB])]
  · simp only [state_after_boundary, hnew, List.length_drop, hB]
  · rw [state_after_boundary_input, hin, ← hB, List.drop_left']
    rfl
  · simp only [state_after_boundary, hblk, hB]
  · simp only [state_after_boundary, hp]
  · simp [state_after_boundary, block_scan, after_fread, ht]
  · simp only [state_after_boundary, hblk, hBz]

theorem one_block_drop (b : Nat) :
    (one_block b).drop 1 = List.replicate (SUM_WINDOW b - 1) 0 := rfl

theorem zero_block_drop (b : Nat) :
    (zero_block b).drop 1 = List.replicate (SUM_WINDOW b - 1) 0 := by
  simp [zero_block, List.drop_replicate]

/-- A `one_block` is appended to the current segment. -/
theorem step_one_block (b : Nat) (h8 : 8 ≤ b) (h24 : b ≤ 24) (fsss : fss_state) (l : locals)
    (o : List Byte) (lh : Nat) (rest : List Byte)
    (h : at_block b fsss l o lh (one_block b ++ rest)) :
    ∃ fsss' l', run_loop b fsss l = run_loop b fsss' l' ∧
      at_block b fsss' l' (o ++ one_block b) lh rest := by
  obtain ⟨hc, hout, hlh⟩ := block_scan_no_hit b fsss l (hits_one_block b h8 h24 fsss l o lh rest h)
  have hfull : SUM_WINDOW b ≤ fsss.input.length := by
    rw [h.2.2.2.2.1, List.length_append, one_block_length]; omega
  have hnext := at_block_after_block b h8 h24 fsss l o lh _ rest h (one_block_length b)
    (one_block_drop b) (by rw [hout, h.2.1])
  rw [hlh, h.2.2.2.1] at hnext
  exact ⟨_, _, run_loop_none b fsss l hfull hc, hnext⟩

/-- A run of `n` blocks `one_block` is appended to the current segment. -/
theorem step_one_blocks (b : Nat) (h8 : 8 ≤ b) (h24 : b ≤ 24) (n : Nat) (fsss : fss_state)
    (l : locals) (o : List Byte) (lh : Nat) (rest : List Byte)
    (h : at_block b fsss l o lh (one_blocks b n ++ rest)) :
    ∃ fsss' l', run_loop b fsss l = run_loop b fsss' l' ∧
      at_block b fsss' l' (o ++ one_blocks b n) lh rest := by
  induction n generalizing fsss l o with
  | zero =>
    refine ⟨fsss, l, rfl, ?_⟩
    simpa [one_blocks] using h
  | succ n ih =>
    rw [one_blocks, List.append_assoc] at h
    obtain ⟨f1, l1, hrun1, h1⟩ := step_one_block b h8 h24 fsss l o lh _ h
    obtain ⟨f2, l2, hrun2, h2⟩ := ih f1 l1 (o ++ one_block b) h1
    refine ⟨f2, l2, hrun1.trans hrun2, ?_⟩
    rw [one_blocks, ← List.append_assoc]
    exact h2

theorem range'_zero_eq (n : Nat) (hn : 0 < n) : List.range' 0 n = 0 :: List.range' 1 (n - 1) := by
  obtain ⟨m, rfl⟩ : ∃ m, n = m + 1 := ⟨n - 1, by omega⟩
  rw [List.range'_succ]
  rfl

/-- A `zero_block` whose first byte does not pass the distance test is
appended to the current segment; `last_hit_at` moves to its last byte. -/
theorem step_zero_block_keep (b : Nat) (h8 : 8 ≤ b) (h24 : b ≤ 24) (fsss : fss_state)
    (l : locals) (o : List Byte) (lh : Nat) (rest : List Byte)
    (h : at_block b fsss l o lh (zero_block b ++ rest))
    (hk : o.length ≤ lh + MINSEGSIZE b) :
    ∃ fsss' l', run_loop b fsss l = run_loop b fsss' l' ∧
      at_block b fsss' l' (o ++ zero_block b) (o.length + (SUM_WINDOW b - 1)) rest := by
  have hW := SUM_WINDOW_pos b
  have hhits := hits_zero_block b h8 h24 fsss l o lh rest h
  rw [range'_zero_eq _ hW] at hhits
  obtain ⟨hc, hout, hlh⟩ := block_scan_hit_keep b fsss l 0 _ hhits
    (by rw [h.2.2.2.1, h.2.2.1]; omega)
  have hfull : SUM_WINDOW b ≤ fsss.input.length := by
    rw [h.2.2.2.2.1, List.length_append, zero_block_length]; omega
  have hnext := at_block_after_block b h8 h24 fsss l o lh _ rest h (zero_block_length b)
    (zero_block_drop b) (by rw [hout, h.2.1])
  rw [hlh, last_hit_after_range', h.2.2.1] at hnext
  exact ⟨_, _, run_loop_none b fsss l hfull hc, by simpa using hnext⟩

/-- A `zero_block` whose first byte passes the distance test ends the
segment with that byte; the next segment starts with the rest of the block,
and `last_hit_at` keeps the position of the last byte of the block in the
coordinates of the segment that ended. -/
theorem step_zero_block_split (b : Nat) (h8 : 8 ≤ b) (h24 : b ≤ 24) (fsss : fss_state)
    (l : locals) (o : List Byte) (lh : Nat) (rest : List Byte)
    (h : at_block b fsss l o lh (zero_block b ++ rest))
    (hs : lh + MINSEGSIZE b < o.length) :
    ∃ s', run_loop b fsss l = (result.segment (o ++ [0]), s') ∧
      at_block b s' (entry_locals s') (List.replicate (SUM_WINDOW b - 1) 0)
        (o.length + (SUM_WINDOW b - 1)) rest := by
  have hW := SUM_WINDOW_pos b
  have hhits := hits_zero_block b h8 h24 fsss l o lh rest h
  rw [range'_zero_eq _ hW] at hhits
  obtain ⟨hc, hout, hnew, hlh⟩ := block_scan_hit_split b fsss l 0 _ hhits
    (by rw [h.2.2.2.1, h.2.2.1]; omega)
  have hfull : SUM_WINDOW b ≤ fsss.input.length := by
    rw [h.2.2.2.2.1, List.length_append, zero_block_length]; omega
  have hnext := at_block_after_boundary b h8 h24 fsss l o lh _ rest 0 h (zero_block_length b)
    (zero_block_drop b) hout hnew
  rw [hlh, last_hit_after_range', h.2.2.1, zero_block_drop] at hnext
  have hseg : (block_scan b fsss l).2.complete_seg_outbuf = some (o ++ [0]) := by
    rw [hc, h.2.1]
    have := after_fread_blk_take b fsss 1 hfull (by omega)
    simp only [cwrite, Option.map, this, h.2.2.2.2.1]
    rw [take_zero_block b rest 1 (by omega)]
    rfl
  exact ⟨_, run_loop_some b fsss l _ hfull hseg, by simpa using hnext⟩

/-- At the end of the stream the rest goes into the last segment. -/
theorem step_end (b : Nat) (fsss : fss_state) (l : locals) (o : List Byte) (lh : Nat)
    (rest : List Byte) (h : at_block b fsss l o lh rest) (hr : rest.length < SUM_WINDOW b) :
    ∃ s', run_loop b fsss l = (result.segment (o ++ rest), s') ∧ s'.eof = true ∧
      s'.outbuf = none := by
  obtain ⟨-, ho, -, -, hin, -⟩ := h
  have := read_loop_short b fsss.input.length fsss l o ho (by rw [hin]; exact hr)
  rw [hin] at this
  exact ⟨_, by rw [run_loop]; simpa [hin] using this, rfl, rfl⟩

/-- The state left by `new` on a stream that starts with a `one_block`. -/
theorem new_one_block (b : Nat) (h8 : 8 ≤ b) (h24 : b ≤ 24) (rest : List Byte) :
    at_block b (fletcher_sum_split_new b (one_block b ++ rest))
      (entry_locals (fletcher_sum_split_new b (one_block b ++ rest))) (one_block b) 0 rest := by
  have hW := SUM_WINDOW_pos b
  have hP := (SUM_WINDOW_lt_PRIME b h8 h24).1
  have hlen := one_block_length b
  have htake : (one_block b ++ rest).take (SUM_WINDOW b) = one_block b := by
    rw [← hlen, List.take_left']; rfl
  have hdrop : (one_block b ++ rest).drop (SUM_WINDOW b) = rest := by
    rw [← hlen, List.drop_left']; rfl
  have hfl : fletcher_sum (one_block b) % PRIME b ≠ 0 := by
    rw [one_block, fletcher_sum_one_zeros, Nat.mod_eq_of_lt (by omega)]
    omega
  rw [new_eq_of_full b h8 h24 _ (by rw [List.length_append, hlen]; omega), htake, hdrop,
    if_neg hfl]
  exact ⟨rfl, rfl, hlen.symm, rfl, rfl, hlen, by simp, rfl, one_block_drop b, rfl, rfl⟩

/-! ## Two runs that never re-synchronise -/

/-- The first call of the run on `resync_tail b n`, for `n ≥ 2`: the segment
ends with the first byte of the second `zero_block`. -/
theorem resync_tail_first_call (b : Nat) (h8 : 8 ≤ b) (h24 : b ≤ 24) (n : Nat) (hn : 2 ≤ n) :
    nth_result b (resync_tail b n) 0 =
      result.segment (one_block b ++ zero_block b ++ one_blocks b n ++ [0]) := by
  have hW := SUM_WINDOW_pos b
  have hM := (SUM_WINDOW_lt_PRIME b h8 h24).2
  have hnW : 2 * SUM_WINDOW b ≤ n * SUM_WINDOW b := Nat.mul_le_mul_right _ hn
  have h0 := new_one_block b h8 h24
    (zero_block b ++ (one_blocks b n ++ (zero_block b ++ one_block b)))
  obtain ⟨f1, l1, hr1, h1⟩ := step_zero_block_keep b h8 h24 _ _ _ _ _ h0
    (by rw [one_block_length]; omega)
  obtain ⟨f2, l2, hr2, h2⟩ := step_one_blocks b h8 h24 n _ _ _ _ _ h1
  obtain ⟨s3, hr3, -⟩ := step_zero_block_split b h8 h24 _ _ _ _ _ h2
    (by
      simp only [List.length_append, one_block_length, zero_block_length, one_blocks_length]
      omega)
  rw [nth_result, nth_state, resync_tail, readsegment_run_loop b _ h0.1, hr1, hr2, hr3]

/-- The run on `resync_insert b n ++ resync_tail b n`, for `n ≥ 1`: the first
segment ends with the first byte of the first `zero_block`, the second segment
is the rest of the stream, and the third call returns the sentinel. -/
theorem resync_inserted_calls (b : Nat) (h8 : 8 ≤ b) (h24 : b ≤ 24) (n : Nat) (hn : 1 ≤ n) :
    nth_result b (resync_insert b n ++ resync_tail b n) 0 =
        result.segment (one_block b ++ one_blocks b n ++ one_block b ++ [0]) ∧
      nth_result b (resync_insert b n ++ resync_tail b n) 2 = result.sentinel := by
  have hW := SUM_WINDOW_pos b
  have hM := (SUM_WINDOW_lt_PRIME b h8 h24).2
  have hnW : 1 * SUM_WINDOW b ≤ n * SUM_WINDOW b := Nat.mul_le_mul_right _ hn
  have hin : resync_insert b n ++ resync_tail b n =
      one_block b ++ (one_blocks b n ++ (one_block b ++ (zero_block b ++
        (one_blocks b n ++ (zero_block b ++ (one_block b ++ [])))))) := by
    simp [resync_insert, resync_tail, List.append_assoc]
  have h0 := new_one_block b h8 h24
    (one_blocks b n ++ (one_block b ++ (zero_block b ++
        (one_blocks b n ++ (zero_block b ++ (one_block b ++ []))))))
  obtain ⟨f1, l1, hr1, h1⟩ := step_one_blocks b h8 h24 n _ _ _ _ _ h0
  obtain ⟨f2, l2, hr2, h2⟩ := step_one_block b h8 h24 _ _ _ _ _ h1
  obtain ⟨s3, hr3, h3⟩ := step_zero_block_split b h8 h24 _ _ _ _ _ h2
    (by
      simp only [List.length_append, one_block_length, one_blocks_length]
      omega)
  obtain ⟨f4, l4, hr4, h4⟩ := step_one_blocks b h8 h24 n _ _ _ _ _ h3
  obtain ⟨f5, l5, hr5, h5⟩ := step_zero_block_keep b h8 h24 _ _ _ _ _ h4
    (by
      simp only [List.length_append, one_block_length, one_blocks_length, List.length_replicate]
      omega)
  obtain ⟨f6, l6, hr6, h6⟩ := step_one_block b h8 h24 _ _ _ _ _ h5
  obtain ⟨s7, hr7, he7, ho7⟩ := step_end b _ _ _ _ _ h6 (by simpa using hW)
  have hcall0 : fletcher_sum_split_readsegment b
      (fletcher_sum_split_new b (resync_insert b n ++ resync_tail b n)) =
      (result.segment (one_block b ++ one_blocks b n ++ one_block b ++ [0]), s3) := by
    rw [hin, readsegment_run_loop b _ h0.1, hr1, hr2, hr3]
  have hcall1 : (fletcher_sum_split_readsegment b s3).2 = s7 := by
    rw [readsegment_run_loop b _ h3.1, hr4, hr5, hr6, hr7]
  refine ⟨by rw [nth_result, nth_state, hcall0], ?_⟩
  rw [nth_result, nth_state, nth_state, nth_state, hcall0, hcall1,
    readsegment_eof_none b s7 he7 ho7]

/-- When a call returns the sentinel, the whole stream has been delivered. -/
theorem delivered_of_sentinel (b : Nat) (input : List Byte) (k : Nat)
    (h : nth_result b input k = result.sentinel) : delivered b input k = input := by
  rcases accounted_step b input _ _ (accounted_nth b input k) with
    ⟨-, -, -, h4⟩ | ⟨seg, h1, -⟩
  · exact h4
  · unfold nth_result at h
    rw [h] at h1
    cases h1

theorem resync_tail_length (b n : Nat) :
    (resync_tail b n).length = (n + 4) * SUM_WINDOW b := by
  simp only [resync_tail, List.length_append, one_block_length, zero_block_length,
    one_blocks_length]
  ring

theorem resync_insert_length (b n : Nat) :
    (resync_insert b n).length = (n + 1) * SUM_WINDOW b := by
  simp only [resync_insert, List.length_append, one_block_length, one_blocks_length]
  ring

/-- No bound `K` makes the re-synchronisation property true: with
`n = K + 2`, the run on `resync_tail b n` has a boundary
`(n + 2) * SUM_WINDOW + 1` bytes into the tail, and the run on
`resync_insert b n ++ resync_tail b n` has none there. -/
theorem resync_claim_fails (b : Nat) (h8 : 8 ≤ b) (h24 : b ≤ 24) (K : Nat) :
    ¬ resync_claim b K := by
  intro hclaim
  have hW := SUM_WINDOW_pos b
  have hK : K < (K + 2 + 2) * SUM_WINDOW b + 1 := by
    have : K + 4 ≤ (K + 2 + 2) * SUM_WINDOW b := by
      calc K + 4 = (K + 2 + 2) * 1 := by omega
        _ ≤ (K + 2 + 2) * SUM_WINDOW b := Nat.mul_le_mul_left _ hW
    omega
  have h := hclaim [] (resync_insert b (K + 2)) (resync_tail b (K + 2))
    ((K + 2 + 2) * SUM_WINDOW b + 1) hK
  simp only [List.nil_append, List.length_nil, Nat.zero_add] at h
  have h1 := resync_tail_first_call b h8 h24 (K + 2) (by omega)
  obtain ⟨h2, h3⟩ := resync_inserted_calls b h8 h24 (K + 2) (by omega)
  have e1 : (K + 2 + 2) * SUM_WINDOW b = (K + 2) * SUM_WINDOW b + 2 * SUM_WINDOW b := by ring
  have e2 : (K + 2 + 4) * SUM_WINDOW b = (K + 2) * SUM_WINDOW b + 4 * SUM_WINDOW b := by ring
  have e3 : (K + 2 + 1) * SUM_WINDOW b = (K + 2) * SUM_WINDOW b + SUM_WINDOW b := by ring
  have hright : is_boundary b (resync_tail b (K + 2)) ((K + 2 + 2) * SUM_WINDOW b + 1) := by
    refine ⟨?_, 0, _, h1, ?_⟩
    · rw [resync_tail_length, e1, e2]; omega
    · rw [delivered, h1]
      simp only [delivered, result.bytes, List.nil_append, List.length_append,
        one_block_length, zero_block_length, one_blocks_length, List.length_singleton, e1]
      omega
  obtain ⟨hq, k, seg, hres, hlen⟩ := h.2 hright
  rw [List.length_append, resync_tail_length, resync_insert_length] at hq
  rw [resync_insert_length] at hlen
  rcases k with _ | _ | k
  · rw [delivered, h2] at hlen
    simp only [delivered, result.bytes, List.nil_append, List.length_append,
      one_block_length, one_blocks_length, List.length_singleton, e1, e3] at hlen
    omega
  · have hd := delivered_of_sentinel b _ 2 h3
    rw [show 0 + 1 + 1 = 2 by rfl, hd, List.length_append, resync_tail_length,
      resync_insert_length] at hlen
    omega
  · have := (sentinel_persists b _ 2 h3 (k + 1 + 1) (by omega)).1
    rw [this] at hres
    cases hres

/-- The loop of `readsegment` returns before its fuel runs out, when the fuel
exceeds the length of the unread input. -/
theorem read_loop_fuel_suffices (b fuel : Nat) (fsss : fss_state) (l : locals)
    (h : fsss.input.length < fuel) :
    (read_loop b fuel fsss l).1 ≠ result.out_of_fuel := by
  induction fuel generalizing fsss l with
  | zero => omega
  | succ fuel ih =>
    by_cases hshort : fsss.input.length < SUM_WINDOW b
    · have hlen : (fread_got (SUM_WINDOW b) fsss.input).length < SUM_WINDOW b := by
        simp [fread_got, List.length_take]; omega
      rw [read_loop]
      simp [hlen]
    · have hW := SUM_WINDOW_pos b
      rw [read_loop_full b fuel fsss l (by omega)]
      split
      · simp
      · apply ih
        simp [block_scan, after_fread]
        omega

/-- No call of `readsegment` runs out of fuel: the function is total. -/
theorem readsegment_fuel_suffices (b : Nat) (fsss : fss_state) :
    (fletcher_sum_split_readsegment b fsss).1 ≠ result.out_of_fuel := by
  unfold fletcher_sum_split_readsegment
  split
  · split <;> simp
  · exact read_loop_fuel_suffices b _ _ _ (Nat.lt_succ_self _)

/-- The C function `sums_from_scratch`, applied to a buffer of `SUM_WINDOW`
bytes, stores the byte sum of the buffer and its Fletcher sum modulo `PRIME`. -/
theorem sums_from_scratch_eq (b : Nat) (h8 : 8 ≤ b) (h24 : b ≤ 24) (fsss : fss_state)
    (buf : List Byte) (hbuf : buf.length = SUM_WINDOW b) :
    (sums_from_scratch b fsss buf).char_sum = byte_sum buf ∧
      (sums_from_scratch b fsss buf).fletch_sum = fletcher_sum buf % PRIME b := by
  obtain ⟨hc, hm, hP, hbound⟩ := widths_of_supported b h8 h24
  have hsums := sums_loop_eq b h8 h24 buf (SUM_WINDOW b) 0 (by omega) (by omega)
  simp only [List.take_zero, byte_sum, fletcher_sum, Nat.zero_add] at hsums
  rw [← hbuf, List.take_length] at hsums
  have hfl : wrap (fletchsum_mp_t b) (fletcher_sum buf % PRIME b) =
      fletcher_sum buf % PRIME b := by
    apply wrap_of_lt
    have := Nat.mod_lt (fletcher_sum buf) hP
    rw [hm]; omega
  unfold sums_from_scratch
  rw [← hbuf] 
  simp only [hsums, hfl]
  exact ⟨trivial, trivial⟩

/-! ## The integer types, the sums and the table in every supported configuration -/

/-- One iteration of the scan entered with `complete_seg_outbuf == NULL`
does not fail, and it leaves in the locals the two sums rolled by one byte. -/
theorem scan_body_sums (b i : Nat) (fsss : fss_state) (l : locals)
    (hc : l.complete_seg_outbuf = none) :
    ∃ f' l', scan_body b i fsss l = Except.ok (f', l') ∧
      l'.char_sum =
        roll_char_sum b l.char_sum (fsss.prev_blk.getD i 0).val (fsss.blk.getD i 0).val ∧
      l'.fletch_sum =
        roll_fletch_sum b fsss.precomputed_remove_oldbyte l.fletch_sum
          (roll_char_sum b l.char_sum (fsss.prev_blk.getD i 0).val (fsss.blk.getD i 0).val)
          (fsss.prev_blk.getD i 0).val := by
  unfold scan_body
  simp only [hc, Option.isSome_none, Bool.false_eq_true, if_false]
  split_ifs <;> exact ⟨_, _, rfl, rfl, rfl⟩

/-- The widths of the integer types in every supported configuration. -/
theorem widths_upto_25 (b : Nat) (h8 : 8 ≤ b) (h25 : b ≤ 25) :
    32 ≤ charsum_t b ∧ fletchsum_mp_t b = 32 ∧ 0 < PRIME b ∧ PRIME b < 2 ^ 32 ∧
      255 * SUM_WINDOW b < 2 ^ 32 := by
  interval_cases b <;> decide

/-- The sums of at most `SUM_WINDOW` bytes fit the types `charsum_t` and
`fletchsum_t` in every supported configuration. -/
theorem sums_fit_types (b : Nat) (h8 : 8 ≤ b) (h25 : b ≤ 25) (w : List Byte)
    (hw : w.length ≤ SUM_WINDOW b) :
    byte_sum w < 2 ^ charsum_t b ∧ fletcher_sum w < 2 ^ fletchsum_t b := by
  obtain ⟨h1, h2⟩ := fletchsum_t_fits b h8 h25
  have h3 := byte_sum_le w
  have h4 := two_fletcher_sum_le w
  have h5 : w.length * (w.length + 1) ≤ SUM_WINDOW b * (SUM_WINDOW b + 1) :=
    Nat.mul_le_mul hw (by omega)
  constructor
  · omega
  · omega

/-- In every supported configuration the loop of `sums_from_scratch` holds,
after each iteration, the exact byte sum and Fletcher sum of the bytes seen so
far: no addition wraps. -/
theorem sums_loop_exact (b : Nat) (h8 : 8 ≤ b) (h25 : b ≤ 25) (buf : List Byte) (n i : Nat)
    (hin : i + n ≤ SUM_WINDOW b) (hb : i + n ≤ buf.length) :
    sums_loop b buf n i (byte_sum (buf.take i), fletcher_sum (buf.take i)) =
      (byte_sum (buf.take (i + n)), fletcher_sum (buf.take (i + n))) := by
  induction n generalizing i with
  | zero => rfl
  | succ n ih =>
    have hi : i < buf.length := by omega
    have htake : buf.take (i + 1) = buf.take i ++ [buf.getD i 0] := by
      rw [List.take_succ, List.getD_eq_getElem _ _ hi, List.getElem?_eq_getElem hi]
      rfl
    obtain ⟨hc, hf⟩ := sums_fit_types b h8 h25 (buf.take (i + 1))
      (by simp [List.length_take]; omega)
    have e1 : wrap (charsum_t b) (byte_sum (buf.take i) + (buf.getD i 0).val) =
        byte_sum (buf.take (i + 1)) := by
      have : byte_sum (buf.take (i + 1)) = byte_sum (buf.take i) + (buf.getD i 0).val := by
        rw [htake, byte_sum_append]; simp [byte_sum]
      rw [← this]
      exact wrap_of_lt _ _ hc
    have e2 : wrap (fletchsum_t b) (fletcher_sum (buf.take i) + byte_sum (buf.take (i + 1))) =
        fletcher_sum (buf.take (i + 1)) := by
      have : fletcher_sum (buf.take (i + 1)) =
          fletcher_sum (buf.take i) + byte_sum (buf.take (i + 1)) := by
        rw [htake, fletcher_sum_concat]
      rw [← this]
      exact wrap_of_lt _ _ hf
    rw [sums_loop]
    simp only [e1, e2]
    rw [ih (i + 1) (by omega) (by omega)]
    rw [show i + 1 + n = i + (n + 1) by omega]

/-- The loop of `sums_from_scratch` run from the start for `n` iterations. -/
theorem sums_loop_from_start (b : Nat) (h8 : 8 ≤ b) (h25 : b ≤ 25) (buf : List Byte) (n : Nat)
    (hn : n ≤ SUM_WINDOW b) (hb : n ≤ buf.length) :
    sums_loop b buf n 0 (0, 0) = (byte_sum (buf.take n), fletcher_sum (buf.take n)) := by
  have h := sums_loop_exact b h8 h25 buf n 0 (by omega) (by omega)
  simpa [byte_sum, fletcher_sum] using h

/-- The weighted sum `Σⱼ (n - j + 1) · bⱼ` is the sum of the running sums. -/
theorem running_sums_total_eq (buf : List Byte) : running_sums_total buf = fletcher_sum buf := by
  induction buf using List.reverseRecOn with
  | nil => rfl
  | append_singleton w y ih =>
    have hmap : ∀ k ∈ List.range w.length,
        byte_sum ((w ++ [y]).take (k + 1)) = byte_sum (w.take (k + 1)) := by
      intro k hk
      rw [List.mem_range] at hk
      rw [List.take_append_of_le_length (by omega)]
    unfold running_sums_total at ih ⊢
    rw [List.length_append, List.length_singleton, List.range_succ, List.map_append,
      List.sum_append, List.map_congr_left hmap, ih, fletcher_sum_concat]
    simp [List.take_of_length_le]

/-- The state left by `sums_from_scratch` on a buffer of `SUM_WINDOW` bytes, in
every supported configuration. -/
theorem sums_from_scratch_exact (b : Nat) (h8 : 8 ≤ b) (h25 : b ≤ 25) (fsss : fss_state)
    (buf : List Byte) (hbuf : buf.length = SUM_WINDOW b) :
    sums_from_scratch b fsss buf =
      { fsss with char_sum := byte_sum buf, fletch_sum := fletcher_sum buf % PRIME b } := by
  obtain ⟨-, hm, hP, hP32, -⟩ := widths_upto_25 b h8 h25
  have hsums := sums_loop_from_start b h8 h25 buf (SUM_WINDOW b) (le_refl _) (by omega)
  rw [← hbuf, List.take_length] at hsums
  have hfl : wrap (fletchsum_mp_t b) (fletcher_sum buf % PRIME b) =
      fletcher_sum buf % PRIME b := by
    apply wrap_of_lt
    have := Nat.mod_lt (fletcher_sum buf) hP
    rw [hm]; omega
  unfold sums_from_scratch
  rw [← hbuf]
  simp only [hsums, hfl]

/-- The table stored by `new` is the table of the `for` loop. -/
theorem new_table (b : Nat) (input : List Byte) :
    (fletcher_sum_split_new b input).precomputed_remove_oldbyte = remove_oldbyte_table b := by
  unfold fletcher_sum_split_new
  simp only [sums_from_scratch]
  split_ifs <;> rfl

/-- The entry of the table for the byte `x`, in every supported
configuration. -/
theorem table_entry (b : Nat) (h8 : 8 ≤ b) (h25 : b ≤ 25) (x : Nat) (hx : x < 256) :
    (remove_oldbyte_table b).getD x 0 = PRIME b - (SUM_WINDOW b * x) % PRIME b := by
  obtain ⟨hc, hm, hP, hP32, hW255⟩ := widths_upto_25 b h8 h25
  have hpow : 2 ^ 32 ≤ 2 ^ charsum_t b := Nat.pow_le_pow_right (by decide) hc
  have hW : SUM_WINDOW b * x < 2 ^ 32 := by
    have : SUM_WINDOW b * x ≤ SUM_WINDOW b * 255 := Nat.mul_le_mul_left _ (by omega)
    omega
  have hW1 : SUM_WINDOW b < 2 ^ 32 := by omega
  unfold remove_oldbyte_table
  rw [List.getD_eq_getElem?_getD, List.getElem?_map, List.getElem?_range hx]
  simp only [Option.map_some', Option.getD_some, hm]
  rw [wrap_of_lt _ (SUM_WINDOW b) (by omega), wrap_of_lt _ x (by omega),
    wrap_of_lt _ (SUM_WINDOW b * x) (by omega),
    wrap_of_lt _ (PRIME b - SUM_WINDOW b * x % PRIME b) (by omega),
    wrap_of_lt 32 (PRIME b - SUM_WINDOW b * x % PRIME b) (by omega)]

/-- In every supported configuration `PRIME` divides `SUM_WINDOW * x` for no
byte value `x` other than `0`. -/
theorem window_multiple_mod (b : Nat) (h8 : 8 ≤ b) (h25 : b ≤ 25) :
    ∀ x : Fin 256, x.val ≠ 0 → (SUM_WINDOW b * x.val) % PRIME b ≠ 0 := by
  interval_cases b <;> decide!

/-- After a call made before end of file, either the stream is finished and
the output buffer is gone, or the segmenter is still not at end of file. -/
theorem read_loop_eof_outbuf (b : Nat) (fuel : Nat) (fsss : fss_state) (l : locals)
    (o : List Byte) (ho : fsss.outbuf = some o) (hfuel : fsss.input.length < fuel)
    (hbis : o.length = fsss.bytes_into_seg) (he : fsss.eof = false) :
    (read_loop b fuel fsss l).2.eof = true → (read_loop b fuel fsss l).2.outbuf = none := by
  obtain ⟨mid, s', hr, h | h⟩ := read_loop_spec b fuel fsss l o ho hfuel hbis
  · intro _
    rw [hr]
    exact h.2.1
  · intro h'
    rw [hr] at h'
    simp only at h'
    rw [h.1, he] at h'
    cases h'

/-- Whenever the segmenter holds an output buffer, `bytes_into_seg` is the
number of bytes in it. -/
theorem outbuf_length_nth (b : Nat) (input : List Byte) (k : Nat) (o : List Byte)
    (ho : (nth_state b input k).outbuf = some o) :
    o.length = (nth_state b input k).bytes_into_seg := by
  cases k with
  | zero =>
    simp only [nth_state] at ho ⊢
    rw [new_outbuf] at ho
    cases ho
    rw [new_bytes_into_seg]
  | succ k =>
    have hacc := accounted_nth b input (k + 1)
    cases he : (nth_state b input (k + 1)).eof with
    | false =>
      obtain ⟨o', ho', hlen, -⟩ := hacc.2 he
      rw [ho] at ho'
      cases ho'
      exact hlen
    | true =>
      exfalso
      have hacck := accounted_nth b input k
      simp only [nth_state] at ho he
      cases hek : (nth_state b input k).eof with
      | true =>
        cases hok : (nth_state b input k).outbuf with
        | none =>
          rw [readsegment_eof_none b _ hek hok] at ho
          rw [hok] at ho
          cases ho
        | some o' =>
          rw [readsegment_eof_some b _ o' hek hok] at ho
          cases ho
      | false =>
        obtain ⟨o', ho', hlen, -⟩ := hacck.2 hek
        rw [readsegment_live b _ hek] at ho he
        have := read_loop_eof_outbuf b _ _ _ o' ho' (Nat.lt_succ_self _) hlen hek he
        rw [this] at ho
        cases ho

theorem no_small_divisor_spec (p k : Nat) (h : no_small_divisor p k = true) :
    ∀ m, m < k → 2 ≤ m → ¬ m ∣ p := by
  induction k with
  | zero => intro m hm; omega
  | succ k ih =>
    rw [no_small_divisor, Bool.and_eq_true, Bool.or_eq_true, decide_eq_true_eq,
      decide_eq_true_eq] at h
    intro m hm h2 hdvd
    rcases Nat.lt_succ_iff_lt_or_eq.1 hm with hlt | rfl
    · exact ih h.2 m hlt h2 hdvd
    · rcases h.1 with h1 | h1
      · omega
      · exact h1 (Nat.mod_eq_zero_of_dvd hdvd)

/-- A number `p ≥ 2` below `B * B` that passes the trial division by every
`m` with `2 ≤ m < B` is prime. -/
theorem prime_of_no_small_divisor (p B : Nat) (h2 : 2 ≤ p) (hB : p < B * B)
    (h : no_small_divisor p B = true) : Nat.Prime p := by
  refine Nat.prime_def_le_sqrt.2 ⟨h2, fun m hm2 hms => ?_⟩
  have hmm : m * m ≤ p := Nat.le_sqrt.1 hms
  refine no_small_divisor_spec p B h m ?_ hm2
  by_contra hge
  have hBm : B ≤ m := by omega
  have := Nat.mul_le_mul hBm hBm
  omega

/-- Every entry of the `PRIME` table is a prime number (trial division up to
`2 ^ (MINSEGSIZE_BITS / 2 + 1)`). -/
theorem PRIME_prime (b : Nat) (h8 : 8 ≤ b) (h25 : b ≤ 25) : Nat.Prime (PRIME b) := by
  have h : 2 ≤ PRIME b ∧ PRIME b < 2 ^ (b / 2 + 1) * 2 ^ (b / 2 + 1) ∧
      no_small_divisor (PRIME b) (2 ^ (b / 2 + 1)) = true := by
    interval_cases b <;> decide!
  exact prime_of_no_small_divisor _ _ h.1 h.2.1 h.2.2

/-- For the values in `prime_below_bits`, `PRIME` is the largest prime up to
`MINSEGSIZE`. -/
theorem PRIME_largest_below (b : Nat) (hb : b ∈ prime_below_bits) :
    PRIME b ≤ MINSEGSIZE b ∧ ∀ q, Nat.Prime q → q ≤ MINSEGSIZE b → q ≤ PRIME b := by
  simp only [prime_below_bits, List.mem_cons, List.mem_singleton, List.not_mem_nil,
    or_false] at hb
  rcases hb with rfl | rfl | rfl | rfl | rfl | rfl | rfl | rfl | rfl | rfl | rfl
  all_goals
    refine ⟨by decide, fun q hq hle => ?_⟩
    by_contra hlt
    norm_num [PRIME, MINSEGSIZE] at hle hlt
    interval_cases q <;> norm_num at hq

/-- For the other supported values, `PRIME` is the smallest prime above
`MINSEGSIZE`. -/
theorem PRIME_smallest_above (b : Nat) (h8 : 8 ≤ b) (h25 : b ≤ 25)
    (hb : b ∉ prime_below_bits) :
    MINSEGSIZE b < PRIME b ∧ ∀ q, Nat.Prime q → MINSEGSIZE b < q → PRIME b ≤ q := by
  interval_cases b
  all_goals first
    | exact absurd (by decide) hb
    | (refine ⟨by decide, fun q hq hlt => ?_⟩
       by_contra hle
       norm_num [PRIME, MINSEGSIZE] at hle hlt
       interval_cases q <;> norm_num at hq)

/-- The bounds behind the integer sizing: `255 * W < 2 ^ CHARSUM_BITS`, the
types picked are wider than `CHARSUM_BITS` and `FLETCHSUM_BITS`, the largest
Fletcher sum `255 * W * (W + 1) / 2` is below `2 ^ (FLETCHSUM_BITS + 1)`, and
from `MINSEGSIZE_BITS = 9` on it is below `2 ^ FLETCHSUM_BITS`. -/
theorem sizing_bounds (b : Nat) (h8 : 8 ≤ b) (h25 : b ≤ 25) :
    255 * SUM_WINDOW b < 2 ^ CHARSUM_BITS b ∧
      CHARSUM_BITS b < charsum_t b ∧ FLETCHSUM_BITS b < fletchsum_t b ∧
      255 * (SUM_WINDOW b * (SUM_WINDOW b + 1)) < 2 * 2 ^ (FLETCHSUM_BITS b + 1) ∧
      (9 ≤ b → 255 * (SUM_WINDOW b * (SUM_WINDOW b + 1)) < 2 * 2 ^ FLETCHSUM_BITS b) := by
  interval_cases b <;> decide

/-! ## Hits at positions of the stream -/

/-- The window that ends at index `j` of the bytes `rest` that follow a block
`prev` of the stream is the window of the scan. -/
theorem window_at_eq (b : Nat) (pre prev rest : List Byte) (j : Nat)
    (hp : prev.length = SUM_WINDOW b) (hj : j < SUM_WINDOW b) :
    window_at b (pre ++ prev ++ rest) (pre.length + SUM_WINDOW b + j) =
      window prev rest (j + 1) := by
  unfold window_at window
  rw [show pre.length + SUM_WINDOW b + j + 1 - SUM_WINDOW b = pre.length + (j + 1) by omega,
    List.append_assoc, ← List.drop_drop, List.drop_left,
    List.drop_append_of_le_length (by omega), List.take_append_eq_append_take,
    List.take_of_length_le (by simp; omega), List.length_drop, hp,
    show SUM_WINDOW b - (SUM_WINDOW b - (j + 1)) = j + 1 by omega]

/-- A position in the bytes that follow a block `prev` is a hit exactly when
the window of the scan at its index has Fletcher sum `0` modulo `PRIME`. -/
theorem is_hit_iff_window (b : Nat) (pre prev rest : List Byte) (j : Nat)
    (hp : prev.length = SUM_WINDOW b) (hj : j < SUM_WINDOW b) (hr : j < rest.length) :
    is_hit b (pre ++ prev ++ rest) (pre.length + SUM_WINDOW b + j) ↔
      fletcher_sum (window prev rest (j + 1)) % PRIME b = 0 := by
  unfold is_hit
  rw [window_at_eq b pre prev rest j hp hj]
  constructor
  · exact fun h => h.2.2
  · intro h
    refine ⟨by omega, ?_, h⟩
    simp only [List.length_append, hp]
    omega

/-! ## A run in which a hit is tested against a stale `last_hit_at` -/

theorem stale_hit_stream_length (b : Nat) :
    (stale_hit_stream b).length = 9 * SUM_WINDOW b := by
  simp only [stale_hit_stream, List.length_append, one_block_length, zero_block_length,
    one_blocks_length]
  ring

/-- The run on `stale_hit_stream`: the first call returns the first four
blocks and the first byte of the fifth, and leaves `bytes_into_seg` at
`SUM_WINDOW - 1` and `last_hit_at` at `5 * SUM_WINDOW - 1`; the second call
returns the rest of the stream, and the third call returns the sentinel. -/
theorem stale_run (b : Nat) (h8 : 8 ≤ b) (h24 : b ≤ 24) :
    nth_result b (stale_hit_stream b) 0 =
        result.segment (one_block b ++ zero_block b ++ one_blocks b 2 ++ [0]) ∧
      (nth_state b (stale_hit_stream b) 1).bytes_into_seg = SUM_WINDOW b - 1 ∧
      (nth_state b (stale_hit_stream b) 1).last_hit_at = 5 * SUM_WINDOW b - 1 ∧
      nth_result b (stale_hit_stream b) 2 = result.sentinel := by
  have hW := SUM_WINDOW_pos b
  have hM := (SUM_WINDOW_lt_PRIME b h8 h24).2
  have hin : stale_hit_stream b =
      one_block b ++ (zero_block b ++ (one_blocks b 2 ++ (zero_block b ++
        (one_blocks b 2 ++ (zero_block b ++ (one_block b ++ [])))))) := by
    simp [stale_hit_stream]
  have h0 := new_one_block b h8 h24
    (zero_block b ++ (one_blocks b 2 ++ (zero_block b ++
        (one_blocks b 2 ++ (zero_block b ++ (one_block b ++ []))))))
  obtain ⟨f1, l1, hr1, h1⟩ := step_zero_block_keep b h8 h24 _ _ _ _ _ h0
    (by rw [one_block_length]; omega)
  obtain ⟨f2, l2, hr2, h2⟩ := step_one_blocks b h8 h24 2 _ _ _ _ _ h1
  obtain ⟨s3, hr3, h3⟩ := step_zero_block_split b h8 h24 _ _ _ _ _ h2
    (by
      simp only [List.length_append, one_block_length, zero_block_length, one_blocks_length]
      omega)
  obtain ⟨f4, l4, hr4, h4⟩ := step_one_blocks b h8 h24 2 _ _ _ _ _ h3
  obtain ⟨f5, l5, hr5, h5⟩ := step_zero_block_keep b h8 h24 _ _ _ _ _ h4
    (by
      simp only [List.length_append, one_block_length, zero_block_length, one_blocks_length,
        List.length_replicate]
      omega)
  obtain ⟨f6, l6, hr6, h6⟩ := step_one_block b h8 h24 _ _ _ _ _ h5
  obtain ⟨s7, hr7, he7, ho7⟩ := step_end b _ _ _ _ _ h6 (by simpa using hW)
  have hcall0 : fletcher_sum_split_readsegment b
      (fletcher_sum_split_new b (stale_hit_stream b)) =
      (result.segment (one_block b ++ zero_block b ++ one_blocks b 2 ++ [0]), s3) := by
    rw [hin, readsegment_run_loop b _ h0.1, hr1, hr2, hr3]
  have hcall1 : (fletcher_sum_split_readsegment b s3).2 = s7 := by
    rw [readsegment_run_loop b _ h3.1, hr4, hr5, hr6, hr7]
  have hs3 : nth_state b (stale_hit_stream b) 1 = s3 := by
    rw [nth_state, nth_state, hcall0]
  refine ⟨by rw [nth_result, nth_state, hcall0], ?_, ?_, ?_⟩
  · rw [hs3, h3.2.2.1, List.length_replicate]
  · rw [hs3, h3.2.2.2.1]
    simp only [List.length_append, one_block_length, zero_block_length, one_blocks_length]
    omega
  · rw [nth_result, nth_state, hs3, hcall1, readsegment_eof_none b s7 he7 ho7]

/-- The hits of `stale_hit_stream` around the first byte of its third
`zero_block` (position `7 * SUM_WINDOW`): that byte is a hit, the previous hit
is the last byte of the second `zero_block` (position `5 * SUM_WINDOW - 1`),
and no byte between them is a hit. -/
theorem stale_hits (b : Nat) (h8 : 8 ≤ b) (h24 : b ≤ 24) :
    is_hit b (stale_hit_stream b) (7 * SUM_WINDOW b) ∧
      is_hit b (stale_hit_stream b) (5 * SUM_WINDOW b - 1) ∧
      ∀ q, 5 * SUM_WINDOW b - 1 < q → q < 7 * SUM_WINDOW b →
        ¬ is_hit b (stale_hit_stream b) q := by
  have hW := SUM_WINDOW_pos b
  have hE := one_block_length b
  have hZ := zero_block_length b
  refine ⟨?_, ?_, ?_⟩
  · have e : stale_hit_stream b =
        (one_block b ++ zero_block b ++ one_blocks b 2 ++ zero_block b ++ one_block b) ++
          one_block b ++ (zero_block b ++ one_block b) := by
      simp [stale_hit_stream, one_blocks]
    have hpos : 7 * SUM_WINDOW b =
        (one_block b ++ zero_block b ++ one_blocks b 2 ++ zero_block b ++ one_block b).length +
          SUM_WINDOW b + 0 := by
      simp only [List.length_append, hE, hZ, one_blocks_length]
      omega
    rw [e, hpos, is_hit_iff_window b _ _ _ 0 hE hW (by simp [hZ, hW])]
    exact fletcher_window_zero_block b _ _ (one_block_drop b) 0 hW
  · have e : stale_hit_stream b =
        (one_block b ++ zero_block b ++ one_block b) ++
          one_block b ++ (zero_block b ++ (one_blocks b 2 ++ (zero_block b ++ one_block b))) := by
      simp [stale_hit_stream, one_blocks]
    have hpos : 5 * SUM_WINDOW b - 1 =
        (one_block b ++ zero_block b ++ one_block b).length +
          SUM_WINDOW b + (SUM_WINDOW b - 1) := by
      simp only [List.length_append, hE, hZ]
      omega
    rw [e, hpos, is_hit_iff_window b _ _ _ (SUM_WINDOW b - 1) hE (by omega)
      (by simp [hZ]; omega)]
    exact fletcher_window_zero_block b _ _ (one_block_drop b) _ (by omega)
  · intro q h1 h2
    rcases Nat.lt_or_ge q (6 * SUM_WINDOW b) with h3 | h3
    · have e : stale_hit_stream b =
          (one_block b ++ zero_block b ++ one_blocks b 2) ++
            zero_block b ++ (one_block b ++ (one_block b ++ (zero_block b ++ one_block b))) := by
        simp [stale_hit_stream, one_blocks]
      have hpos : q =
          (one_block b ++ zero_block b ++ one_blocks b 2).length +
            SUM_WINDOW b + (q - 5 * SUM_WINDOW b) := by
        simp only [List.length_append, hE, hZ, one_blocks_length]
        omega
      rw [e, hpos, is_hit_iff_window b _ _ _ (q - 5 * SUM_WINDOW b) hZ (by omega)
        (by simp [hE]; omega)]
      exact fletcher_window_one_block b h8 h24 _ _ (zero_block_drop b) _ (by omega)
    · have e : stale_hit_stream b =
          (one_block b ++ zero_block b ++ one_blocks b 2 ++ zero_block b) ++
            one_block b ++ (one_block b ++ (zero_block b ++ one_block b)) := by
        simp [stale_hit_stream, one_blocks]
      have hpos : q =
          (one_block b ++ zero_block b ++ one_blocks b 2 ++ zero_block b).length +
            SUM_WINDOW b + (q - 6 * SUM_WINDOW b) := by
        simp only [List.length_append, hE, hZ, one_blocks_length]
        omega
      rw [e, hpos, is_hit_iff_window b _ _ _ (q - 6 * SUM_WINDOW b) hE (by omega)
        (by simp [hE]; omega)]
      exact fletcher_window_one_block b h8 h24 _ _ (one_block_drop b) _ (by omega)

/-- No segment of the run on `stale_hit_stream` ends with the first byte of
its third `zero_block`. -/
theorem stale_hit_no_boundary (b : Nat) (h8 : 8 ≤ b) (h24 : b ≤ 24) :
    ¬ ends_segment b (stale_hit_stream b) (7 * SUM_WINDOW b) := by
  have hW := SUM_WINDOW_pos b
  obtain ⟨h0, -, -, h2⟩ := stale_run b h8 h24
  rintro ⟨k, seg, hres, hlen⟩
  rcases k with _ | _ | k
  · rw [delivered, h0] at hlen
    simp only [delivered, result.bytes, List.nil_append, List.length_append,
      one_block_length, zero_block_length, one_blocks_length, List.length_singleton] at hlen
    omega
  · have hd := delivered_of_sentinel b _ 2 h2
    rw [show 0 + 1 + 1 = 2 by rfl, hd, stale_hit_stream_length] at hlen
    omega
  · have := (sentinel_persists b _ 2 h2 (k + 1 + 1) (by omega)).1
    rw [this] at hres
    cases hres

/-! ## The end-of-segment pattern -/

/-- The hit indices of a block are listed in increasing order. -/
theorem block_hits_pairwise (b : Nat) (table : List Nat) (prev blk : List Byte)
    (n i cs fs : Nat) :
    List.Pairwise (· < ·) (block_hits b table prev blk n i cs fs) := by
  induction n generalizing i cs fs with
  | zero => exact List.Pairwise.nil
  | succ n ih =>
    rw [block_hits]
    split_ifs with h
    · refine List.Pairwise.cons ?_ (ih _ _ _)
      intro j hj
      have := (block_hits_ge b table prev blk n (i + 1) _ _ j hj).1
      omega
    · exact ih _ _ _

/-- After the hits `j :: t` of a block, listed in increasing order,
`last_hit_at` is at least `bytes_into_seg + j'` for each of them. -/
theorem last_hit_after_cons_ge (bis j : Nat) (t : List Nat)
    (hp : List.Pairwise (· < ·) (j :: t)) :
    ∀ j' ∈ j :: t, bis + j' ≤ last_hit_after bis t (bis + j) := by
  induction t generalizing j with
  | nil =>
    intro j' hj'
    rw [List.mem_singleton] at hj'
    subst hj'
    exact Nat.le_refl _
  | cons h t ih =>
    intro j' hj'
    have hp' : List.Pairwise (· < ·) (h :: t) := List.Pairwise.of_cons hp
    have hjh : j < h := (List.pairwise_cons.1 hp).1 h (List.mem_cons_self _ _)
    have e : last_hit_after bis (h :: t) (bis + j) = last_hit_after bis t (bis + h) := rfl
    rw [e]
    rcases List.mem_cons.1 hj' with rfl | hmem
    · have := ih h hp' h (List.mem_cons_self _ _)
      omega
    · exact ih h hp' j' hmem

/-- In a state that satisfies `head_inv`, the delivered bytes and the output
buffer end where the window `prev_blk` ends. -/
theorem head_inv_position (b : Nat) (input d : List Byte) (fsss : fss_state) (l : locals)
    (h : head_inv b input d fsss l) :
    d.length + fsss.bytes_into_seg + fsss.input.length = input.length ∧
      SUM_WINDOW b ≤ d.length + fsss.bytes_into_seg := by
  obtain ⟨-, ⟨o, -, hlen, hacc⟩, ⟨hp, -, -, ⟨pre, hpre⟩, -, -⟩, -⟩ := h
  have h1 := congrArg List.length hacc
  have h2 := congrArg List.length hpre
  simp only [List.length_append] at h1 h2
  omega

/-- Index `j` of the block read next is a hit index of the scan exactly when
the corresponding position of the stream is a hit. -/
theorem mem_hits_iff_is_hit (b : Nat) (h8 : 8 ≤ b) (h24 : b ≤ 24) (input d : List Byte)
    (fsss : fss_state) (l : locals) (h : head_inv b input d fsss l)
    (hfull : SUM_WINDOW b ≤ fsss.input.length) (j : Nat) (hj : j < SUM_WINDOW b) :
    j ∈ block_hits b fsss.precomputed_remove_oldbyte fsss.prev_blk (after_fread b fsss).blk
        (SUM_WINDOW b) 0 l.char_sum l.fletch_sum ↔
      is_hit b input (d.length + fsss.bytes_into_seg + j) := by
  obtain ⟨-, ⟨o, -, hlen, hacc⟩, hroll, -⟩ := h
  rw [roll_inv_mem_block_hits b h8 h24 input fsss _ _ hroll hfull (SUM_WINDOW b) (le_refl _)]
  obtain ⟨hp, -, -, ⟨pre, hpre⟩, -, -⟩ := hroll
  have hpos : d.length + fsss.bytes_into_seg = pre.length + SUM_WINDOW b := by
    have h1 := congrArg List.length hacc
    have h2 := congrArg List.length hpre
    simp only [List.length_append] at h1 h2
    omega
  have hw := is_hit_iff_window b pre fsss.prev_blk fsss.input j hp hj (by omega)
  rw [← hpre] at hw
  rw [hpos, hw]
  exact ⟨fun h => h.2, fun h => ⟨hj, h⟩⟩

/-- The three outcomes of the scan of a full block: no hit; a first hit that
fails the distance test; a first hit that passes it and ends the segment. -/
theorem block_scan_outcomes (b : Nat) (fsss : fss_state) (l : locals) (o : List Byte)
    (ho : fsss.outbuf = some o) (hfull : SUM_WINDOW b ≤ fsss.input.length) :
    (block_hits b fsss.precomputed_remove_oldbyte fsss.prev_blk (after_fread b fsss).blk
        (SUM_WINDOW b) 0 l.char_sum l.fletch_sum = [] ∧
      (block_scan b fsss l).2.complete_seg_outbuf = none ∧
      (block_scan b fsss l).1.outbuf = some o ∧
      (block_scan b fsss l).1.last_hit_at = fsss.last_hit_at) ∨
    (∃ j t, block_hits b fsss.precomputed_remove_oldbyte fsss.prev_blk (after_fread b fsss).blk
        (SUM_WINDOW b) 0 l.char_sum l.fletch_sum = j :: t ∧
      ¬ fsss.last_hit_at + MINSEGSIZE b < fsss.bytes_into_seg + j ∧
      (block_scan b fsss l).2.complete_seg_outbuf = none ∧
      (block_scan b fsss l).1.outbuf = some o ∧
      (block_scan b fsss l).1.last_hit_at =
        last_hit_after fsss.bytes_into_seg t (fsss.bytes_into_seg + j)) ∨
    (∃ j t, block_hits b fsss.precomputed_remove_oldbyte fsss.prev_blk (after_fread b fsss).blk
        (SUM_WINDOW b) 0 l.char_sum l.fletch_sum = j :: t ∧
      j < SUM_WINDOW b ∧
      fsss.last_hit_at + MINSEGSIZE b < fsss.bytes_into_seg + j ∧
      (block_scan b fsss l).2.complete_seg_outbuf = some (o ++ fsss.input.take (j + 1)) ∧
      (block_scan b fsss l).1.outbuf = some ((fsss.input.take (SUM_WINDOW b)).drop (j + 1)) ∧
      (block_scan b fsss l).2.newseg_bytes = SUM_WINDOW b - (j + 1) ∧
      (block_scan b fsss l).1.last_hit_at =
        last_hit_after fsss.bytes_into_seg t (fsss.bytes_into_seg + j)) := by
  cases hh : block_hits b fsss.precomputed_remove_oldbyte fsss.prev_blk (after_fread b fsss).blk
      (SUM_WINDOW b) 0 l.char_sum l.fletch_sum with
  | nil =>
    obtain ⟨h1, h2, h3⟩ := block_scan_no_hit b fsss l hh
    exact Or.inl ⟨rfl, h1, by rw [h2, ho], h3⟩
  | cons j t =>
    have hj : j < SUM_WINDOW b := by
      have := (block_hits_ge b fsss.precomputed_remove_oldbyte fsss.prev_blk
        (after_fread b fsss).blk (SUM_WINDOW b) 0 l.char_sum l.fletch_sum j
        (by rw [hh]; exact List.mem_cons_self _ _)).2
      omega
    by_cases hd : fsss.last_hit_at + MINSEGSIZE b < fsss.bytes_into_seg + j
    · obtain ⟨h1, h2, h3, h4⟩ := block_scan_hit_split b fsss l j t hh hd
      refine Or.inr (Or.inr ⟨j, t, rfl, hj, hd, ?_, ?_, h3, h4⟩)
      · rw [h1, ho, cwrite, Option.map, after_fread_blk_take b fsss (j + 1) hfull (by omega)]
      · rw [h2, after_fread_blk_drop b fsss (j + 1) hfull (by omega)]
    · obtain ⟨h1, h2, h3⟩ := block_scan_hit_keep b fsss l j t hh hd
      exact Or.inr (Or.inl ⟨j, t, rfl, hd, h1, by rw [h2, ho], h3⟩)

/-- After a full block in which no segment ended, the invariant holds at the
next head of the loop. -/
theorem head_inv_after_block (b : Nat) (h8 : 8 ≤ b) (h24 : b ≤ 24) (input d : List Byte)
    (fsss : fss_state) (l : locals) (h : head_inv b input d fsss l)
    (hfull : SUM_WINDOW b ≤ fsss.input.length)
    (hc : (block_scan b fsss l).2.complete_seg_outbuf = none) :
    head_inv b input d (state_after_block b fsss l) (block_scan b fsss l).2 := by
  have hmem := mem_hits_iff_is_hit b h8 h24 input d fsss l h hfull
  obtain ⟨he, ⟨o, ho, hlen, hacc⟩, hroll, hb⟩ := h
  have hblk : (after_fread b fsss).blk = fsss.input.take (SUM_WINDOW b) :=
    after_fread_blk_eq b fsss hroll.2.1 hfull
  have hroll' := roll_inv_next b h8 h24 input fsss l hroll hfull
    (state_after_block b fsss l) (by simp [state_after_block])
    (by simp [state_after_block]) (by simp [state_after_block, block_scan, after_fread])
    (state_after_block_input b fsss l)
  have hfacts : (block_scan b fsss l).1.outbuf = some o ∧
      ∀ p, is_hit b input p → p < d.length + (fsss.bytes_into_seg + SUM_WINDOW b) →
        p ≤ d.length + (block_scan b fsss l).1.last_hit_at := by
    rcases block_scan_outcomes b fsss l o ho hfull with
      ⟨hh, -, ho', hl'⟩ | ⟨j, t, hh, hd, -, ho', hl'⟩ | ⟨j, t, hh, hj, hd, hc', -⟩
    · refine ⟨ho', fun p hp hlt => ?_⟩
      rw [hl']
      rcases Nat.lt_or_ge p (d.length + fsss.bytes_into_seg) with h1 | h1
      · exact hb p hp h1
      · exfalso
        have hx := (hmem (p - (d.length + fsss.bytes_into_seg)) (by omega)).2
          (by rw [show d.length + fsss.bytes_into_seg + (p - (d.length + fsss.bytes_into_seg)) = p
            by omega]; exact hp)
        rw [hh] at hx
        cases hx
    · refine ⟨ho', fun p hp hlt => ?_⟩
      have hpw := block_hits_pairwise b fsss.precomputed_remove_oldbyte fsss.prev_blk
        (after_fread b fsss).blk (SUM_WINDOW b) 0 l.char_sum l.fletch_sum
      rw [hh] at hpw
      have hge := last_hit_after_cons_ge fsss.bytes_into_seg j t hpw
      rw [hl']
      rcases Nat.lt_or_ge p (d.length + fsss.bytes_into_seg) with h1 | h1
      · have := hge j (List.mem_cons_self _ _)
        omega
      · have hx := (hmem (p - (d.length + fsss.bytes_into_seg)) (by omega)).2
          (by rw [show d.length + fsss.bytes_into_seg + (p - (d.length + fsss.bytes_into_seg)) = p
            by omega]; exact hp)
        rw [hh] at hx
        have := hge _ hx
        omega
    · rw [hc] at hc'
      cases hc'
  obtain ⟨ho', hbound⟩ := hfacts
  refine ⟨?_, ⟨o ++ fsss.input.take (SUM_WINDOW b), ?_, ?_, ?_⟩, hroll', ?_⟩
  · rw [state_after_block_eof, he]
  · simp only [state_after_block, ho', hblk, cwrite, Option.map]
    rw [List.take_take, Nat.min_self]
  · simp only [state_after_block, List.length_append, List.length_take, hlen]
    omega
  · rw [state_after_block_input, List.append_assoc, List.append_assoc, List.take_append_drop,
      ← List.append_assoc]
    exact hacc
  · intro p hp hlt
    exact hbound p hp hlt

/-- After a full block in which a segment ended, the invariant holds on entry
of the next call, and the segment ends on the end-of-segment pattern. -/
theorem head_inv_after_boundary (b : Nat) (h8 : 8 ≤ b) (h24 : b ≤ 24) (input d : List Byte)
    (fsss : fss_state) (l : locals) (h : head_inv b input d fsss l)
    (hfull : SUM_WINDOW b ≤ fsss.input.length) (seg : List Byte)
    (hc : (block_scan b fsss l).2.complete_seg_outbuf = some seg) :
    head_inv b input (d ++ seg) (state_after_boundary b fsss l)
        (entry_locals (state_after_boundary b fsss l)) ∧
      sound_end b input (d ++ seg).length := by
  have hmem := mem_hits_iff_is_hit b h8 h24 input d fsss l h hfull
  have hM := (SUM_WINDOW_lt_PRIME b h8 h24).2
  obtain ⟨he, ⟨o, ho, hlen, hacc⟩, hroll, hb⟩ := h
  have hroll' := roll_inv_next b h8 h24 input fsss l hroll hfull
    (state_after_boundary b fsss l) (by simp [state_after_boundary])
    (by simp [state_after_boundary]) (by simp [state_after_boundary, block_scan, after_fread])
    (state_after_boundary_input b fsss l)
  rcases block_scan_outcomes b fsss l o ho hfull with
    ⟨-, hc', -, -⟩ | ⟨j, t, -, -, hc', -, -⟩ | ⟨j, t, hh, hj, hd, hc', ho', hnew, hl'⟩
  · rw [hc] at hc'
    cases hc'
  · rw [hc] at hc'
    cases hc'
  · rw [hc] at hc'
    cases hc'
    have hpw := block_hits_pairwise b fsss.precomputed_remove_oldbyte fsss.prev_blk
      (after_fread b fsss).blk (SUM_WINDOW b) 0 l.char_sum l.fletch_sum
    rw [hh] at hpw
    have hge := last_hit_after_cons_ge fsss.bytes_into_seg j t hpw
    have hseglen : (d ++ (o ++ fsss.input.take (j + 1))).length =
        d.length + fsss.bytes_into_seg + j + 1 := by
      simp only [List.length_append, List.length_take, hlen]
      omega
    refine ⟨⟨?_, ⟨(fsss.input.take (SUM_WINDOW b)).drop (j + 1), ?_, ?_, ?_⟩, hroll', ?_⟩,
      ?_, ?_, ?_⟩
    · rw [state_after_boundary_eof, he]
    · simp only [state_after_boundary, ho']
    · simp only [state_after_boundary, hnew, List.length_drop, List.length_take]
      omega
    · rw [state_after_boundary_input]
      have e1 : fsss.input.take (j + 1) ++ (fsss.input.take (SUM_WINDOW b)).drop (j + 1) =
          fsss.input.take (SUM_WINDOW b) := by
        have : fsss.input.take (j + 1) = (fsss.input.take (SUM_WINDOW b)).take (j + 1) := by
          rw [List.take_take, Nat.min_eq_left (by omega)]
        rw [this, List.take_append_drop]
      rw [← hacc]
      simp only [List.append_assoc]
      rw [← List.append_assoc (fsss.input.take (j + 1)), e1, List.take_append_drop]
    · intro p hp hlt
      rw [hseglen] at hlt ⊢
      simp only [state_after_boundary, hnew, hl'] at hlt ⊢
      have := hge j (List.mem_cons_self _ _)
      omega
    · rw [hseglen]
      omega
    · rw [hseglen, Nat.add_sub_cancel]
      exact (hmem j hj).1 (by rw [hh]; exact List.mem_cons_self _ _)
    · intro q hq1 hq2 hq
      rw [hseglen, Nat.add_sub_cancel] at hq1 hq2
      rcases Nat.lt_or_ge q (d.length + fsss.bytes_into_seg) with h1 | h1
      · have := hb q hq h1
        omega
      · have hx := (hmem (q - (d.length + fsss.bytes_into_seg)) (by omega)).2
          (by rw [show d.length + fsss.bytes_into_seg + (q - (d.length + fsss.bytes_into_seg)) = q
            by omega]; exact hq)
        rw [hh] at hx
        rcases List.mem_cons.1 hx with h2 | h2
        · omega
        · have := (List.pairwise_cons.1 hpw).1 _ h2
          omega

/-- One run of the `for (;;)` loop from a head that satisfies the invariant
returns a segment; either it is the last one (the segmenter is then at end of
file, with no output buffer), or it ends on the end-of-segment pattern and the
invariant holds on entry of the next call. -/
theorem run_loop_sound (b : Nat) (h8 : 8 ≤ b) (h24 : b ≤ 24) (input : List Byte) (m : Nat) :
    ∀ (fsss : fss_state) (l : locals) (d : List Byte), fsss.input.length ≤ m →
      head_inv b input d fsss l →
      ∃ seg s', run_loop b fsss l = (result.segment seg, s') ∧
        ((s'.eof = true ∧ s'.outbuf = none) ∨
         (head_inv b input (d ++ seg) s' (entry_locals s') ∧
           sound_end b input (d ++ seg).length)) := by
  have hW := SUM_WINDOW_pos b
  induction m with
  | zero =>
    intro fsss l d hm h
    obtain ⟨o, ho, -, -⟩ := h.2.1
    exact ⟨_, _, read_loop_short b fsss.input.length fsss l o ho (by omega),
      Or.inl ⟨rfl, rfl⟩⟩
  | succ m ih =>
    intro fsss l d hm h
    obtain ⟨o, ho, -, -⟩ := h.2.1
    rcases Nat.lt_or_ge fsss.input.length (SUM_WINDOW b) with hs | hfull
    · exact ⟨_, _, read_loop_short b fsss.input.length fsss l o ho hs, Or.inl ⟨rfl, rfl⟩⟩
    · cases hc : (block_scan b fsss l).2.complete_seg_outbuf with
      | none =>
        obtain ⟨seg, s', hr, hres⟩ := ih (state_after_block b fsss l) (block_scan b fsss l).2 d
          (by rw [state_after_block_input, List.length_drop]; omega)
          (head_inv_after_block b h8 h24 input d fsss l h hfull hc)
        exact ⟨seg, s', by rw [run_loop_none b fsss l hfull hc, hr], hres⟩
      | some seg =>
        exact ⟨seg, _, run_loop_some b fsss l seg hfull hc,
          Or.inr (head_inv_after_boundary b h8 h24 input d fsss l h hfull seg hc)⟩

/-- The invariant `head_inv` holds on entry of every call made before end of
file, with the bytes delivered by the earlier calls. -/
theorem nth_head_inv (b : Nat) (h8 : 8 ≤ b) (h24 : b ≤ 24) (input : List Byte) (k : Nat)
    (he : (nth_state b input k).eof = false) :
    head_inv b input (delivered b input k) (nth_state b input k)
      (entry_locals (nth_state b input k)) := by
  induction k with
  | zero =>
    by_cases hlt : input.length < SUM_WINDOW b
    · rw [nth_state, new_eof_of_short b input hlt] at he
      cases he
    · have hfull : SUM_WINDOW b ≤ input.length := by omega
      have hW := SUM_WINDOW_pos b
      refine ⟨he, (accounted_nth b input 0).2 he, nth_state_roll_inv b h8 h24 input 0 he, ?_⟩
      intro p hp hlt'
      simp only [nth_state, delivered, List.length_nil, Nat.zero_add] at hlt' ⊢
      rw [new_eq_of_full b h8 h24 input hfull] at hlt' ⊢
      simp only at hlt' ⊢
      obtain ⟨h1, -, h3⟩ := hp
      have hpw : p + 1 - SUM_WINDOW b = 0 := by omega
      rw [window_at, hpw, List.drop_zero] at h3
      rw [if_pos h3]
      omega
  | succ k ih =>
    cases hk : (nth_state b input k).eof with
    | true =>
      exfalso
      rw [nth_state] at he
      cases ho : (nth_state b input k).outbuf with
      | none => rw [readsegment_eof_none b _ hk ho, hk] at he; cases he
      | some o =>
        rw [readsegment_eof_some b _ o hk ho] at he
        simp [hk] at he
    | false =>
      obtain ⟨seg, s', hr, hres⟩ := run_loop_sound b h8 h24 input _ _ _ _ (le_refl _) (ih hk)
      have hcall : fletcher_sum_split_readsegment b (nth_state b input k) =
          (result.segment seg, s') := by
        rw [readsegment_run_loop b _ hk, hr]
      have hs : nth_state b input (k + 1) = s' := by rw [nth_state, hcall]
      have hd : delivered b input (k + 1) = delivered b input k ++ seg := by
        rw [delivered, nth_result, hcall]
        rfl
      rw [hs] at he ⊢
      rw [hd]
      rcases hres with ⟨he', -⟩ | ⟨h, -⟩
      · rw [he'] at he
        cases he
      · exact h

/-- A segment that is followed by another segment ends on the end-of-segment
pattern. -/
theorem sound_end_of_not_last (b : Nat) (h8 : 8 ≤ b) (h24 : b ≤ 24) (input : List Byte)
    (k : Nat) (seg seg' : List Byte) (hk : nth_result b input k = result.segment seg)
    (hnext : nth_result b input (k + 1) = result.segment seg') :
    sound_end b input (delivered b input k ++ seg).length := by
  cases he : (nth_state b input k).eof with
  | true =>
    exfalso
    cases ho : (nth_state b input k).outbuf with
    | none =>
      rw [nth_result, readsegment_eof_none b _ he ho] at hk
      cases hk
    | some o =>
      have hs : nth_state b input (k + 1) = { nth_state b input k with outbuf := none } := by
        rw [nth_state, readsegment_eof_some b _ o he ho]
      have hsent := readsegment_eof_none b { nth_state b input k with outbuf := none } he rfl
      rw [nth_result, hs, hsent] at hnext
      cases hnext
  | false =>
    obtain ⟨seg0, s', hr, hres⟩ := run_loop_sound b h8 h24 input _ _ _ _ (le_refl _)
      (nth_head_inv b h8 h24 input k he)
    have hcall : fletcher_sum_split_readsegment b (nth_state b input k) =
        (result.segment seg0, s') := by
      rw [readsegment_run_loop b _ he, hr]
    have hs : nth_state b input (k + 1) = s' := by rw [nth_state, hcall]
    rw [nth_result, hcall] at hk
    cases hk
    rcases hres with ⟨he', ho'⟩ | ⟨-, h⟩
    · exfalso
      rw [nth_result, hs, readsegment_eof_none b _ he' ho'] at hnext
      cases hnext
    · exact h

/-! ## Constant streams -/

theorem fletcher_sum_const (n : Nat) (c : Byte) :
    2 * fletcher_sum (List.replicate n c) = c.val * (n * (n + 1)) := by
  induction n with
  | zero => simp [fletcher_sum]
  | succ n ih =>
    rw [List.replicate_succ, fletcher_sum, List.length_replicate, Nat.mul_add, ih]
    ring

/-- In the supported configurations below 25 bits, `PRIME` does not divide
`c * W * (W + 1)` for a byte value `c` other than `0`. -/
theorem const_window_mod (b : Nat) (h8 : 8 ≤ b) (h24 : b ≤ 24) :
    ∀ c : Fin 256, c.val ≠ 0 →
      (c.val * (SUM_WINDOW b * (SUM_WINDOW b + 1))) % PRIME b ≠ 0 := by
  interval_cases b <;> decide!

/-- A window of a constant stream is a hit exactly when the constant is `0`. -/
theorem fletcher_const_window (b : Nat) (h8 : 8 ≤ b) (h24 : b ≤ 24) (c : Byte) :
    fletcher_sum (List.replicate (SUM_WINDOW b) c) % PRIME b = 0 ↔ c = 0 := by
  constructor
  · intro h
    by_contra hc
    have hc' : c.val ≠ 0 := fun h0 => hc (Fin.ext h0)
    apply const_window_mod b h8 h24 c hc'
    rw [← fletcher_sum_const, Nat.mul_mod, h]
    simp
  · intro h
    rw [h, fletcher_sum_zeros]
    simp

/-- The hits of a constant stream: every position with a full window when the
constant is `0`, none otherwise. -/
theorem is_hit_const (b : Nat) (h8 : 8 ≤ b) (h24 : b ≤ 24) (n : Nat) (c : Byte) (p : Nat) :
    is_hit b (List.replicate n c) p ↔ SUM_WINDOW b ≤ p + 1 ∧ p < n ∧ c = 0 := by
  unfold is_hit
  rw [List.length_replicate]
  constructor
  · rintro ⟨h1, h2, h3⟩
    refine ⟨h1, h2, ?_⟩
    rw [window_at, List.drop_replicate, List.take_replicate,
      Nat.min_eq_left (by omega)] at h3
    exact (fletcher_const_window b h8 h24 c).1 h3
  · rintro ⟨h1, h2, h3⟩
    refine ⟨h1, h2, ?_⟩
    rw [window_at, List.drop_replicate, List.take_replicate, Nat.min_eq_left (by omega)]
    exact (fletcher_const_window b h8 h24 c).2 h3

/-- When the first call returns a segment and the second call the sentinel,
the segmentation of the stream is that one segment. -/
theorem split_of_two_calls (b : Nat) (input seg : List Byte)
    (h0 : nth_result b input 0 = result.segment seg)
    (h1 : nth_result b input 1 = result.sentinel) : split b input = some [seg] := by
  have e0 : fletcher_sum_split_readsegment b (fletcher_sum_split_new b input) =
      (result.segment seg, nth_state b input 1) := Prod.ext h0 rfl
  have e1 : fletcher_sum_split_readsegment b (nth_state b input 1) =
      (result.sentinel, nth_state b input 2) := Prod.ext h1 rfl
  unfold split
  rw [read_segments, e0]
  simp only
  rw [read_segments, e1]
  rfl

/-- On a constant stream the first call returns the whole stream and the
second call returns the sentinel. -/
theorem const_stream_calls (b : Nat) (h8 : 8 ≤ b) (h24 : b ≤ 24) (c : Byte) (n : Nat) :
    nth_result b (List.replicate n c) 0 = result.segment (List.replicate n c) ∧
      nth_result b (List.replicate n c) 1 = result.sentinel := by
  have hW := SUM_WINDOW_pos b
  have hM := (SUM_WINDOW_lt_PRIME b h8 h24).2
  rcases Nat.lt_or_ge (SUM_WINDOW b) n with hl | hs
  · have he : (nth_state b (List.replicate n c) 0).eof = false :=
      new_eof_of_full b _ (by rw [List.length_replicate]; omega)
    obtain ⟨seg, s', hr, hres⟩ := run_loop_sound b h8 h24 (List.replicate n c) _ _ _ _
      (le_refl _) (nth_head_inv b h8 h24 _ 0 he)
    have hcall : fletcher_sum_split_readsegment b (nth_state b (List.replicate n c) 0) =
        (result.segment seg, s') := by
      rw [readsegment_run_loop b _ he, hr]
    have h0 : nth_result b (List.replicate n c) 0 = result.segment seg := by
      rw [nth_result, hcall]
    have hs : nth_state b (List.replicate n c) 1 = s' := by rw [nth_state, hcall]
    rcases hres with ⟨he', ho'⟩ | ⟨-, hM', hhit, hnone⟩
    · have h1 : nth_result b (List.replicate n c) 1 = result.sentinel := by
        rw [nth_result, hs, readsegment_eof_none b _ he' ho']
      have hd := delivered_of_sentinel b _ 1 h1
      rw [delivered, h0] at hd
      simp only [delivered, result.bytes, List.nil_append] at hd
      rw [hd] at h0
      exact ⟨h0, h1⟩
    · exfalso
      simp only [delivered, List.nil_append] at hM' hhit hnone
      obtain ⟨-, h2, h3⟩ := (is_hit_const b h8 h24 n c _).1 hhit
      exact hnone (seg.length - 1 - 1) (by omega) (by omega)
        ((is_hit_const b h8 h24 n c _).2 ⟨by omega, by omega, h3⟩)
  · exact first_calls_short b _ (by rw [List.length_replicate]; exact hs)

/-- The bound `MINSEGSIZE_BITS ≤ 24` of the rolling-sum theorems cannot be
dropped: with `MINSEGSIZE_BITS = 25` the sum `fletch_sum + char_sum + table[x]`
can exceed `2 ^ 32` and is truncated when it is stored in the 32-bit
`fletchsum_mp_t`.  For the window of `SUM_WINDOW` bytes `0xFF` followed by
another byte `0xFF` the window does not change, its Fletcher sum modulo
`PRIME` is `4231124`, and the rolling update gives `4235604`. -/
theorem rolling_update_wraps_at_25 :
    fletcher_sum (List.replicate (SUM_WINDOW 25) 255) % PRIME 25 = 4231124 ∧
      roll_char_sum 25 (255 * SUM_WINDOW 25) 255 255 = 255 * SUM_WINDOW 25 ∧
      roll_fletch_sum 25 (remove_oldbyte_table 25) 4231124 (255 * SUM_WINDOW 25) 255 =
        4235604 := by
  refine ⟨?_, by decide!, by decide!⟩
  have h := fletcher_sum_const (SUM_WINDOW 25) 255
  have e : (255 : Byte).val * (SUM_WINDOW 25 * (SUM_WINDOW 25 + 1)) = 2 * 35888061669703680 := by
    decide!
  rw [e] at h
  have h' : fletcher_sum (List.replicate (SUM_WINDOW 25) 255) = 35888061669703680 := by omega
  rw [h']
  decide!

/-! # The claims -/

/-- C1 (conservation).  For every stream, `new` followed by `readsegment`
calls reaches the end-of-stream sentinel, and the segments returned before it,
concatenated in order, are exactly the stream. -/
theorem conservation (b : Nat) (input : List Byte) :
    ∃ segs, split b input = some segs ∧ segs.flatten = input := by
  obtain ⟨segs, last, h1, h2, -⟩ := split_spec b input
  exact ⟨segs ++ [last], h1, h2⟩

/-- C2 (minimum segment length).  Every segment other than the last one
returned is longer than `MINSEGSIZE`. -/
theorem min_segment_length (b : Nat) (input : List Byte) (segs : List (List Byte))
    (h : split b input = some segs) (seg : List Byte) (hseg : seg ∈ segs.dropLast) :
    MINSEGSIZE b < seg.length := by
  obtain ⟨segs', last, h1, -, h3, -⟩ := split_spec b input
  rw [h1] at h
  cases h
  rw [List.dropLast_concat] at hseg
  exact h3 seg hseg

/-- Witness for C2: with `MINSEGSIZE_BITS = 8` the sample stream splits into a
first segment of 512 bytes and a last one of 200 bytes. -/
theorem min_segment_length_witness :
    split 8 sample_two_segments = some [sample_first_segment, sample_last_segment] ∧
      sample_first_segment ∈ List.dropLast [sample_first_segment, sample_last_segment] ∧
      MINSEGSIZE 8 < sample_first_segment.length :=
  ⟨by decide!, List.mem_cons_self _ _,
   min_segment_length 8 sample_two_segments [sample_first_segment, sample_last_segment]
     (by decide!) sample_first_segment (List.mem_cons_self _ _)⟩

/-- C3, as stated, fails: with `MINSEGSIZE_BITS = 8`, on a stream that ends
with the last byte of a block on which a segment ends, the second call returns
a value that is not the sentinel and is the empty byte sequence. -/
theorem nonempty_segments_counterexample :
    nth_result 8 sample_boundary_at_end 0 = result.segment sample_boundary_at_end ∧
      nth_result 8 sample_boundary_at_end 1 = result.segment [] := by
  decide!

/-- C3, amended.  Every segment other than the last one returned is not empty;
the last one is the remainder of the stream, and it is not empty whenever the
length of the stream is not a multiple of `SUM_WINDOW`. -/
theorem nonempty_segments_amended (b : Nat) (input : List Byte) :
    ∃ segs last, split b input = some (segs ++ [last]) ∧
      (∀ seg ∈ segs, seg ≠ []) ∧
      (input.length % SUM_WINDOW b ≠ 0 → last ≠ []) := by
  obtain ⟨segs, last, h1, -, h3, h4, -⟩ := split_spec b input
  refine ⟨segs, last, h1, ?_, h4⟩
  intro seg hseg hnil
  have := h3 seg hseg
  rw [hnil] at this
  simp at this

/-- C4 (prefix stability).  Let `y` and `z` have at least `8 * MINSEGSIZE`
bytes.  If call number `k` of the run on `x ++ y` returns a segment whose last
byte lies within `x` (the bytes delivered by the calls `0, ..., k` are at most
`x.length`), then the calls `0, ..., k` of the run on `x ++ z` return the same
values: that segment occurs at the same index with the same bytes, and so do
all the segments before it. -/
theorem leading_segments_stable (b : Nat) (x y z : List Byte)
    (hy : 8 * MINSEGSIZE b ≤ y.length) (hz : 8 * MINSEGSIZE b ≤ z.length)
    (k : Nat) (seg : List Byte) (hres : nth_result b (x ++ y) k = result.segment seg)
    (hend : (delivered b (x ++ y) (k + 1)).length ≤ x.length) :
    ∀ j, j ≤ k → nth_result b (x ++ z) j = nth_result b (x ++ y) j := by
  have hM := SUM_WINDOW_le_MINSEGSIZE b
  intro j hj
  exact same_leading_segments b x y z (by omega) (by omega) k seg hres hend j hj

/-- Witness for C4: with `MINSEGSIZE_BITS = 8`, the first segment of the
sample stream (512 bytes) followed by 2048 bytes `0x01` or by 2048 bytes
`0x00`. -/
theorem leading_segments_stable_witness :
    8 * MINSEGSIZE 8 ≤ sample_tail_ones.length ∧
      8 * MINSEGSIZE 8 ≤ sample_tail_zeros.length ∧
      nth_result 8 (sample_first_segment ++ sample_tail_ones) 0 =
        result.segment sample_first_segment ∧
      (delivered 8 (sample_first_segment ++ sample_tail_ones) (0 + 1)).length ≤
        sample_first_segment.length ∧
      (∀ j, j ≤ 0 → nth_result 8 (sample_first_segment ++ sample_tail_zeros) j =
        nth_result 8 (sample_first_segment ++ sample_tail_ones) j) :=
  ⟨by decide!, by decide!, by decide!, by decide!,
    leading_segments_stable 8 sample_first_segment sample_tail_ones sample_tail_zeros
      (by decide!) (by decide!) 0 sample_first_segment (by decide!) (by decide!)⟩

/-- C5 (re-synchronisation after an insertion) does not hold for the code as
configured (`MINSEGSIZE_BITS = 20`): there is no bound `K` such that, for all
`a`, `c`, `t`, the runs on `a ++ t` and on `a ++ c ++ t` have the same segment
boundaries more than `K` bytes into `t`.  After a segment has ended,
`last_hit_at` still holds a position counted from the start of that segment,
so whether the next zero value ends a segment depends on how long the segment
before it was. -/
theorem resync_counterexample : ¬ ∃ K, resync_claim MINSEGSIZE_BITS K := by
  rintro ⟨K, h⟩
  exact resync_claim_fails MINSEGSIZE_BITS (by decide) (by decide) K h

/-- C6 (rolling-sum equivalence), for the supported configurations
`8 ≤ MINSEGSIZE_BITS ≤ 24` (the source is configured with 20).

* The sums computed from scratch: `sums_from_scratch` on a buffer of
  `SUM_WINDOW` bytes stores its byte sum `byte_sum` and its Fletcher sum
  `fletcher_sum` modulo `PRIME`.
* After `new` and after every call of `readsegment` that leaves `eof` false
  (the states `nth_state b input k` with `eof = false`), `prev_blk` holds the
  `SUM_WINDOW` bytes of the stream just before the unread part, `char_sum` is
  their byte sum and `fletch_sum` is their Fletcher sum modulo `PRIME`.
* At every head of the `for (;;)` loop in the run, if a full block follows,
  then after the byte of index `i` of that block has been scanned the running
  `char_sum` and `fletch_sum` are the byte sum and the Fletcher sum modulo
  `PRIME` of the `SUM_WINDOW` most recent bytes of the stream. -/
theorem rolling_sum_equivalence (b : Nat) (h8 : 8 ≤ b) (h24 : b ≤ 24) (input : List Byte) :
    (∀ (fsss : fss_state) (buf : List Byte), buf.length = SUM_WINDOW b →
      (sums_from_scratch b fsss buf).char_sum = byte_sum buf ∧
      (sums_from_scratch b fsss buf).fletch_sum = fletcher_sum buf % PRIME b) ∧
    (∀ k, (nth_state b input k).eof = false →
      (nth_state b input k).prev_blk.length = SUM_WINDOW b ∧
      (∃ pre, input = pre ++ (nth_state b input k).prev_blk ++ (nth_state b input k).input) ∧
      (nth_state b input k).char_sum = byte_sum (nth_state b input k).prev_blk ∧
      (nth_state b input k).fletch_sum =
        fletcher_sum (nth_state b input k).prev_blk % PRIME b) ∧
    (∀ fsss l, at_loop_head b input fsss l → SUM_WINDOW b ≤ fsss.input.length →
      ∀ i, i < SUM_WINDOW b →
      ∃ f' l', scan_loop b (i + 1) 0 (after_fread b fsss)
          { l with complete_seg_outbuf := none } = Except.ok (f', l') ∧
        (window fsss.prev_blk fsss.input (i + 1)).length = SUM_WINDOW b ∧
        (∃ pre, input =
          pre ++ window fsss.prev_blk fsss.input (i + 1) ++ fsss.input.drop (i + 1)) ∧
        l'.char_sum = byte_sum (window fsss.prev_blk fsss.input (i + 1)) ∧
        l'.fletch_sum = fletcher_sum (window fsss.prev_blk fsss.input (i + 1)) % PRIME b) := by
  refine ⟨fun fsss buf hbuf => sums_from_scratch_eq b h8 h24 fsss buf hbuf, ?_, ?_⟩
  · intro k he
    obtain ⟨h1, -, -, h4, h5, h6⟩ := nth_state_roll_inv b h8 h24 input k he
    exact ⟨h1, h4, h5, h6⟩
  · intro fsss l hl hfull i hi
    have hinv := at_loop_head_roll_inv b h8 h24 input fsss l hl
    have hsums := roll_inv_block_sums b h8 h24 input fsss _ _ hinv hfull (i + 1) (by omega)
    obtain ⟨hp, -, -, ⟨pre, hpre⟩, -, -⟩ := hinv
    have hM := SUM_WINDOW_le_MINSEGSIZE b
    obtain ⟨f', l', hscan, hcs, hfs⟩ := scan_head_sums b (i + 1) (after_fread b fsss) l
      (by omega)
    refine ⟨f', l', hscan, ?_, ⟨pre ++ fsss.prev_blk.take (i + 1), ?_⟩, ?_, ?_⟩
    · rw [window_length _ _ _ (by omega) (by omega), hp]
    · rw [hpre]
      simp only [window, List.append_assoc]
      rw [← List.append_assoc (List.take (i + 1) fsss.prev_blk), List.take_append_drop,
        List.take_append_drop]
    · rw [hcs]
      exact congrArg Prod.fst hsums
    · rw [hfs]
      exact congrArg Prod.snd hsums

/-- Witness for C6: with `MINSEGSIZE_BITS = 8`, after the first call on the
sample stream the segmenter is not at end of file, and its sums are those of
the 128 bytes before the unread part. -/
theorem rolling_sum_equivalence_witness :
    8 ≤ 8 ∧ 8 ≤ 24 ∧ (nth_state 8 sample_two_segments 1).eof = false ∧
      ((nth_state 8 sample_two_segments 1).prev_blk.length = SUM_WINDOW 8 ∧
        (∃ pre, sample_two_segments = pre ++ (nth_state 8 sample_two_segments 1).prev_blk ++
          (nth_state 8 sample_two_segments 1).input) ∧
        (nth_state 8 sample_two_segments 1).char_sum =
          byte_sum (nth_state 8 sample_two_segments 1).prev_blk ∧
        (nth_state 8 sample_two_segments 1).fletch_sum =
          fletcher_sum (nth_state 8 sample_two_segments 1).prev_blk % PRIME 8) :=
  ⟨by decide, by decide, by decide!,
    (rolling_sum_equivalence 8 (by decide) (by decide) sample_two_segments).2.1 1
      (by decide!)⟩

/-- C7 (single boundary per block).  The scan of a block, which is entered
with `complete_seg_outbuf == NULL`, never reaches the "multiple segment end
patterns in a block" branch, whatever the state; hence no call of
`readsegment`, from any state and in particular in any run, returns the
assertion error. -/
theorem single_boundary_per_block (b : Nat) :
    (∀ (fsss : fss_state) (l : locals), ∃ r,
        scan_loop b (SUM_WINDOW b) 0 fsss { l with complete_seg_outbuf := none } =
          Except.ok r) ∧
      (∀ fsss : fss_state,
        (fletcher_sum_split_readsegment b fsss).1 ≠ result.assertion_error) ∧
      (∀ (input : List Byte) (k : Nat), nth_result b input k ≠ result.assertion_error) := by
  refine ⟨?_, readsegment_no_assertion b, fun input k => readsegment_no_assertion b _⟩
  intro fsss l
  exact ⟨_, scan_loop_eq b (SUM_WINDOW b) 0 fsss _
    (by simpa using SUM_WINDOW_le_MINSEGSIZE b) rfl⟩

/-- C8 (end of stream is sticky).  If call number `k` returns the sentinel,
then every later call returns the sentinel and leaves the state as it was, and
the segments returned before call `k` already contain the whole stream. -/
theorem eof_sticky (b : Nat) (input : List Byte) (k : Nat)
    (h : nth_result b input k = result.sentinel) :
    (∀ m, k ≤ m → nth_result b input m = result.sentinel ∧
        nth_state b input (m + 1) = nth_state b input k) ∧
      delivered b input k = input := by
  refine ⟨fun m hm => sentinel_persists b input k h m hm, ?_⟩
  rcases accounted_step b input _ _ (accounted_nth b input k) with
    ⟨-, -, -, h4⟩ | ⟨seg, h1, -⟩
  · exact h4
  · unfold nth_result at h
    rw [h] at h1
    cases h1

/-- Witness for C8: on the one-byte stream `[0x41]` (with `MINSEGSIZE_BITS = 8`)
call number 1 returns the sentinel. -/
theorem eof_sticky_witness :
    nth_result 8 [0x41] 1 = result.sentinel ∧
      ((∀ m, 1 ≤ m → nth_result 8 [0x41] m = result.sentinel ∧
          nth_state 8 [0x41] (m + 1) = nth_state 8 [0x41] 1) ∧
        delivered 8 [0x41] 1 = [0x41]) :=
  ⟨by decide!, eof_sticky 8 [0x41] 1 (by decide!)⟩

/-- C9, as stated, fails: on the empty stream the first call does not return
the sentinel, it returns an (empty) segment. -/
theorem empty_input_counterexample :
    nth_result MINSEGSIZE_BITS [] 0 = result.segment [] ∧
      nth_result MINSEGSIZE_BITS [] 0 ≠ result.sentinel := by
  have h := (first_calls_short MINSEGSIZE_BITS [] (Nat.zero_le _)).1
  refine ⟨h, ?_⟩
  rw [h]
  simp

/-- C9, amended.  On the empty stream the first call returns the empty byte
sequence as a segment and the second call returns the sentinel: the caller
receives exactly one value before the sentinel, and it is empty. -/
theorem empty_input_amended (b : Nat) :
    nth_result b [] 0 = result.segment [] ∧ nth_result b [] 1 = result.sentinel ∧
      split b [] = some [[]] := by
  obtain ⟨h0, h1⟩ := first_calls_short b [] (Nat.zero_le _)
  refine ⟨h0, h1, ?_⟩
  obtain ⟨segs, last, hs, -, -, -, h5⟩ := split_spec b []
  obtain ⟨rfl, rfl⟩ := h5 (SUM_WINDOW_pos b)
  exact hs

/-- C10 (short streams are returned whole).  On a stream of `n` bytes with
`1 ≤ n ≤ SUM_WINDOW`, the first call returns the whole stream as one (non-empty)
segment and the second call returns the sentinel. -/
theorem short_input_whole (b : Nat) (input : List Byte) (h1 : 1 ≤ input.length)
    (h2 : input.length ≤ SUM_WINDOW b) :
    input ≠ [] ∧ nth_result b input 0 = result.segment input ∧
      nth_result b input 1 = result.sentinel :=
  ⟨fun hnil => by simp [hnil] at h1, first_calls_short b input h2⟩

/-- Witness for C10: the one-byte stream `[0x41]` with `MINSEGSIZE_BITS = 8`. -/
theorem short_input_whole_witness :
    1 ≤ ([0x41] : List Byte).length ∧ ([0x41] : List Byte).length ≤ SUM_WINDOW 8 ∧
      (([0x41] : List Byte) ≠ [] ∧ nth_result 8 [0x41] 0 = result.segment [0x41] ∧
        nth_result 8 [0x41] 1 = result.sentinel) :=
  ⟨by decide, by decide, short_input_whole 8 [0x41] (by decide) (by decide)⟩

/-- C11 fails in the code: in the configured build, on the stream
`stale_hit_stream` (nine blocks `E Z E E Z E E Z E`), the first byte of the
third `Z` block (position `7 * SUM_WINDOW`) is a hit in a block read in full,
the most recent prior hit is the last byte of the second `Z` block (position
`5 * SUM_WINDOW - 1`), the distance between them exceeds `MINSEGSIZE`, and yet
no segment ends there: the test compares `bytes_into_seg + i`, counted from
the start of the new segment, with a `last_hit_at` that still counts from the
start of the segment that ended in the second `Z` block.  Hence the
minimum-distance rule measured from the true previous hit does not hold. -/
theorem min_distance_counterexample :
    is_hit MINSEGSIZE_BITS (stale_hit_stream MINSEGSIZE_BITS)
        (7 * SUM_WINDOW MINSEGSIZE_BITS) ∧
      is_hit MINSEGSIZE_BITS (stale_hit_stream MINSEGSIZE_BITS)
        (5 * SUM_WINDOW MINSEGSIZE_BITS - 1) ∧
      (∀ q, 5 * SUM_WINDOW MINSEGSIZE_BITS - 1 < q → q < 7 * SUM_WINDOW MINSEGSIZE_BITS →
        ¬ is_hit MINSEGSIZE_BITS (stale_hit_stream MINSEGSIZE_BITS) q) ∧
      MINSEGSIZE MINSEGSIZE_BITS <
        7 * SUM_WINDOW MINSEGSIZE_BITS - (5 * SUM_WINDOW MINSEGSIZE_BITS - 1) ∧
      ¬ ends_segment MINSEGSIZE_BITS (stale_hit_stream MINSEGSIZE_BITS)
        (7 * SUM_WINDOW MINSEGSIZE_BITS) ∧
      ¬ min_distance_claim MINSEGSIZE_BITS := by
  have h8 : 8 ≤ MINSEGSIZE_BITS := by decide
  have h24 : MINSEGSIZE_BITS ≤ 24 := by decide
  have hW := SUM_WINDOW_pos MINSEGSIZE_BITS
  have hM := (SUM_WINDOW_lt_PRIME MINSEGSIZE_BITS h8 h24).2
  obtain ⟨hp, hl, hq⟩ := stale_hits MINSEGSIZE_BITS h8 h24
  have hno := stale_hit_no_boundary MINSEGSIZE_BITS h8 h24
  have hdist : MINSEGSIZE MINSEGSIZE_BITS <
      7 * SUM_WINDOW MINSEGSIZE_BITS - (5 * SUM_WINDOW MINSEGSIZE_BITS - 1) := by omega
  refine ⟨hp, hl, hq, hdist, hno, ?_⟩
  intro hclaim
  have hfull : 7 * SUM_WINDOW MINSEGSIZE_BITS < SUM_WINDOW MINSEGSIZE_BITS *
      ((stale_hit_stream MINSEGSIZE_BITS).length / SUM_WINDOW MINSEGSIZE_BITS) := by
    rw [stale_hit_stream_length, Nat.mul_div_cancel _ hW]
    omega
  exact hno ((hclaim (stale_hit_stream MINSEGSIZE_BITS) (7 * SUM_WINDOW MINSEGSIZE_BITS)
    (5 * SUM_WINDOW MINSEGSIZE_BITS - 1) (by omega) hfull hp hl (by omega) hq).2 hdist)

/-- C12 (the end-of-segment pattern is sound).  If call number `k` returns a
segment `seg` that is not the last one (call number `k + 1` returns a segment
too), then `seg` ends on a hit byte, a position of the stream whose window of
`SUM_WINDOW` bytes has Fletcher sum `0` modulo `PRIME`, and none of the
`MINSEGSIZE` positions of the stream just before that byte is a hit.  Here
`e = (delivered b input k ++ seg).length` is the number of bytes of the stream
up to the end of `seg`, so that `seg` ends with the byte at position `e - 1`.
Proved for `8 ≤ MINSEGSIZE_BITS ≤ 24`. -/
theorem segment_end_pattern (b : Nat) (h8 : 8 ≤ b) (h24 : b ≤ 24) (input : List Byte)
    (k : Nat) (seg seg' : List Byte) (hk : nth_result b input k = result.segment seg)
    (hnext : nth_result b input (k + 1) = result.segment seg') :
    MINSEGSIZE b < (delivered b input k ++ seg).length ∧
      is_hit b input ((delivered b input k ++ seg).length - 1) ∧
      ∀ q, (delivered b input k ++ seg).length - 1 - MINSEGSIZE b ≤ q →
        q < (delivered b input k ++ seg).length - 1 → ¬ is_hit b input q :=
  sound_end_of_not_last b h8 h24 input k seg seg' hk hnext

/-- Witness for C12: with `MINSEGSIZE_BITS = 8`, the first segment of the
sample stream (512 bytes) is followed by a second one, and its last byte, at
position 511, is a hit. -/
theorem segment_end_pattern_witness :
    nth_result 8 sample_two_segments 0 = result.segment sample_first_segment ∧
      nth_result 8 sample_two_segments 1 = result.segment sample_last_segment ∧
      is_hit 8 sample_two_segments
        ((delivered 8 sample_two_segments 0 ++ sample_first_segment).length - 1) :=
  ⟨by decide!, by decide!,
    (segment_end_pattern 8 (by decide) (by decide) sample_two_segments 0
      sample_first_segment sample_last_segment (by decide!) (by decide!)).2.1⟩

/-- C13 (one-step rolling update).  Let `x :: w` be a window of `SUM_WINDOW`
bytes, with `char_sum` its byte sum and `fletch_sum` its Fletcher sum modulo
`PRIME`, and let `y` be the next byte.  The two statements of the loop body,
evaluated in the unsigned types of the code, give the byte sum and the Fletcher
sum modulo `PRIME` of the window `w ++ [y]`; the new `fletch_sum` agrees modulo
`PRIME` with `fletch_sum + char_sum' - SUM_WINDOW * x`; and an iteration of
the scan at an index where `prev_blk` holds `x` and `blk` holds `y` leaves
these two values in the locals.  Proved for `8 ≤ MINSEGSIZE_BITS ≤ 24`. -/
theorem rolling_update_step (b : Nat) (h8 : 8 ≤ b) (h24 : b ≤ 24) (x y : Byte) (w : List Byte)
    (hw : w.length + 1 = SUM_WINDOW b) :
    roll_char_sum b (byte_sum (x :: w)) x.val y.val = byte_sum (w ++ [y]) ∧
    roll_fletch_sum b (remove_oldbyte_table b) (fletcher_sum (x :: w) % PRIME b)
        (roll_char_sum b (byte_sum (x :: w)) x.val y.val) x.val =
      fletcher_sum (w ++ [y]) % PRIME b ∧
    (roll_fletch_sum b (remove_oldbyte_table b) (fletcher_sum (x :: w) % PRIME b)
        (roll_char_sum b (byte_sum (x :: w)) x.val y.val) x.val + SUM_WINDOW b * x.val) %
        PRIME b =
      (fletcher_sum (x :: w) % PRIME b + roll_char_sum b (byte_sum (x :: w)) x.val y.val) %
        PRIME b ∧
    (∀ (i : Nat) (fsss : fss_state) (l : locals),
      fsss.prev_blk.getD i 0 = x → fsss.blk.getD i 0 = y →
      fsss.precomputed_remove_oldbyte = remove_oldbyte_table b →
      l.char_sum = byte_sum (x :: w) → l.fletch_sum = fletcher_sum (x :: w) % PRIME b →
      l.complete_seg_outbuf = none →
      ∃ f' l', scan_body b i fsss l = Except.ok (f', l') ∧
        l'.char_sum = byte_sum (w ++ [y]) ∧
        l'.fletch_sum = fletcher_sum (w ++ [y]) % PRIME b) := by
  have hcs := roll_char_sum_eq b h8 h24 x y w hw
  have hfs := roll_fletch_sum_eq b h8 h24 x y w hw
  refine ⟨hcs, by rw [hcs]; exact hfs, ?_, ?_⟩
  · rw [hcs, hfs, Nat.mod_add_mod, Nat.mod_add_mod, fletcher_sum_concat, fletcher_sum, hw]
    congr 1
    ring
  · intro i fsss l hx hy ht hc hf hn
    obtain ⟨f', l', h1, h2, h3⟩ := scan_body_sums b i fsss l hn
    refine ⟨f', l', h1, ?_, ?_⟩
    · rw [h2, hx, hy, hc]
      exact hcs
    · rw [h3, hx, hy, hc, hf, ht, hcs]
      exact hfs

/-- Witness for C13: with `MINSEGSIZE_BITS = 8`, the window `02 01 … 01` and
the new byte `0x07`. -/
theorem rolling_update_step_witness :
    (List.replicate 127 (1 : Byte)).length + 1 = SUM_WINDOW 8 ∧
      roll_char_sum 8 (byte_sum (2 :: List.replicate 127 1)) 2 7 =
        byte_sum (List.replicate 127 1 ++ [7]) :=
  ⟨by decide!, (rolling_update_step 8 (by decide) (by decide) 2 7 (List.replicate 127 1)
    (by decide!)).1⟩

/-- C14 (cold-start sums).  In every supported configuration
(`8 ≤ MINSEGSIZE_BITS ≤ 25`), on a buffer `b₁ … b_W` of `SUM_WINDOW` bytes
`sums_from_scratch` sets `char_sum` to the sum of the bytes and `fletch_sum`
to the weighted sum `Σⱼ (W - j + 1) · bⱼ` modulo `PRIME`, and changes nothing
else; the weighted sum is the sum of the running sums of the buffer. -/
theorem cold_start_sums (b : Nat) (h8 : 8 ≤ b) (h25 : b ≤ 25) (fsss : fss_state)
    (buf : List Byte) (hbuf : buf.length = SUM_WINDOW b) :
    sums_from_scratch b fsss buf =
        { fsss with char_sum := byte_sum buf, fletch_sum := fletcher_sum buf % PRIME b } ∧
      (sums_from_scratch b fsss buf).char_sum = byte_sum buf ∧
      (sums_from_scratch b fsss buf).fletch_sum = fletcher_sum buf % PRIME b ∧
      running_sums_total buf = fletcher_sum buf := by
  have h := sums_from_scratch_exact b h8 h25 fsss buf hbuf
  refine ⟨h, ?_, ?_, running_sums_total_eq buf⟩
  · rw [h]
  · rw [h]

/-- Witness for C14: with `MINSEGSIZE_BITS = 8`, the buffer of 128 bytes
`0xFF` has byte sum `32640` and Fletcher sum `2105280`, which is `193` modulo
`257`. -/
theorem cold_start_sums_witness :
    (List.replicate 128 (255 : Byte)).length = SUM_WINDOW 8 ∧
      (sums_from_scratch 8 (fletcher_sum_split_new 8 []) (List.replicate 128 255)).char_sum =
        byte_sum (List.replicate 128 255) :=
  ⟨by decide!, (cold_start_sums 8 (by decide) (by decide) (fletcher_sum_split_new 8 [])
    (List.replicate 128 255) (by decide!)).2.1⟩

/-- C15, as stated, fails: in the configured build the entry of the table for
the byte `0` is `PRIME` itself; it differs from `(P - (W·0) mod P) mod P = 0`
and does not lie in `[0, P)`. -/
theorem remove_table_counterexample :
    (fletcher_sum_split_new MINSEGSIZE_BITS []).precomputed_remove_oldbyte.getD 0 0 =
        PRIME MINSEGSIZE_BITS ∧
      (fletcher_sum_split_new MINSEGSIZE_BITS []).precomputed_remove_oldbyte.getD 0 0 ≠
        (PRIME MINSEGSIZE_BITS - (SUM_WINDOW MINSEGSIZE_BITS * 0) % PRIME MINSEGSIZE_BITS) %
          PRIME MINSEGSIZE_BITS ∧
      ¬ (fletcher_sum_split_new MINSEGSIZE_BITS []).precomputed_remove_oldbyte.getD 0 0 <
        PRIME MINSEGSIZE_BITS := by
  have h : (fletcher_sum_split_new MINSEGSIZE_BITS []).precomputed_remove_oldbyte.getD 0 0 =
      PRIME MINSEGSIZE_BITS := by
    rw [new_table, table_entry MINSEGSIZE_BITS (by decide) (by decide) 0 (by decide)]
    decide
  rw [h]
  decide

/-- C15, amended.  In every supported configuration
(`8 ≤ MINSEGSIZE_BITS ≤ 25`) the table built by `new` has 256 entries, and the
entry for the byte `x` is `P - (W·x) mod P`, with no final reduction: it is
congruent to `-W·x` modulo `P` and lies in `[1, P]`; for `x ≠ 0` it is less
than `P` and equals `(P - (W·x) mod P) mod P`, and for `x = 0` it is `P`. -/
theorem remove_table_amended (b : Nat) (h8 : 8 ≤ b) (h25 : b ≤ 25) (input : List Byte) :
    (fletcher_sum_split_new b input).precomputed_remove_oldbyte.length = 256 ∧
    ∀ x : Nat, x < 256 →
      (fletcher_sum_split_new b input).precomputed_remove_oldbyte.getD x 0 =
        PRIME b - (SUM_WINDOW b * x) % PRIME b ∧
      ((fletcher_sum_split_new b input).precomputed_remove_oldbyte.getD x 0 +
        SUM_WINDOW b * x) % PRIME b = 0 ∧
      1 ≤ (fletcher_sum_split_new b input).precomputed_remove_oldbyte.getD x 0 ∧
      (fletcher_sum_split_new b input).precomputed_remove_oldbyte.getD x 0 ≤ PRIME b ∧
      (x ≠ 0 →
        (fletcher_sum_split_new b input).precomputed_remove_oldbyte.getD x 0 < PRIME b ∧
        (fletcher_sum_split_new b input).precomputed_remove_oldbyte.getD x 0 =
          (PRIME b - (SUM_WINDOW b * x) % PRIME b) % PRIME b) ∧
      (x = 0 →
        (fletcher_sum_split_new b input).precomputed_remove_oldbyte.getD x 0 = PRIME b) := by
  obtain ⟨-, -, hP, -, -⟩ := widths_upto_25 b h8 h25
  rw [new_table]
  refine ⟨by simp [remove_oldbyte_table], ?_⟩
  intro x hx
  rw [table_entry b h8 h25 x hx]
  have hlt : (SUM_WINDOW b * x) % PRIME b < PRIME b := Nat.mod_lt _ hP
  have hdiv : PRIME b * (SUM_WINDOW b * x / PRIME b) + (SUM_WINDOW b * x) % PRIME b =
      SUM_WINDOW b * x := Nat.div_add_mod _ _
  refine ⟨rfl, ?_, by omega, by omega, ?_, ?_⟩
  · have e : PRIME b - (SUM_WINDOW b * x) % PRIME b + SUM_WINDOW b * x =
        PRIME b * (SUM_WINDOW b * x / PRIME b + 1) := by
      rw [Nat.mul_add, Nat.mul_one]; omega
    rw [e, Nat.mul_mod_right]
  · intro hx0
    have hne := window_multiple_mod b h8 h25 ⟨x, hx⟩ hx0
    simp only at hne
    have hlt2 : PRIME b - (SUM_WINDOW b * x) % PRIME b < PRIME b := by omega
    exact ⟨hlt2, (Nat.mod_eq_of_lt hlt2).symm⟩
  · intro hx0
    rw [hx0]
    simp

/-- Witness for C15, amended: the configured build, on the empty stream. -/
theorem remove_table_amended_witness :
    8 ≤ MINSEGSIZE_BITS ∧ MINSEGSIZE_BITS ≤ 25 ∧
      (fletcher_sum_split_new MINSEGSIZE_BITS []).precomputed_remove_oldbyte.length = 256 :=
  ⟨by decide, by decide, (remove_table_amended MINSEGSIZE_BITS (by decide) (by decide) []).1⟩

/-- C16 fails in the code: in the configured build, on the stream
`stale_hit_stream` the first call returns a segment that ends on the first
byte of the second `Z` block, and on exit from that call (on entry to the
next) `bytes_into_seg = SUM_WINDOW - 1` while `last_hit_at = 5 * SUM_WINDOW - 1`,
so `last_hit_at` exceeds `bytes_into_seg` plus any position within a block. -/
theorem last_hit_bound_counterexample :
    nth_result MINSEGSIZE_BITS (stale_hit_stream MINSEGSIZE_BITS) 0 =
        result.segment (one_block MINSEGSIZE_BITS ++ zero_block MINSEGSIZE_BITS ++
          one_blocks MINSEGSIZE_BITS 2 ++ [0]) ∧
      (nth_state MINSEGSIZE_BITS (stale_hit_stream MINSEGSIZE_BITS) 1).bytes_into_seg =
        SUM_WINDOW MINSEGSIZE_BITS - 1 ∧
      (nth_state MINSEGSIZE_BITS (stale_hit_stream MINSEGSIZE_BITS) 1).last_hit_at =
        5 * SUM_WINDOW MINSEGSIZE_BITS - 1 ∧
      ¬ (nth_state MINSEGSIZE_BITS (stale_hit_stream MINSEGSIZE_BITS) 1).last_hit_at ≤
        (nth_state MINSEGSIZE_BITS (stale_hit_stream MINSEGSIZE_BITS) 1).bytes_into_seg +
          SUM_WINDOW MINSEGSIZE_BITS := by
  have hW := SUM_WINDOW_pos MINSEGSIZE_BITS
  obtain ⟨h0, h1, h2, -⟩ := stale_run MINSEGSIZE_BITS (by decide) (by decide)
  refine ⟨h0, h1, h2, ?_⟩
  rw [h1, h2]
  omega

/-- C17, as stated, fails: with `MINSEGSIZE_BITS = 8`, on a stream of 129
bytes the first call returns the 129 bytes (128 read by `new`, 1 by the short
read) and leaves `bytes_into_seg = 128` with no output buffer; the sentinel
call after it leaves the same.  So on exit from the final short-read return,
and on entry to and exit from the sentinel call, `bytes_into_seg` is neither
the number of bytes in the output buffer (there is none) nor the number of
bytes that were accumulated in the buffer just returned. -/
theorem bytes_into_seg_counterexample :
    nth_result 8 sample_window_plus_one 0 = result.segment sample_window_plus_one ∧
      sample_window_plus_one.length = 129 ∧
      (nth_state 8 sample_window_plus_one 1).bytes_into_seg = 128 ∧
      (nth_state 8 sample_window_plus_one 1).outbuf = none ∧
      nth_result 8 sample_window_plus_one 1 = result.sentinel ∧
      (nth_state 8 sample_window_plus_one 2).bytes_into_seg = 128 ∧
      (nth_state 8 sample_window_plus_one 2).outbuf = none := by
  decide!

/-- C17, amended.  Whenever the segmenter holds an output buffer on entry to
or exit from a call (after `new`, after a boundary return, and in general
before the final segment has been returned), `bytes_into_seg` is the number of
bytes in that buffer; in particular this holds in every state that is not at
end of file, where the buffer exists.  Once a call is entered at end of file
it leaves no output buffer and does not change `bytes_into_seg`. -/
theorem bytes_into_seg_amended (b : Nat) (input : List Byte) (k : Nat) :
    (∀ o, (nth_state b input k).outbuf = some o →
      o.length = (nth_state b input k).bytes_into_seg) ∧
    ((nth_state b input k).eof = false →
      ∃ o, (nth_state b input k).outbuf = some o ∧
        o.length = (nth_state b input k).bytes_into_seg) ∧
    ((nth_state b input k).eof = true →
      (nth_state b input (k + 1)).outbuf = none ∧
      (nth_state b input (k + 1)).bytes_into_seg = (nth_state b input k).bytes_into_seg) := by
  refine ⟨fun o ho => outbuf_length_nth b input k o ho, ?_, ?_⟩
  · intro he
    obtain ⟨o, ho, hlen, -⟩ := (accounted_nth b input k).2 he
    exact ⟨o, ho, hlen⟩
  · intro he
    simp only [nth_state]
    cases hok : (nth_state b input k).outbuf with
    | none =>
      rw [readsegment_eof_none b _ he hok]
      exact ⟨hok, rfl⟩
    | some o' =>
      rw [readsegment_eof_some b _ o' he hok]
      exact ⟨rfl, rfl⟩

/-- C18, as stated, fails: for `MINSEGSIZE_BITS = 8` the table gives
`PRIME = 257`, which exceeds `MINSEGSIZE = 256`, so it is not the largest
prime up to `MINSEGSIZE`. -/
theorem prime_table_counterexample :
    PRIME 8 = 257 ∧ MINSEGSIZE 8 = 256 ∧ ¬ PRIME 8 ≤ MINSEGSIZE 8 := by
  decide

/-- C18, amended.  For every supported `MINSEGSIZE_BITS` in `8..25` the table
gives a prime number next to `MINSEGSIZE = 2 ^ MINSEGSIZE_BITS`: for the values
`9, 12, 13, 14, 17, 19, 20, 21, 22, 23, 24` it is the largest prime up to
`MINSEGSIZE`, and for the values `8, 10, 11, 15, 16, 18, 25` it is the smallest
prime above `MINSEGSIZE`.  For the configured value `20` it is `1048573`. -/
theorem prime_table_amended (b : Nat) (h8 : 8 ≤ b) (h25 : b ≤ 25) :
    Nat.Prime (PRIME b) ∧
      (b ∈ prime_below_bits →
        PRIME b ≤ MINSEGSIZE b ∧ ∀ q, Nat.Prime q → q ≤ MINSEGSIZE b → q ≤ PRIME b) ∧
      (b ∉ prime_below_bits →
        MINSEGSIZE b < PRIME b ∧ ∀ q, Nat.Prime q → MINSEGSIZE b < q → PRIME b ≤ q) ∧
      MINSEGSIZE_BITS ∈ prime_below_bits ∧ PRIME MINSEGSIZE_BITS = 1048573 :=
  ⟨PRIME_prime b h8 h25, PRIME_largest_below b, PRIME_smallest_above b h8 h25,
    by decide, by decide⟩

/-- Witness for C18, amended: the configured value `MINSEGSIZE_BITS = 20`. -/
theorem prime_table_amended_witness :
    8 ≤ MINSEGSIZE_BITS ∧ MINSEGSIZE_BITS ≤ 25 ∧ Nat.Prime (PRIME MINSEGSIZE_BITS) :=
  ⟨by decide, by decide, (prime_table_amended MINSEGSIZE_BITS (by decide) (by decide)).1⟩

/-- C19, as stated, fails: with `MINSEGSIZE_BITS = 8` the loop of
`sums_from_scratch` accumulates, on the window of 128 bytes `0xFF`, the
Fletcher sum `2105280`, which is not below `2 ^ FLETCHSUM_BITS = 2 ^ 21`. -/
theorem integer_sizing_counterexample :
    (List.replicate 128 (255 : Byte)).length = SUM_WINDOW 8 ∧
      FLETCHSUM_BITS 8 = 21 ∧
      (sums_loop 8 (List.replicate 128 255) (SUM_WINDOW 8) 0 (0, 0)).2 = 2105280 ∧
      ¬ (sums_loop 8 (List.replicate 128 255) (SUM_WINDOW 8) 0 (0, 0)).2 <
        2 ^ FLETCHSUM_BITS 8 := by
  decide!

/-- C19, amended.  For every supported `MINSEGSIZE_BITS` in `8..25` and every
buffer of `W = SUM_WINDOW` bytes: after each iteration the loop of
`sums_from_scratch` holds the exact byte sum and Fletcher sum of the bytes
seen so far (neither accumulator wraps); the byte sum is at most
`255 * W < 2 ^ CHARSUM_BITS`; the Fletcher sum is below
`2 ^ (FLETCHSUM_BITS + 1)`, and below `2 ^ FLETCHSUM_BITS` when
`MINSEGSIZE_BITS ≥ 9`; and the types `charsum_t` and `fletchsum_t` picked by
the `#if` ladders are wider than `CHARSUM_BITS` and `FLETCHSUM_BITS` bits. -/
theorem integer_sizing_amended (b : Nat) (h8 : 8 ≤ b) (h25 : b ≤ 25) (buf : List Byte)
    (hbuf : buf.length = SUM_WINDOW b) :
    (∀ n, n ≤ SUM_WINDOW b →
      sums_loop b buf n 0 (0, 0) = (byte_sum (buf.take n), fletcher_sum (buf.take n))) ∧
    (sums_loop b buf (SUM_WINDOW b) 0 (0, 0)).1 ≤ 255 * SUM_WINDOW b ∧
    255 * SUM_WINDOW b < 2 ^ CHARSUM_BITS b ∧
    (sums_loop b buf (SUM_WINDOW b) 0 (0, 0)).2 < 2 ^ (FLETCHSUM_BITS b + 1) ∧
    (9 ≤ b → (sums_loop b buf (SUM_WINDOW b) 0 (0, 0)).2 < 2 ^ FLETCHSUM_BITS b) ∧
    CHARSUM_BITS b < charsum_t b ∧ FLETCHSUM_BITS b < fletchsum_t b := by
  obtain ⟨h1, h2, h3, h4, h5⟩ := sizing_bounds b h8 h25
  have hall := sums_loop_from_start b h8 h25 buf (SUM_WINDOW b) (le_refl _) (by omega)
  rw [← hbuf, List.take_length] at hall
  rw [hbuf] at hall
  have hb := byte_sum_le buf
  have hf := two_fletcher_sum_le buf
  rw [hbuf] at hb hf
  refine ⟨fun n hn => sums_loop_from_start b h8 h25 buf n hn (by omega), ?_, h1, ?_, ?_, h2, h3⟩
  · rw [hall]
    exact hb
  · rw [hall]
    show fletcher_sum buf < _
    omega
  · intro h9
    have := h5 h9
    rw [hall]
    show fletcher_sum buf < _
    omega

/-- Witness for C19, amended: `MINSEGSIZE_BITS = 8` and the buffer of 128
bytes `0xFF`, whose Fletcher sum is below `2 ^ 22`. -/
theorem integer_sizing_amended_witness :
    (List.replicate 128 (255 : Byte)).length = SUM_WINDOW 8 ∧
      (sums_loop 8 (List.replicate 128 255) (SUM_WINDOW 8) 0 (0, 0)).2 <
        2 ^ (FLETCHSUM_BITS 8 + 1) :=
  ⟨by decide!, (integer_sizing_amended 8 (by decide) (by decide) (List.replicate 128 255)
    (by decide!)).2.2.2.1⟩

/-- C20 (constant streams are not split).  For every byte value `c` and every
length `n ≥ 1`, on the stream of `n` bytes `c` the first call returns the whole
stream as one (non-empty) segment and the second call returns the sentinel, so
the segmentation is that single segment, whatever `n` is.  When `c = 0` every
position with a full window is a hit; when `c ≠ 0` no position is a hit.
Proved for `8 ≤ MINSEGSIZE_BITS ≤ 24`. -/
theorem constant_input_one_segment (b : Nat) (h8 : 8 ≤ b) (h24 : b ≤ 24) (c : Byte) (n : Nat)
    (hn : 1 ≤ n) :
    List.replicate n c ≠ [] ∧
      nth_result b (List.replicate n c) 0 = result.segment (List.replicate n c) ∧
      nth_result b (List.replicate n c) 1 = result.sentinel ∧
      split b (List.replicate n c) = some [List.replicate n c] ∧
      (c = 0 → ∀ p, SUM_WINDOW b ≤ p + 1 → p < n → is_hit b (List.replicate n c) p) ∧
      (c ≠ 0 → ∀ p, ¬ is_hit b (List.replicate n c) p) := by
  obtain ⟨h0, h1⟩ := const_stream_calls b h8 h24 c n
  refine ⟨?_, h0, h1, split_of_two_calls b _ _ h0 h1, ?_, ?_⟩
  · intro h
    have := congrArg List.length h
    simp only [List.length_replicate, List.length_nil] at this
    omega
  · intro hc p hp1 hp2
    exact (is_hit_const b h8 h24 n c p).2 ⟨hp1, hp2, hc⟩
  · intro hc p hp
    exact hc ((is_hit_const b h8 h24 n c p).1 hp).2.2

/-- Witness for C20: the configured build and the stream of three bytes
`0x41`. -/
theorem constant_input_one_segment_witness :
    8 ≤ MINSEGSIZE_BITS ∧ MINSEGSIZE_BITS ≤ 24 ∧ 1 ≤ 3 ∧
      nth_result MINSEGSIZE_BITS (List.replicate 3 0x41) 0 =
        result.segment (List.replicate 3 0x41) :=
  ⟨by decide, by decide, by decide,
    (constant_input_one_segment MINSEGSIZE_BITS (by decide) (by decide) 0x41 3
      (by decide)).2.1⟩

end FletcherSumSplit
